import Mathlib

/-!
# adrus: the note/tag store, the scanner's header check, query and mutate

A shallow embedding of `src/adrus/db.c` (with the helpers of `src/jbase` it calls).

* A byte is a `Nat` (the value of an `unsigned char`); a C string is the list of its
  bytes before the terminating zero byte.
* A pointer to a `malloc`ed record is the record's address, a `Nat`; the store keeps the
  next fresh address in `brk` (nothing is freed before `db_free`, so addresses are never
  reused).  A bucket chain (`next` pointers) is the list of its records, head first.
* A growable pointer array (`tags`/`notes` with `len`, `cap`) is the list of its `len`
  elements together with `cap`.
-/

namespace Adrus

/-- The bytes of an ASCII string literal. -/
def bytes (s : String) : List Nat := s.toList.map Char.toNat

def BUCKETS : Nat := 32
def TAG_MAX : Nat := 32
def PATH_MAX : Nat := 4096
def NAME_MAX : Nat := 255

def FNV_OFFSET_BASIS : Nat := 0xcbf29ce484222325
def FNV_PRIME : Nat := 0x100000001b3

/-- Source `jb_fnv1a` (hash.c): per byte, multiply by the prime (64-bit wrap) and then
xor the byte in. -/
def jb_fnv1a (buf : List Nat) : Nat :=
  buf.foldl (fun hash b => Nat.xor ((hash * FNV_PRIME) % 2 ^ 64) (b % 256)) FNV_OFFSET_BASIS

/-- Source `jb_fnv1a_str`: the hash of the bytes before the terminator. -/
def jb_fnv1a_str (str : List Nat) : Nat := jb_fnv1a str

/-! ## The store (db.h) -/

/-- Record `note_entry_t`. `addr` is the address `malloc` returned for the record, `tags`
the first `len` elements of the `tags` array (addresses of tag records). -/
structure note_entry where
  addr : Nat
  path : List Nat
  hash : Nat
  ctime : Int
  mtime : Int
  cap : Nat
  tags : List Nat
deriving DecidableEq, Repr

/-- Record `tag_entry_t`. `notes` holds the first `len` elements of the `notes` array
(addresses of note records). -/
structure tag_entry where
  addr : Nat
  tag : List Nat
  hash : Nat
  cap : Nat
  notes : List Nat
deriving DecidableEq, Repr

/-- Record `db_tag_t`: a filter entry, a sign and a pointer to a tag record. -/
structure db_tag_t where
  sign : Bool
  tag : Nat
deriving DecidableEq, Repr

/-- Record `db_t`: the two bucket arrays and the notebook path. `brk` is the next address
`malloc` hands out. -/
structure db_t where
  bnotes : Fin BUCKETS → List note_entry
  btags : Fin BUCKETS → List tag_entry
  path : List Nat
  brk : Nat

/-- The bucket index `hash % BUCKETS`. -/
def bucket_of (hash : Nat) : Fin BUCKETS := ⟨hash % BUCKETS, Nat.mod_lt _ (by decide)⟩

/-- The store `db_init` builds before it scans: every bucket is `NULL`. -/
def db_empty (path : List Nat) : db_t :=
  { bnotes := fun _ => [], btags := fun _ => [], path := path, brk := 1 }

/-- Source `get_note_entry`: walk the chain of the bucket, return the first record with
the same hash and path. -/
def get_note_entry (db : db_t) (path : List Nat) : Option note_entry :=
  let hash := jb_fnv1a_str path
  (db.bnotes (bucket_of hash)).find? (fun cur => cur.hash == hash && cur.path == path)

/-- Source `db_get_tag`. -/
def db_get_tag (db : db_t) (tag : List Nat) : Option tag_entry :=
  let hash := jb_fnv1a_str tag
  (db.btags (bucket_of hash)).find? (fun entry => entry.hash == hash && entry.tag == tag)

/-- Source `db_get_note`. -/
def db_get_note (db : db_t) (path : List Nat) : Option note_entry :=
  let hash := jb_fnv1a_str path
  (db.bnotes (bucket_of hash)).find? (fun entry => entry.hash == hash && entry.path == path)

/-- Source `db_def_tag`: the store after the call and the pointer returned. The record
keeps the first `TAG_MAX` bytes of the name (`memcpy(entry->tag, tag, TAG_MAX)`); for a
name shorter than `TAG_MAX` that is the name and its terminator. -/
def db_def_tag (db : db_t) (tag : List Nat) : db_t × Nat :=
  match db_get_tag db tag with
  | some entry => (db, entry.addr)
  | none =>
    let hash := jb_fnv1a_str tag
    let bucket := bucket_of hash
    let entry : tag_entry :=
      { addr := db.brk, tag := tag.take TAG_MAX, hash := hash, cap := 16, notes := [] }
    ({ db with
        btags := fun b => if b = bucket then entry :: db.btags bucket else db.btags b
        brk := db.brk + 1 }, entry.addr)

/-- Source `db_add_note`: the store the call leaves when it returns. The record keeps the
first `PATH_MAX - 1` bytes of the path (`strncpy(entry->path, path, PATH_MAX - 1)`). For
a path of `PATH_MAX - 1` bytes or more `strncpy` writes no terminator into the record,
which comes from `malloc`; the byte after the copy is then taken to be zero, so
statements about such paths hold of this definition only. On the branch where the path
is found the source calls `jb_warn` with a `%s` and no argument before it returns;
`db_add_note_call` is the call with that warning. -/
def db_add_note (db : db_t) (path : List Nat) (ctime mtime : Int) : db_t :=
  match get_note_entry db path with
  | some _ => db
  | none =>
    let hash := jb_fnv1a_str path
    let entry : note_entry :=
      { addr := db.brk, path := path.take (PATH_MAX - 1), hash := hash, ctime := ctime,
        mtime := mtime, cap := 16, tags := [] }
    { db with
        bnotes := fun b =>
          if b = bucket_of hash then entry :: db.bnotes (bucket_of hash) else db.bnotes b
        brk := db.brk + 1 }

/-- Append to a growable pointer array: `cap` doubles when `len >= cap`. -/
def grow_cap (len cap : Nat) : Nat := if len ≥ cap then cap * 2 else cap

/-- A write through a `tag_entry_t *`: the record at address `a` becomes `f` of it. -/
def poke_tag (db : db_t) (a : Nat) (f : tag_entry → tag_entry) : db_t :=
  { db with btags := fun b => (db.btags b).map (fun e => if e.addr = a then f e else e) }

/-- A write through a `note_entry_t *`. -/
def poke_note (db : db_t) (a : Nat) (f : note_entry → note_entry) : db_t :=
  { db with bnotes := fun b => (db.bnotes b).map (fun e => if e.addr = a then f e else e) }

/-- Source `db_tag_note`: define the tag, look the note up, and push each record's
address on the other's array. `db_def_tag` never returns `NULL`, so the `!tag_e` branch
is dead. -/
def db_tag_note (db : db_t) (path tag : List Nat) : db_t :=
  let r := db_def_tag db tag
  let tag_e := r.2
  match get_note_entry r.1 path with
  | none => r.1
  | some note_e =>
    let db1 := poke_tag r.1 tag_e
      (fun t => { t with cap := grow_cap t.notes.length t.cap, notes := t.notes ++ [note_e.addr] })
    poke_note db1 note_e.addr
      (fun n => { n with cap := grow_cap n.tags.length n.cap, tags := n.tags ++ [tag_e] })

/-- Source `note_has_tag`: a linear scan of the note's tag pointers. -/
def note_has_tag (note : note_entry) (tag : Nat) : Bool :=
  note.tags.any (fun t => t == tag)

/-- The filter loop of `db_query`: `matches` stays true unless some entry disagrees. -/
def filter_matches (note : note_entry) : List db_tag_t → Bool
  | [] => true
  | f :: rest => if note_has_tag note f.tag != f.sign then false else filter_matches note rest

/-- Source `db_query`: buckets in ascending order, each chain from its head; the callback
`cb` runs on every note that passes the filter. The callback's effects are threaded
through `state`. -/
def db_query {σ : Type} (db : db_t) (state : σ) (filter : List db_tag_t)
    (cb : db_t → σ → note_entry → σ) : σ :=
  (List.finRange BUCKETS).foldl
    (fun st b =>
      (db.bnotes b).foldl
        (fun st note => if filter_matches note filter then cb db st note else st) st)
    state

/-- The callback that records the notes it is called on, in call order. -/
def visit_log (_ : db_t) (log : List note_entry) (note : note_entry) : List note_entry :=
  log ++ [note]

/-- All note records of the store, in bucket order. -/
def all_notes (db : db_t) : List note_entry :=
  (List.finRange BUCKETS).flatMap db.bnotes

/-- All tag records of the store, in bucket order. -/
def all_tags (db : db_t) : List tag_entry :=
  (List.finRange BUCKETS).flatMap db.btags

/-- One call of the store's ingest/link interface. -/
inductive db_op where
  | add_note (path : List Nat) (ctime mtime : Int)
  | def_tag (tag : List Nat)
  | tag_note (path tag : List Nat)

/-- Run one call. -/
def db_op.run (db : db_t) : db_op → db_t
  | .add_note path ctime mtime => db_add_note db path ctime mtime
  | .def_tag tag => (db_def_tag db tag).1
  | .tag_note path tag => db_tag_note db path tag

/-- Run a sequence of calls, first to last. -/
def run_ops (db : db_t) (ops : List db_op) : db_t := ops.foldl db_op.run db

/-- The record `db_def_tag` creates when the name is not yet defined. -/
def new_tag (db : db_t) (tag : List Nat) : tag_entry :=
  { addr := db.brk, tag := tag.take TAG_MAX, hash := jb_fnv1a_str tag, cap := 16, notes := [] }

/-- The record `db_add_note` creates when the path is not yet registered. -/
def new_note (db : db_t) (path : List Nat) (ctime mtime : Int) : note_entry :=
  { addr := db.brk, path := path.take (PATH_MAX - 1), hash := jb_fnv1a_str path,
    ctime := ctime, mtime := mtime, cap := 16, tags := [] }

/-- Symmetry of the adjacency arrays: a tag record is pointed to by a note record exactly
when the note record is pointed to by the tag record. -/
def symmetric (db : db_t) : Prop :=
  ∀ n ∈ all_notes db, ∀ t ∈ all_tags db, t.addr ∈ n.tags ↔ n.addr ∈ t.notes

/-- Every address held in the store was handed out before `brk`. -/
def below_brk (db : db_t) : Prop :=
  (∀ n ∈ all_notes db, n.addr < db.brk ∧ ∀ a ∈ n.tags, a < db.brk) ∧
  (∀ t ∈ all_tags db, t.addr < db.brk ∧ ∀ a ∈ t.notes, a < db.brk)

/-- The filter condition in the spec's words: for every entry `(tag, sign)` of the
filter, the note has the tag exactly when `sign` is true. -/
def note_matches (n : note_entry) (filter : List db_tag_t) : Prop :=
  ∀ f ∈ filter, decide (f.tag ∈ n.tags) = f.sign

instance (n : note_entry) (filter : List db_tag_t) : Decidable (note_matches n filter) := by
  unfold note_matches; infer_instance

/-- The pointer `db_get_tag` returns for a name (`0` for `NULL`). -/
def tag_ptr (db : db_t) (name : List Nat) : Nat :=
  match db_get_tag db name with
  | some e => e.addr
  | none => 0

/-- The store with notes `a: [x]`, `b: [x, y]`, `c: []`. -/
def demo_db : db_t :=
  run_ops (db_empty (bytes "/nb"))
    [.add_note (bytes "a") 0 0, .add_note (bytes "b") 0 0, .add_note (bytes "c") 0 0,
     .tag_note (bytes "a") (bytes "x"), .tag_note (bytes "b") (bytes "x"),
     .tag_note (bytes "b") (bytes "y")]

/-- No two records of the store share an address. -/
def distinct_addrs (db : db_t) : Prop :=
  ((all_notes db).map note_entry.addr).Nodup ∧ ((all_tags db).map tag_entry.addr).Nodup

/-! ## Results, streams and the helpers of `jbase` -/

/-- Enum `jb_err_t`. -/
inductive jb_err_t where
  | JB_OK | JB_ERR_JACK | JB_ERR_LIBC | JB_ERR_OOM | JB_ERR_USER | JB_ERR_PARSER
deriving DecidableEq, Repr

/-- Record `jb_res_t`: the kind and the message (its format string, without the
arguments). -/
structure jb_res_t where
  kind : jb_err_t
  msg : String
deriving DecidableEq, Repr

def JB_OK_VAL : jb_res_t := { kind := .JB_OK, msg := "" }
def JB_ERR (k : jb_err_t) (msg : String) : jb_res_t := { kind := k, msg := msg }
def JB_ERR_LIBC (msg : String) : jb_res_t := { kind := .JB_ERR_LIBC, msg := msg }

/-- `res JB_IS_ERR`. -/
def jb_res_t.is_err (r : jb_res_t) : Bool := r.kind != .JB_OK

def ENAMETOOLONG : Nat := 36

/-- The bytes of a C string held in a buffer: those before the first zero byte. -/
def cstr (buf : List Nat) : List Nat := buf.takeWhile (fun c => c != 0)

/-- Libc `isspace` in the C locale (the program never changes the locale). -/
def isspace (c : Nat) : Bool := c == 32 || (9 ≤ c && c ≤ 13)

/-- Libc `isalnum` in the C locale. -/
def isalnum (c : Nat) : Bool :=
  (48 ≤ c && c ≤ 57) || (65 ≤ c && c ≤ 90) || (97 ≤ c && c ≤ 122)

/-- Source `valid_hdr_char`. -/
def valid_hdr_char (c : Nat) : Bool := isspace c || isalnum c || c == 95

/-- Source `validate_hdr`: walk the string up to its terminator (the end of the buffer,
where `read_line` put a zero byte, or a zero byte of the line itself). -/
def validate_hdr : List Nat → Bool
  | [] => true
  | c :: hdr => if c = 0 then true else if !valid_hdr_char c then false else validate_hdr hdr

/-- Libc `strncmp(s1, s2, n) == 0`: the strings agree on their first `n` bytes, or up to
a common terminator before that. -/
def strncmp_eq : List Nat → List Nat → Nat → Bool
  | _, _, 0 => true
  | s1, s2, n + 1 =>
    let c1 := s1.headD 0
    let c2 := s2.headD 0
    if c1 != c2 then false else if c1 == 0 then true else strncmp_eq s1.tail s2.tail n

/-- The header check of `process` and `db_mutate`:
`validate_hdr(line) && strncmp(line, "adrus", 5) == 0`. -/
def is_adrus_hdr (line : List Nat) : Bool :=
  validate_hdr line && strncmp_eq line (bytes "adrus") 5

/-- An open stream: the bytes of the file and the position of the next read. -/
structure FILE where
  data : List Nat
  pos : Nat
deriving DecidableEq, Repr

/-- The loop of `read_line` over the unread bytes: the buffer and the number of bytes
consumed so far. It stops after a newline, or when `fread` returns 0 at end of file. -/
def read_line_loop : List Nat → List Nat → Nat → List Nat × Nat
  | [], buf, n => (buf, n)
  | c :: rest, buf, n =>
    if c = 10 then (buf, n + 1) else read_line_loop rest (buf ++ [c]) (n + 1)

/-- Source `read_line`: the bytes pushed on the buffer (the caller sees them as a C
string, so up to the first zero byte) and the stream after the call. `read_err` says
that a read failed and `ferror` reports it. -/
def read_line (f : FILE) (read_err : Bool) : Except jb_res_t (List Nat × FILE) :=
  let r := read_line_loop (f.data.drop f.pos) [] 0
  if read_err then .error (JB_ERR_LIBC "read_line failed")
  else .ok (r.1, { f with pos := f.pos + r.2 })

/-- Libc `strrchr(path, c)`: the suffix of the string that starts at the last `c`. -/
def strrchr : List Nat → Nat → Option (List Nat)
  | [], _ => none
  | x :: rest, c =>
    match strrchr rest c with
    | some s => some s
    | none => if x = c then some (x :: rest) else none

/-- Source `jb_basename`: the error number and the string left in `out`. With a `/` in
the path, `strncpy(out, last + 1, size - len)` copies at most `size - len` bytes. -/
def jb_basename (path : List Nat) (size : Nat) : Nat × List Nat :=
  match strrchr path 47 with
  | none => if path.length > size then (ENAMETOOLONG, []) else (0, path)
  | some last =>
    let len := last.tail.length
    if len > size then (ENAMETOOLONG, []) else (0, last.tail.take (size - len))

/-- Source `jb_path_cat`: the error number and the string left in `out`. `strnlen` caps
both lengths at `PATH_MAX`; `p1[l1 - 1]` is the last byte of `p1` (for an empty `p1` the
byte before the string, taken to be no `/`). -/
def jb_path_cat (p1 p2 : List Nat) : Nat × List Nat :=
  let l1 := min p1.length PATH_MAX
  let l2 := min p2.length PATH_MAX
  if l1 + l2 > PATH_MAX then (ENAMETOOLONG, [])
  else
    let comb := (p1.take l1).getLast? != some 47
    (0, p1.take l1 ++ (if comb then [47] else []) ++ p2.take l2)

/-- The files of the system as the program sees them: the bytes of the file a path
names, when it can be opened for reading. -/
abbrev file_sys := List Nat → Option (List Nat)

/-- Libc `fopen(path, "r")`: `NULL` for the empty path and for a file that cannot be
opened. -/
def fopen (fs : file_sys) (path : List Nat) : Option FILE :=
  if path = [] then none else (fs path).map (fun d => { data := d, pos := 0 })

/-- Record `struct stat`, the two fields `process` reads. -/
structure stat where
  st_ctime : Int
  st_mtime : Int
deriving DecidableEq, Repr

/-! ## The scanner's per-file step -/

/-- Libc `sscanf(hdr, " %31[a-z]%n", tag_buf, &n) == 1`: skip white space, then take the
bytes in `a`..`z`, 31 at most. The result is `tag_buf` and `n`, or `none` when no byte
matches (the call returns 0 or `EOF`). -/
def sscanf_tag (hdr : List Nat) : Option (List Nat × Nat) :=
  let s := cstr hdr
  let ws := s.takeWhile isspace
  let tag_buf := ((s.drop ws.length).takeWhile (fun c => 97 ≤ c && c ≤ 122)).take 31
  if tag_buf.isEmpty then none else some (tag_buf, ws.length + tag_buf.length)

/-- The tag loop of `process` (`for (;;)`), run for at most `fuel` iterations: `none`
when the loop has not ended by then. -/
def tag_loop : Nat → db_t → List Nat → List Nat → Option db_t
  | 0, _, _, _ => none
  | fuel + 1, db, name, hdr =>
    match sscanf_tag hdr with
    | none => some db
    | some (tag_buf, n) => tag_loop fuel (db_tag_note db name tag_buf) name (hdr.drop n)

/-- Source `process`, on the store `temp`: `cwd` holds the files of the directory `nftw`
has changed to. The result is the store after the call and the value returned; `none`
when the tag loop has not ended after one iteration per byte of the header. -/
def process (cwd : file_sys) (read_err : Bool) (temp : db_t) (path : List Nat) (sb : stat) :
    Option (db_t × jb_res_t) :=
  let b := jb_basename path NAME_MAX
  if b.1 ≠ 0 then some (temp, JB_ERR_LIBC "failed to get basename of path")
  else
    let name := path.drop temp.path.length
    match fopen cwd b.2 with
    | none => some (temp, JB_ERR_LIBC "failed to open file")
    | some f =>
      match read_line f read_err with
      | .error e => some (temp, e)
      | .ok (line, _) =>
        if !validate_hdr line || !strncmp_eq line (bytes "adrus") 5 then
          some (temp, JB_OK_VAL)
        else
          let db1 := db_add_note temp name sb.st_ctime sb.st_mtime
          let hdr := line.drop 5
          (tag_loop (hdr.length + 1) db1 name hdr).map (fun db2 => (db2, JB_OK_VAL))

/-! ## Mutate -/

/-- Conversion of a `long` to `int` (`int ptr = ftell(f)`): the value modulo `2^32`, in
the signed range. -/
def to_int (n : Int) : Int := (n + 2 ^ 31) % 2 ^ 32 - 2 ^ 31

/-- Conversion of an `int` to `size_t`: the value modulo `2^64`. -/
def to_size_t (n : Int) : Nat := (n % 2 ^ 64).toNat

/-- The failures of the environment that `db_mutate` tests for: a read error while the
header is read, `ftell` or `fseek` failing, `fread` returning fewer bytes than the file
holds, `freopen` failing. -/
structure io_faults where
  read_err : Bool
  ftell_ptr : Bool
  fseek_end : Bool
  ftell_len : Bool
  fread_short : Bool
  freopen : Bool
deriving DecidableEq, Repr

/-- No failure of the environment. -/
def no_faults : io_faults :=
  { read_err := false, ftell_ptr := false, fseek_end := false, ftell_len := false,
    fread_short := false, freopen := false }

/-- The inner loop of the first pass of `db_mutate`: is there a filter entry with sign
false for the tag `t`? -/
def is_filtered : List db_tag_t → Nat → Bool
  | [], _ => false
  | f :: rest, t => if !f.sign && f.tag == t then true else is_filtered rest t

/-- The first pass of `db_mutate` over the note's tags: push the tags that are not
filtered on the buffer `tags`. -/
def neg_pass : List Nat → List db_tag_t → List Nat → List Nat
  | [], _, tags => tags
  | t :: rest, filter, tags =>
    neg_pass rest filter (if !is_filtered filter t then tags ++ [t] else tags)

/-- The inner loop of the second pass: is `tag` already in the buffer? -/
def is_dup : List Nat → Nat → Bool
  | [], _ => false
  | t :: rest, tag => if t == tag then true else is_dup rest tag

/-- The second pass of `db_mutate` over the filter: push the tag of every entry with
sign true that is not yet in the buffer. -/
def pos_pass : List db_tag_t → List Nat → List Nat
  | [], tags => tags
  | f :: rest, tags =>
    if !f.sign then pos_pass rest tags
    else pos_pass rest (if !is_dup tags f.tag then tags ++ [f.tag] else tags)

/-- The tag pointers `db_mutate` serialises, from the note's tag array and the filter. -/
def mutate_tags (note_tags : List Nat) (filter : List db_tag_t) : List Nat :=
  pos_pass filter (neg_pass note_tags filter [])

/-- The string `tags[i]->tag` of the tag record at an address (empty for an address that
is no tag record of the store). -/
def tag_name (db : db_t) (a : Nat) : List Nat :=
  match (all_tags db).find? (fun t => t.addr == a) with
  | some t => t.tag
  | none => []

/-- What `db_mutate` writes after `freopen`: the magic and a space, each tag name and a
space, a newline, the body. -/
def serialise (db : db_t) (tags : List Nat) (content : List Nat) : List Nat :=
  bytes "adrus " ++ tags.flatMap (fun t => tag_name db t ++ [32]) ++ [10] ++ content

/-- Lines 375-396 of `db_mutate`: find the length of the rest of the file with `ftell`
and `fseek`, then read it. `ptr`, `flen` are `int`, `clen` is `size_t`; a failed
`fseek(f, ptr, SEEK_SET)` (negative `ptr`) leaves the position at the end. `malloc` is
taken to succeed, as the source takes it. -/
def read_rest (flt : io_faults) (f : FILE) : Except jb_res_t (List Nat) :=
  let ptr := to_int f.pos
  if flt.ftell_ptr || ptr == -1 then .error (JB_ERR_LIBC "failed to get position in file")
  else if flt.fseek_end then .error (JB_ERR_LIBC "failed to seek in file")
  else
    let flen := to_int f.data.length
    if flt.ftell_len || flen == -1 then
      .error (JB_ERR_LIBC "failed to get position in file")
    else
      let clen := to_size_t (to_int (flen - ptr))
      let start := if 0 ≤ ptr then ptr.toNat else f.data.length
      let avail := f.data.drop start
      if clen > 0 && (flt.fread_short || avail.length < clen) then
        .error (JB_ERR_LIBC "failed to read contents of note")
      else .ok (avail.take clen)

/-- Source `db_mutate`: the value returned and the files after the call. The results of
the writes are not tested by the source and the writes are taken to succeed. -/
def db_mutate (fs : file_sys) (flt : io_faults) (db : db_t) (name : List Nat)
    (filter : List db_tag_t) : jb_res_t × file_sys :=
  let path := (jb_path_cat db.path name).2
  match db_get_note db name with
  | none => (JB_ERR .JB_ERR_USER "no note", fs)
  | some note =>
    match fopen fs path with
    | none => (JB_ERR_LIBC "failed to open note", fs)
    | some f0 =>
      match read_line f0 flt.read_err with
      | .error e => (e, fs)
      | .ok (line, f) =>
        if !validate_hdr line || !strncmp_eq line (bytes "adrus") 5 then
          (JB_ERR .JB_ERR_USER "path is not adrus note", fs)
        else
          match read_rest flt f with
          | .error e => (e, fs)
          | .ok content =>
            let tags := mutate_tags note.tags filter
            if flt.freopen then (JB_ERR_LIBC "failed to open note for writing", fs)
            else
              (JB_OK_VAL,
                fun p => if p = path then some (serialise db tags content) else fs p)

/-- The tags that stay, in the spec's words: the note's tags without those that have a
`(tag, false)` entry in the filter, order kept. -/
def spec_kept (ts : List Nat) (filter : List db_tag_t) : List Nat :=
  ts.filter (fun t => decide (¬ ∃ f ∈ filter, f.sign = false ∧ f.tag = t))

/-- One addition, in the spec's words: a `(tag, true)` entry appends its tag unless the
list built so far has it. -/
def spec_add (acc : List Nat) (f : db_tag_t) : List Nat :=
  if f.sign = true ∧ f.tag ∉ acc then acc ++ [f.tag] else acc

/-- The tag list of a mutation, in the spec's words: the kept tags, then the additions in
filter order. -/
def spec_mutate_tags (ts : List Nat) (filter : List db_tag_t) : List Nat :=
  filter.foldl spec_add (spec_kept ts filter)

/-- The first line of a file: its bytes before the first newline (all of them when there
is none). -/
def first_line (data : List Nat) : List Nat := data.takeWhile (fun c => c != 10)

/-- The header grammar in the spec's words: every character is white space,
alphanumeric or an underscore, and the line begins with the five characters `adrus`. -/
def hdr_ok (line : List Nat) : Prop :=
  (∀ c ∈ line, valid_hdr_char c = true) ∧ line.take 5 = bytes "adrus"

instance (line : List Nat) : Decidable (hdr_ok line) := by
  unfold hdr_ok; infer_instance

/-- The offset just after the header line: past its newline, or the end of a file
without a newline. -/
def hdr_end (data : List Nat) : Nat :=
  (first_line data).length + (if (first_line data).length < data.length then 1 else 0)

/-- The directory of the examples as `process` sees it: one file `a` holding
`adrus foo bar\nBODY`. -/
def demo_cwd : file_sys :=
  fun p => if p = bytes "a" then some (bytes "adrus foo bar\nBODY") else none

/-- The store after scanning that file as `/nb/a` under the notebook `/nb`, and after
the filter arguments `-bar +baz` have been taken (`take_tag` calls `db_def_tag`). -/
def scanned_db : db_t :=
  match process demo_cwd false (db_empty (bytes "/nb")) (bytes "/nb/a") ⟨0, 0⟩ with
  | some r => (db_def_tag (db_def_tag r.1 (bytes "bar")).1 (bytes "baz")).1
  | none => db_empty (bytes "/nb")

/-- The files of the examples as `db_mutate` sees them: the note `/a` of the notebook
`/nb` is opened as `/nb//a`. -/
def demo_fs : file_sys :=
  fun p => if p = bytes "/nb//a" then some (bytes "adrus foo bar\nBODY") else none

/-- The filter `[(bar, false), (baz, true)]`. -/
def demo_filter : List db_tag_t :=
  [⟨false, tag_ptr scanned_db (bytes "bar")⟩, ⟨true, tag_ptr scanned_db (bytes "baz")⟩]

/-- A body of `2^32` bytes. -/
def big_body (c : Nat) : List Nat := List.replicate (2 ^ 32) c

/-- The note `/a` of the examples with a body of `2^32` bytes `x` after its header. -/
def big_fs : file_sys :=
  fun p => if p = bytes "/nb//a" then some (bytes "adrus foo bar" ++ 10 :: big_body 120)
    else none

/-- The same note with a body of `2^32` bytes `B`. -/
def big_fs_b : file_sys :=
  fun p => if p = bytes "/nb//a" then some (bytes "adrus foo bar" ++ 10 :: big_body 66)
    else none

/-- A directory whose file `a` has a zero byte and an `@` in its first line. -/
def nul_cwd : file_sys :=
  fun p => if p = bytes "a" then some (bytes "adrus" ++ [0, 64] ++ bytes "\nBODY") else none

/-- A directory whose file `a` has the first line `adrusfoo`. -/
def glued_cwd : file_sys :=
  fun p => if p = bytes "a" then some (bytes "adrusfoo\nBODY") else none

/-- A directory whose file `a` has a `-` in its first line. -/
def bad_cwd : file_sys :=
  fun p => if p = bytes "a" then some (bytes "adrus f-o\nBODY") else none

/-- A header line in the spec's words: the magic, then tokens, each after its run of white
space, then trailing white space. A token is given with the white space before it. -/
def tagged_hdr (toks : List (List Nat × List Nat)) (trail : List Nat) : List Nat :=
  bytes "adrus" ++ toks.flatMap (fun p => p.1 ++ p.2) ++ trail

/-- A well-formed token: at least one white-space character before it, and a non-empty
run of at most 31 letters `a`..`z`. -/
def token_ok (p : List Nat × List Nat) : Prop :=
  p.1 ≠ [] ∧ (∀ c ∈ p.1, isspace c = true) ∧
  p.2 ≠ [] ∧ p.2.length ≤ 31 ∧ ∀ c ∈ p.2, 97 ≤ c ∧ c ≤ 122

instance (p : List Nat × List Nat) : Decidable (token_ok p) := by
  unfold token_ok; infer_instance

/-- The store after the `db_tag_note` calls for a list of tag names, in order. -/
def link_all (db : db_t) (name : List Nat) (tags : List (List Nat)) : db_t :=
  tags.foldl (fun d t => db_tag_note d name t) db

/-- The address `a` is that of a tag record of the store named `nm`. -/
def names_tag (db : db_t) (a : Nat) (nm : List Nat) : Prop :=
  ∃ u ∈ all_tags db, u.addr = a ∧ u.tag = nm

/-- A call whose key fits the record's field together with its terminator: a path shorter
than `PATH_MAX - 1` for `db_add_note` (`strncpy` then pads the field with zero bytes), a
tag name shorter than `TAG_MAX` for `db_def_tag` and `db_tag_note`. -/
def db_op.bounded : db_op → Prop
  | .add_note path _ _ => path.length < PATH_MAX - 1
  | .def_tag tag => tag.length < TAG_MAX
  | .tag_note _ tag => tag.length < TAG_MAX

/-- Every record sits in the bucket of its hash, and its hash is that of its key. -/
def keyed (db : db_t) : Prop :=
  (∀ b, ∀ e ∈ db.bnotes b, e.hash = jb_fnv1a_str e.path ∧ bucket_of e.hash = b) ∧
  (∀ b, ∀ e ∈ db.btags b, e.hash = jb_fnv1a_str e.tag ∧ bucket_of e.hash = b)

/-- Uniqueness: no two note records hold the same path, no two tag records the same
name. -/
def unique_keys (db : db_t) : Prop :=
  ((all_notes db).map note_entry.path).Nodup ∧ ((all_tags db).map tag_entry.tag).Nodup

/-- The paths registered by a sequence of calls. -/
def note_keys : List db_op → List (List Nat)
  | [] => []
  | .add_note path _ _ :: ops => path :: note_keys ops
  | _ :: ops => note_keys ops

/-- The tag names registered by a sequence of calls. -/
def tag_keys : List db_op → List (List Nat)
  | [] => []
  | .def_tag tag :: ops => tag :: tag_keys ops
  | .tag_note _ tag :: ops => tag :: tag_keys ops
  | _ :: ops => tag_keys ops

instance (op : db_op) : Decidable op.bounded := by
  cases op <;> unfold db_op.bounded <;> infer_instance

/-- A name of 33 bytes: 32 letters `a` and the byte `c`. -/
def long_name (c : Nat) : List Nat := List.replicate 32 97 ++ [c]

/-- A directory whose file `a` lists the tag `foo` twice. -/
def dup_cwd : file_sys :=
  fun p => if p = bytes "a" then some (bytes "adrus foo foo\nBODY") else none

/-! ## Listing -/

/-- Flag `FNM_EXTMATCH` of glibc's `fnmatch.h`. -/
def FNM_EXTMATCH : Nat := 32

/-- Source `ls_glob`: `state` is the glob; a note whose path matches is printed on
`stdout` with a newline. The state threaded through `db_query` is the glob together
with the bytes written to `stdout`. Libc `fnmatch` is a parameter (pattern, string,
flags; 0 on a match). -/
def ls_glob (fnmatch : List Nat → List Nat → Nat → Int) (_ : db_t)
    (st : List Nat × List Nat) (note : note_entry) : List Nat × List Nat :=
  if fnmatch st.1 note.path FNM_EXTMATCH = 0 then (st.1, st.2 ++ note.path ++ [10]) else st

/-- Source `db_ls`: the bytes on `stdout` after the call. -/
def db_ls (fnmatch : List Nat → List Nat → Nat → Int) (db : db_t) (glob : List Nat)
    (filter : List db_tag_t) (stdout : List Nat) : List Nat :=
  (db_query db (glob, stdout) filter (ls_glob fnmatch)).2

/-- A matcher that agrees with `fnmatch` on the pattern `*.md`: 0 exactly when the
string ends in `.md`. -/
def fnmatch_md (pat s : List Nat) (_ : Nat) : Int :=
  if pat = bytes "*.md" ∧ (bytes ".md").isSuffixOf s then 0 else 1

/-- The store with notes `a.md: [x]`, `b.txt: [x]`, `c.md: []`. -/
def glob_db : db_t :=
  run_ops (db_empty (bytes "/nb"))
    [.add_note (bytes "a.md") 0 0, .add_note (bytes "b.txt") 0 0, .add_note (bytes "c.md") 0 0,
     .tag_note (bytes "a.md") (bytes "x"), .tag_note (bytes "b.txt") (bytes "x")]

/-! ## The collector -/

/-- An entry of a directory as `readdir` reports it: a regular file (`DT_REG`), a
directory (`DT_DIR`) with its own entries, or an entry of any other type. The entries
`.` and `..`, which `delete_empty` skips, are not part of the tree. -/
inductive fs_node where
  | file (name : List Nat)
  | other (name : List Nat)
  | dir (name : List Nat) (entries : List fs_node)
deriving Repr

/-- The end of `delete_empty`, after the loop: `rmdir(path)` when `empty` is set, which
removes the directory if nothing is left in it (and fails otherwise; the source does not
test it), then `*e = empty`. The second component is what is left of the directory:
`none` when it is gone. -/
def rmdir_step (r : Except jb_res_t Bool × List fs_node) :
    Except jb_res_t Bool × Option (List fs_node) :=
  match r with
  | (.error err, left) => (.error err, some left)
  | (.ok empty, left) => (.ok empty, if empty && left.isEmpty then none else some left)

mutual
/-- One iteration of the `readdir` loop of `delete_empty` on the directory at `path`: the
`switch` on the entry's type. The result is the new value of `empty`, or the error that
ends the call, and what is left of the entry. A subdirectory is visited by the whole of
`delete_empty`, loop and `rmdir`. Two things the source leaves unchecked are taken to go
well here: every directory of the tree opens (the result of `opendir` is not tested
before `readdir`), and `buf`, declared with `PATH_MAX` bytes, one fewer than
`jb_path_cat` zeroes, holds the joined path. For a joined path of `PATH_MAX` bytes or
more neither is so in the program; `fits` excludes such trees. -/
def visit_entry (path : List Nat) : fs_node → Bool → Except jb_res_t Bool × Option fs_node
  | .file n, _ => (.ok false, some (.file n))
  | .other n, empty => (.ok empty, some (.other n))
  | .dir n sub, empty =>
    if (jb_path_cat path n).1 ≠ 0 then
      (.error (JB_ERR_LIBC "failed to concatenate paths"), some (.dir n sub))
    else
      match rmdir_step (readdir_loop (jb_path_cat path n).2 sub true) with
      | (.error err, left) => (.error err, some (.dir n (left.getD [])))
      | (.ok em, none) => (.ok (empty && em), none)
      | (.ok em, some left) => (.ok (empty && em), some (.dir n left))
/-- The `readdir` loop of `delete_empty`, from the entries not yet read and the value of
`empty`: the final `empty`, or the error of a nested call, and the entries left in the
directory. -/
def readdir_loop (path : List Nat) : List fs_node → Bool → Except jb_res_t Bool × List fs_node
  | [], empty => (.ok empty, [])
  | ent :: rest, empty =>
    match visit_entry path ent empty with
    | (.error err, left) => (.error err, left.toList ++ rest)
    | (.ok empty2, left) =>
      ((readdir_loop path rest empty2).1, left.toList ++ (readdir_loop path rest empty2).2)
end

/-- Source `delete_empty` on the directory at `path` with the given entries: the value
returned with `*e`, and what is left of the directory (`none` when it was removed). -/
def delete_empty (path : List Nat) (entries : List fs_node) :
    Except jb_res_t Bool × Option (List fs_node) :=
  rmdir_step (readdir_loop path entries true)

mutual
/-- The subtree of an entry holds a regular file. -/
def has_file_node : fs_node → Bool
  | .file _ => true
  | .other _ => false
  | .dir _ sub => has_file sub
/-- The subtrees of the entries hold a regular file. -/
def has_file : List fs_node → Bool
  | [] => false
  | ent :: rest => has_file_node ent || has_file rest
end

mutual
/-- The subtree of an entry is made of regular files and directories only. -/
def plain_node : fs_node → Bool
  | .file _ => true
  | .other _ => false
  | .dir _ sub => plain sub
/-- The subtrees of the entries are made of regular files and directories only. -/
def plain : List fs_node → Bool
  | [] => true
  | ent :: rest => plain_node ent && plain rest
end

mutual
/-- Every path `delete_empty` builds below an entry of the directory at `path` fits the
buffer it is built in, `char buf[PATH_MAX]`, together with its terminator: `jb_path_cat`
returns 0 and the joined path is shorter than `PATH_MAX`. -/
def fits_node (path : List Nat) : fs_node → Bool
  | .file _ => true
  | .other _ => true
  | .dir n sub =>
    ((jb_path_cat path n).1 == 0 && decide ((jb_path_cat path n).2.length < PATH_MAX)) &&
      fits (jb_path_cat path n).2 sub
/-- Every path `delete_empty` builds below the directory at `path` fits its buffer: each
joined path is shorter than `PATH_MAX`. -/
def fits (path : List Nat) : List fs_node → Bool
  | [] => true
  | ent :: rest => fits_node path ent && fits path rest
end

mutual
/-- An entry pruned in the spec's words: a directory without a regular file in its
subtree is removed, any other directory is kept with its entries pruned. -/
def prune_node : fs_node → Option fs_node
  | .file n => some (.file n)
  | .other n => some (.other n)
  | .dir n sub => if has_file sub then some (.dir n (prune sub)) else none
/-- The entries of a directory, pruned. -/
def prune : List fs_node → List fs_node
  | [] => []
  | ent :: rest => (prune_node ent).toList ++ prune rest
end

mutual
/-- The kind and name of an entry and of what lies below it, in order (`0` file, `1`
other, `2` directory, `3` end of a directory). -/
def listing_node : fs_node → List (Nat × List Nat)
  | .file n => [(0, n)]
  | .other n => [(1, n)]
  | .dir n sub => (2, n) :: (listing sub ++ [(3, n)])
/-- The kinds and names of the entries of a directory and of what lies below them. -/
def listing : List fs_node → List (Nat × List Nat)
  | [] => []
  | ent :: rest => listing_node ent ++ listing rest
end

/-- Source `cmd_t`. -/
inductive cmd_t
  | CMD_QUERY
  | CMD_OPEN
  | CMD_MODIFY
  | CMD_RM
  | CMD_LS
deriving DecidableEq, Repr

/-- Source `args_t`: the argument strings and the index `ptr` of the next one; `len` is the
length of the list. An argument is a C string, a byte list without a zero byte. -/
structure args_t where
  args : List (List Nat)
  ptr : Nat
deriving DecidableEq, Repr

/-- Source `end`: is the argument stream used up? -/
def args_end (args : args_t) : Bool := decide (args.ptr ≥ args.args.length)

/-- Source `take`: the next argument, consumed (`none` is `NULL`). -/
def take (args : args_t) : Option (List Nat) × args_t :=
  if args_end args then (none, args)
  else (args.args.get? args.ptr, { args with ptr := args.ptr + 1 })

/-- Source `take_tag`: `none` when it returns false (nothing is written then); otherwise
the entry written to `*f`, the store after `db_def_tag(db, arg + 1)` and the argument
stream after `take`. -/
def take_tag (args : args_t) (db : db_t) : Option (db_tag_t × db_t × args_t) :=
  if args_end args then none
  else
    match args.args.getD args.ptr [] with
    | [] => none
    | c :: name =>
      if c = 43 then
        let r := db_def_tag db name
        some ({ sign := true, tag := r.2 }, r.1, (take args).2)
      else if c = 45 then
        let r := db_def_tag db name
        some ({ sign := false, tag := r.2 }, r.1, (take args).2)
      else none

/-- The loop `while (take_tag(&args, db, &f))` of `cmdline_parse`, run for at most `fuel`
iterations: the argument stream, the store, the command and the buffer of entries when
it ends, `none` when it has not ended by then. -/
def take_tags : Nat → args_t → db_t → cmd_t → List db_tag_t →
    Option (args_t × db_t × cmd_t × List db_tag_t)
  | 0, _, _, _, _ => none
  | fuel + 1, args, db, cmd, buf =>
    match take_tag args db with
    | none => some (args, db, cmd, buf)
    | some (f, db1, args1) =>
      take_tags fuel args1 db1 (if cmd = cmd_t.CMD_OPEN then cmd_t.CMD_MODIFY else cmd)
        (buf ++ [f])

/-- The order inside the chains: every note record sits in the bucket of its hash, and in
each chain a record comes before the records allocated earlier (the addresses handed out
grow with every allocation). -/
def chain_order (db : db_t) : Prop :=
  ∀ b, (db.bnotes b).Pairwise (fun x y => y.addr < x.addr) ∧
    ∀ e ∈ db.bnotes b, bucket_of e.hash = b

/-- Every tag pointer held by a note record is the address of a tag record. -/
def tags_known (db : db_t) : Prop :=
  ∀ n ∈ all_notes db, ∀ a ∈ n.tags, ∃ nm, names_tag db a nm

/-- The invariants of a store built by calls whose keys fit the records. -/
def well_formed (db : db_t) : Prop :=
  symmetric db ∧ below_brk db ∧ distinct_addrs db ∧ keyed db ∧ unique_keys db ∧ tags_known db

/-- What a store registers, in the spec's words: each note path with the names of the
note's tags. -/
def note_view (db : db_t) : List (List Nat × List (List Nat)) :=
  (all_notes db).map (fun n => (n.path, n.tags.map (tag_name db)))

/-- Every path of the first view is a path of the second, and every tag name listed
under a path in the first is listed under that path in the second. -/
def covers (v w : List (List Nat × List (List Nat))) : Prop :=
  ∀ x ∈ v, (∃ y ∈ w, y.1 = x.1) ∧ ∀ t ∈ x.2, ∃ y ∈ w, y.1 = x.1 ∧ t ∈ y.2

/-- Two stores register the same set of note paths with the same tag set per note. -/
def same_notes (db1 db2 : db_t) : Prop :=
  covers (note_view db1) (note_view db2) ∧ covers (note_view db2) (note_view db1)

instance (db1 db2 : db_t) : Decidable (same_notes db1 db2) := by
  unfold same_notes covers; infer_instance

/-- A note meets a tag argument, in the spec's words: it has a tag of that name exactly
when the sign is `+`. -/
def arg_holds (db : db_t) (n : note_entry) : List Nat → Prop
  | [] => True
  | c :: name => name ∈ n.tags.map (tag_name db) ↔ c = 43

/-- A query from the command line: the filter loop of `cmdline_parse` on the tag
arguments, then `db_query` with a visitor that records the path of each note it is
called on (`callback` of `main` prints it). -/
def query_paths (db : db_t) (args : List (List Nat)) : Option (List (List Nat)) :=
  (take_tags (args.length + 1) ⟨args, 0⟩ db cmd_t.CMD_QUERY []).map
    (fun r => (db_query r.2.1 [] r.2.2.2 visit_log).map note_entry.path)

/-! ## Hashing and path helpers, in the spec's words -/

/-- The reference 64-bit FNV-1a function, in the spec's words: from the offset basis, for
each byte first xor the byte into the hash, then multiply by the prime, modulo `2^64`. -/
def fnv1a_reference (buf : List Nat) : Nat :=
  buf.foldl (fun hash b => (Nat.xor hash (b % 256) * FNV_PRIME) % 2 ^ 64) FNV_OFFSET_BASIS

/-- A string of `PATH_MAX + 1` bytes. -/
def over_path : List Nat := List.replicate 4097 97

/-- A string of `PATH_MAX - 1` bytes that does not end in `/`. -/
def edge_path : List Nat := List.replicate 4095 97

/-! ## Parent directories (io.c, main.c) -/

/-- A run of letters cut into tags, in the spec's words: pieces of 31 letters, the last
one holding the letters that remain. `k` bounds the number of pieces. -/
def chunks31 : Nat → List Nat → List (List Nat)
  | 0, _ => []
  | k + 1, run => if run.isEmpty then [] else run.take 31 :: chunks31 k (run.drop 31)

mutual
/-- The regular files in the subtree of an entry, in the spec's words: each by its path
below the directory that holds the entry, as the list of its components. -/
def file_paths_node : fs_node → List (List (List Nat))
  | .file n => [[n]]
  | .other _ => []
  | .dir n sub => (file_paths sub).map (fun p => n :: p)
/-- The regular files below a directory with the given entries. -/
def file_paths : List fs_node → List (List (List Nat))
  | [] => []
  | ent :: rest => file_paths_node ent ++ file_paths rest
end

mutual
/-- The directories in the subtree of an entry whose own subtree holds a regular file,
each by its path. -/
def file_dirs_node : fs_node → List (List (List Nat))
  | .file _ => []
  | .other _ => []
  | .dir n sub => if has_file sub then [n] :: (file_dirs sub).map (fun p => n :: p) else []
/-- The directories below a directory with the given entries whose subtree holds a
regular file. -/
def file_dirs : List fs_node → List (List (List Nat))
  | [] => []
  | ent :: rest => file_dirs_node ent ++ file_dirs rest
end

/-! ## Parsing the command line (cmdline.c) -/

/-- Source `peek`: the next argument, not consumed (`none` is `NULL`). -/
def peek (args : args_t) : Option (List Nat) :=
  if args_end args then none else args.args.get? args.ptr

/-- Source `take_path`: `none` when it returns false; otherwise the string copied to
`path` (`strncpy` with `PATH_MAX` into the zeroed buffer) and the stream after `take`. -/
def take_path (args : args_t) : Option (List Nat × args_t) :=
  if args_end args then none
  else
    let arg := args.args.getD args.ptr []
    if arg.headD 0 ≠ 47 then none else some (arg.take PATH_MAX, (take args).2)

/-- Source `one_of_t`: `str` is `none` for `NULL`. -/
structure one_of_t where
  str : Option (List Nat)
  val : cmd_t
deriving DecidableEq, Repr

/-- Source `LAST_OF`. -/
def LAST_OF : one_of_t := { str := none, val := cmd_t.CMD_QUERY }

/-- The `for (;;)` loop of `take_one_of` over the values `va_arg` yields: it ends at an
item with a `NULL` string or at the first item equal to the argument. When the values
run out before that, the call has no defined result (`none`). -/
def one_of_loop (args : args_t) (arg : List Nat) : List one_of_t → Option (cmd_t × args_t)
  | [] => none
  | item :: rest =>
    match item.str with
    | none => some (cmd_t.CMD_QUERY, args)
    | some s => if s = arg then some (item.val, (take args).2) else one_of_loop args arg rest

/-- Source `take_one_of`, on the values `va_arg` yields in order. -/
def take_one_of (args : args_t) (items : List one_of_t) : Option (cmd_t × args_t) :=
  match peek args with
  | none => some (cmd_t.CMD_QUERY, args)
  | some arg => one_of_loop args arg items

/-- Source `cmdline_t`: `tags` holds the `len` filter entries. -/
structure cmdline_t where
  cmd : cmd_t
  path : List Nat
  tags : List db_tag_t
  len : Nat
deriving DecidableEq, Repr

/-- The end of `cmdline_parse`, shared by its two branches: the filter loop, then the
copy of the buffer to `cmd->tags`. -/
def parse_tags (args : args_t) (db : db_t) (cmd : cmd_t) (path : List Nat) :
    Option (jb_res_t × cmdline_t × db_t) :=
  (take_tags (args.args.length + 1) args db cmd []).map
    (fun r => (JB_OK_VAL, { cmd := r.2.2.1, path := path, tags := r.2.2.2, len := r.2.2.2.length },
      r.2.1))

/-- Source `cmdline_parse` on `argv` (`argc` is its length): the value returned, the
command line and the store, or `none` when the call has no defined result. The call of
`take_one_of` passes the items for `rm` and `ls` and no `LAST_OF`, so on any other first
argument the loop reads a third item that was never passed; `va_rest` stands for the
values `va_arg` yields from there on, which C leaves undefined. -/
def cmdline_parse (va_rest : List one_of_t) (db : db_t) (argv : List (List Nat)) :
    Option (jb_res_t × cmdline_t × db_t) :=
  let args : args_t := { args := argv, ptr := 1 }
  match take_one_of args
      ([{ str := some (bytes "rm"), val := cmd_t.CMD_RM },
        { str := some (bytes "ls"), val := cmd_t.CMD_LS }] ++ va_rest) with
  | none => none
  | some (c, args1) =>
    if c ≠ cmd_t.CMD_QUERY then
      match take_path args1 with
      | none =>
        some (JB_ERR .JB_ERR_USER "usage: %s [PATH] +/-[TAG]...",
          { cmd := c, path := [], tags := [], len := 0 }, db)
      | some (path, args2) =>
        if argv.length < 3 then
          some (JB_ERR .JB_ERR_USER "usage: %s [PATH] +/-[TAG]...",
            { cmd := c, path := path, tags := [], len := 0 }, db)
        else parse_tags args2 db c path
    else
      match take_path args1 with
      | some (path, args2) => parse_tags args2 db cmd_t.CMD_OPEN path
      | none => parse_tags args1 db c []

/-- Is the argument a tag argument, one that starts with `+` or `-`? -/
def is_tag_arg (a : List Nat) : Bool := a.head? == some 43 || a.head? == some 45

/-- The filter for a run of tag arguments, in the spec's words: one entry per argument,
in order, with sign true for `+`, its tag the one `db_def_tag` returns for the name; and
the store after these calls. -/
def resolve_tags : db_t → List (List Nat) → db_t × List db_tag_t
  | db, [] => (db, [])
  | db, a :: rest =>
    let r := db_def_tag db a.tail
    let q := resolve_tags r.1 rest
    (q.1, { sign := a.head? == some 43, tag := r.2 } :: q.2)

/-! ## Logging (log.c) and the warning of `db_add_note` -/

/-- Enum `jb_llevel_t`. -/
inductive jb_llevel_t where
  | JB_TRACE | JB_DEBUG | JB_INFO | JB_WARN | JB_ERROR
deriving DecidableEq, Repr

/-- The value of a log level as an integer. -/
def jb_llevel_t.rank : jb_llevel_t → Nat
  | .JB_TRACE => 0
  | .JB_DEBUG => 1
  | .JB_INFO => 2
  | .JB_WARN => 3
  | .JB_ERROR => 4

/-- The number of arguments `vfprintf` reads for a format string: one for each `%`
conversion, none for `%%`. -/
def fmt_conversions : List Nat → Nat
  | [] => 0
  | [_] => 0
  | c :: d :: rest =>
    if c = 37 then (if d = 37 then fmt_conversions rest else 1 + fmt_conversions rest)
    else fmt_conversions (d :: rest)

/-- Source `jb_log_inner`, as far as its caller is concerned: does the call return? A
message below the filter is dropped before it is formatted. Otherwise `vfprintf` reads
one argument per conversion of `fmt`; with fewer than that passed it reads an argument
that is not there, and the call has no defined result (`none`). What is printed is not
modelled. `filter` is `JB_INFO` unless the environment variable `LOG_FILTER` says
otherwise. -/
def jb_log_inner (filter level : jb_llevel_t) (fmt : List Nat) (nargs : Nat) : Option Unit :=
  if level.rank < filter.rank then some ()
  else if fmt_conversions fmt ≤ nargs then some () else none

/-- Source `db_add_note`, the whole call: when the path is found,
`jb_warn("note '%s' already registered")`, with no argument for the `%s`, and the store
as it was; otherwise the store with the new record. `none` when the call has no defined
result. -/
def db_add_note_call (filter : jb_llevel_t) (db : db_t) (path : List Nat) (ctime mtime : Int) :
    Option db_t :=
  match get_note_entry db path with
  | some _ =>
    (jb_log_inner filter .JB_WARN (bytes "note '%s' already registered") 0).map (fun _ => db)
  | none => some (db_add_note db path ctime mtime)

/-- Lookups by a name that fits are exact, whatever other tag records the store holds:
every tag record with a name shorter than `TAG_MAX` sits in the bucket of the hash of its
name, no two such records share a name, and every tag pointer of a note is the address
of such a record. (The filter loop may add records for longer names; no note points to
them.) -/
def names_exact (db : db_t) : Prop :=
  below_brk db ∧ distinct_addrs db ∧
  (∀ b, ∀ e ∈ db.btags b, e.tag.length < TAG_MAX →
    e.hash = jb_fnv1a_str e.tag ∧ bucket_of e.hash = b) ∧
  (∀ u ∈ all_tags db, ∀ v ∈ all_tags db, u.tag = v.tag → u.tag.length < TAG_MAX → u = v) ∧
  (∀ n ∈ all_notes db, ∀ a ∈ n.tags, ∃ u ∈ all_tags db, u.addr = a ∧ u.tag.length < TAG_MAX)

/-- A name of 32 bytes, `TAG_MAX`, whose hash ends in a zero byte. -/
def edge_tag : List Nat := List.replicate 30 97 ++ bytes "fq"

/-- A name of 34 bytes that starts with `edge_tag` and whose hash ends in a zero byte. -/
def edge_tag_long : List Nat := edge_tag ++ bytes "ik"
/-! # Theorems -/

/-! ## Membership lemmas for the store operations -/

theorem mem_all_notes (db : db_t) (n : note_entry) :
    n ∈ all_notes db ↔ ∃ b, n ∈ db.bnotes b := by
  simp [all_notes, List.mem_flatMap]

theorem mem_all_tags (db : db_t) (t : tag_entry) :
    t ∈ all_tags db ↔ ∃ b, t ∈ db.btags b := by
  simp [all_tags, List.mem_flatMap]

theorem get_note_entry_mem {db : db_t} {path : List Nat} {e : note_entry}
    (h : get_note_entry db path = some e) : e ∈ all_notes db := by
  rw [mem_all_notes]
  exact ⟨_, List.mem_of_find?_eq_some h⟩

theorem db_get_tag_mem {db : db_t} {tag : List Nat} {e : tag_entry}
    (h : db_get_tag db tag = some e) : e ∈ all_tags db := by
  rw [mem_all_tags]
  exact ⟨_, List.mem_of_find?_eq_some h⟩

theorem db_def_tag_notes (db : db_t) (tag : List Nat) :
    (db_def_tag db tag).1.bnotes = db.bnotes := by
  unfold db_def_tag
  cases db_get_tag db tag <;> rfl

theorem all_notes_def_tag (db : db_t) (tag : List Nat) :
    all_notes (db_def_tag db tag).1 = all_notes db := by
  simp [all_notes, db_def_tag_notes]

theorem mem_all_tags_def_tag (db : db_t) (tag : List Nat) (t : tag_entry) :
    t ∈ all_tags (db_def_tag db tag).1 ↔
      t ∈ all_tags db ∨ (db_get_tag db tag = none ∧ t = new_tag db tag) := by
  unfold db_def_tag
  cases h : db_get_tag db tag with
  | some e => simp
  | none =>
    simp only [mem_all_tags, true_and]
    constructor
    · rintro ⟨b, hb⟩
      by_cases hbb : b = bucket_of (jb_fnv1a_str tag)
      · simp only [hbb, if_true, List.mem_cons] at hb
        rcases hb with hb | hb
        · exact Or.inr hb
        · exact Or.inl ⟨_, hb⟩
      · simp only [hbb, if_false] at hb
        exact Or.inl ⟨b, hb⟩
    · rintro (⟨b, hb⟩ | ht)
      · refine ⟨b, ?_⟩
        by_cases hbb : b = bucket_of (jb_fnv1a_str tag)
        · simp only [hbb, if_true, List.mem_cons]
          exact Or.inr (hbb ▸ hb)
        · simpa only [hbb, if_false] using hb
      · exact ⟨bucket_of (jb_fnv1a_str tag), by simp [ht, new_tag]⟩

theorem db_def_tag_brk (db : db_t) (tag : List Nat) :
    db.brk ≤ (db_def_tag db tag).1.brk := by
  unfold db_def_tag
  cases db_get_tag db tag <;> simp

/-- The pointer `db_def_tag` returns is the address of a tag record of the new store. -/
theorem db_def_tag_ret_mem (db : db_t) (tag : List Nat) :
    ∃ t ∈ all_tags (db_def_tag db tag).1, t.addr = (db_def_tag db tag).2 := by
  cases h : db_get_tag db tag with
  | some e =>
    refine ⟨e, ?_, ?_⟩
    · rw [mem_all_tags_def_tag]; exact Or.inl (db_get_tag_mem h)
    · simp [db_def_tag, h]
  | none =>
    refine ⟨new_tag db tag, ?_, ?_⟩
    · rw [mem_all_tags_def_tag]; exact Or.inr ⟨h, rfl⟩
    · simp [db_def_tag, h, new_tag]

theorem db_add_note_tags (db : db_t) (path : List Nat) (c m : Int) :
    (db_add_note db path c m).btags = db.btags := by
  unfold db_add_note
  cases get_note_entry db path <;> rfl

theorem all_tags_add_note (db : db_t) (path : List Nat) (c m : Int) :
    all_tags (db_add_note db path c m) = all_tags db := by
  simp [all_tags, db_add_note_tags]

theorem mem_all_notes_add_note (db : db_t) (path : List Nat) (c m : Int) (n : note_entry) :
    n ∈ all_notes (db_add_note db path c m) ↔
      n ∈ all_notes db ∨ (get_note_entry db path = none ∧ n = new_note db path c m) := by
  unfold db_add_note
  cases h : get_note_entry db path with
  | some e => simp
  | none =>
    simp only [mem_all_notes, true_and]
    constructor
    · rintro ⟨b, hb⟩
      by_cases hbb : b = bucket_of (jb_fnv1a_str path)
      · simp only [hbb, if_true, List.mem_cons] at hb
        rcases hb with hb | hb
        · exact Or.inr hb
        · exact Or.inl ⟨_, hb⟩
      · simp only [hbb, if_false] at hb
        exact Or.inl ⟨b, hb⟩
    · rintro (⟨b, hb⟩ | ht)
      · refine ⟨b, ?_⟩
        by_cases hbb : b = bucket_of (jb_fnv1a_str path)
        · simp only [hbb, if_true, List.mem_cons]
          exact Or.inr (hbb ▸ hb)
        · simpa only [hbb, if_false] using hb
      · exact ⟨bucket_of (jb_fnv1a_str path), by simp [ht, new_note]⟩

theorem db_add_note_brk (db : db_t) (path : List Nat) (c m : Int) :
    db.brk ≤ (db_add_note db path c m).brk := by
  unfold db_add_note
  cases get_note_entry db path <;> simp

theorem mem_all_notes_poke_note (db : db_t) (a : Nat) (f : note_entry → note_entry)
    (n : note_entry) :
    n ∈ all_notes (poke_note db a f) ↔
      ∃ m ∈ all_notes db, n = if m.addr = a then f m else m := by
  simp only [mem_all_notes, poke_note, List.mem_map]
  constructor
  · rintro ⟨b, m, hm, rfl⟩; exact ⟨m, ⟨b, hm⟩, rfl⟩
  · rintro ⟨m, ⟨b, hm⟩, rfl⟩; exact ⟨b, m, hm, rfl⟩

theorem mem_all_tags_poke_tag (db : db_t) (a : Nat) (f : tag_entry → tag_entry)
    (t : tag_entry) :
    t ∈ all_tags (poke_tag db a f) ↔
      ∃ u ∈ all_tags db, t = if u.addr = a then f u else u := by
  simp only [mem_all_tags, poke_tag, List.mem_map]
  constructor
  · rintro ⟨b, m, hm, rfl⟩; exact ⟨m, ⟨b, hm⟩, rfl⟩
  · rintro ⟨m, ⟨b, hm⟩, rfl⟩; exact ⟨b, m, hm, rfl⟩

theorem all_tags_poke_note (db : db_t) (a : Nat) (f : note_entry → note_entry) :
    all_tags (poke_note db a f) = all_tags db := rfl

theorem all_notes_poke_tag (db : db_t) (a : Nat) (f : tag_entry → tag_entry) :
    all_notes (poke_tag db a f) = all_notes db := rfl

/-! ## Symmetry is an invariant of the store operations -/

theorem below_brk_def_tag {db : db_t} (h : below_brk db) (tag : List Nat) :
    below_brk (db_def_tag db tag).1 := by
  have hb := db_def_tag_brk db tag
  refine ⟨fun n hn => ?_, fun t ht => ?_⟩
  · rw [all_notes_def_tag] at hn
    exact ⟨lt_of_lt_of_le (h.1 n hn).1 hb, fun a ha => lt_of_lt_of_le ((h.1 n hn).2 a ha) hb⟩
  · rw [mem_all_tags_def_tag] at ht
    rcases ht with ht | ⟨hnone, rfl⟩
    · exact ⟨lt_of_lt_of_le (h.2 t ht).1 hb, fun a ha => lt_of_lt_of_le ((h.2 t ht).2 a ha) hb⟩
    · simp [new_tag, db_def_tag, hnone]

theorem symmetric_def_tag {db : db_t} (hs : symmetric db) (hb : below_brk db)
    (tag : List Nat) : symmetric (db_def_tag db tag).1 := by
  intro n hn t ht
  rw [all_notes_def_tag] at hn
  rw [mem_all_tags_def_tag] at ht
  rcases ht with ht | ⟨_, rfl⟩
  · exact hs n hn t ht
  · have h1 := (hb.1 n hn).2 db.brk
    simp only [new_tag, List.not_mem_nil, iff_false]
    intro hmem
    exact lt_irrefl _ (h1 hmem)

theorem below_brk_add_note {db : db_t} (h : below_brk db) (path : List Nat) (c m : Int) :
    below_brk (db_add_note db path c m) := by
  have hb := db_add_note_brk db path c m
  refine ⟨fun n hn => ?_, fun t ht => ?_⟩
  · rw [mem_all_notes_add_note] at hn
    rcases hn with hn | ⟨hnone, rfl⟩
    · exact ⟨lt_of_lt_of_le (h.1 n hn).1 hb, fun a ha => lt_of_lt_of_le ((h.1 n hn).2 a ha) hb⟩
    · simp [new_note, db_add_note, hnone]
  · rw [all_tags_add_note] at ht
    exact ⟨lt_of_lt_of_le (h.2 t ht).1 hb, fun a ha => lt_of_lt_of_le ((h.2 t ht).2 a ha) hb⟩

theorem symmetric_add_note {db : db_t} (hs : symmetric db) (hb : below_brk db)
    (path : List Nat) (c m : Int) : symmetric (db_add_note db path c m) := by
  intro n hn t ht
  rw [all_tags_add_note] at ht
  rw [mem_all_notes_add_note] at hn
  rcases hn with hn | ⟨_, rfl⟩
  · exact hs n hn t ht
  · have h1 := (hb.2 t ht).2 db.brk
    simp only [new_note, List.not_mem_nil, false_iff]
    intro hmem
    exact lt_irrefl _ (h1 hmem)

/-- The two pointer writes of `db_tag_note`. -/
theorem symmetric_link {db : db_t} (hs : symmetric db) (ta na : Nat) :
    symmetric (poke_note (poke_tag db ta
      (fun t => { t with cap := grow_cap t.notes.length t.cap, notes := t.notes ++ [na] })) na
      (fun n => { n with cap := grow_cap n.tags.length n.cap, tags := n.tags ++ [ta] })) := by
  intro n hn t ht
  rw [mem_all_notes_poke_note, all_notes_poke_tag] at hn
  rw [all_tags_poke_note, mem_all_tags_poke_tag] at ht
  obtain ⟨n0, hn0, rfl⟩ := hn
  obtain ⟨t0, ht0, rfl⟩ := ht
  have h0 := hs n0 hn0 t0 ht0
  rcases eq_or_ne n0.addr na with rfl | h1 <;> rcases eq_or_ne t0.addr ta with rfl | h2 <;>
    simp [h0, *]

theorem below_brk_link {db : db_t} (hb : below_brk db) (ta na : Nat)
    (hta : ta < db.brk) (hna : na < db.brk) :
    below_brk (poke_note (poke_tag db ta
      (fun t => { t with cap := grow_cap t.notes.length t.cap, notes := t.notes ++ [na] })) na
      (fun n => { n with cap := grow_cap n.tags.length n.cap, tags := n.tags ++ [ta] })) := by
  refine ⟨fun n hn => ?_, fun t ht => ?_⟩
  · rw [mem_all_notes_poke_note, all_notes_poke_tag] at hn
    obtain ⟨n0, hn0, rfl⟩ := hn
    have := hb.1 n0 hn0
    by_cases h1 : n0.addr = na
    · simp only [h1, if_true, List.mem_append, List.mem_singleton]
      refine ⟨h1 ▸ this.1, fun a ha => ?_⟩
      rcases ha with ha | rfl
      · exact this.2 a ha
      · exact hta
    · simpa only [h1, if_false] using this
  · rw [all_tags_poke_note, mem_all_tags_poke_tag] at ht
    obtain ⟨t0, ht0, rfl⟩ := ht
    have := hb.2 t0 ht0
    by_cases h1 : t0.addr = ta
    · simp only [h1, if_true, List.mem_append, List.mem_singleton]
      refine ⟨h1 ▸ this.1, fun a ha => ?_⟩
      rcases ha with ha | rfl
      · exact this.2 a ha
      · exact hna
    · simpa only [h1, if_false] using this

theorem db_tag_note_none {db : db_t} {path tag : List Nat}
    (h : get_note_entry (db_def_tag db tag).1 path = none) :
    db_tag_note db path tag = (db_def_tag db tag).1 := by
  simp [db_tag_note, h]

theorem db_tag_note_some {db : db_t} {path tag : List Nat} {note_e : note_entry}
    (h : get_note_entry (db_def_tag db tag).1 path = some note_e) :
    db_tag_note db path tag =
      poke_note (poke_tag (db_def_tag db tag).1 (db_def_tag db tag).2
        (fun t => { t with cap := grow_cap t.notes.length t.cap,
                           notes := t.notes ++ [note_e.addr] })) note_e.addr
        (fun n => { n with cap := grow_cap n.tags.length n.cap,
                           tags := n.tags ++ [(db_def_tag db tag).2] }) := by
  simp [db_tag_note, h]

theorem db_tag_note_inv {db : db_t} (hs : symmetric db) (hb : below_brk db)
    (path tag : List Nat) :
    symmetric (db_tag_note db path tag) ∧ below_brk (db_tag_note db path tag) := by
  have hs1 := symmetric_def_tag hs hb tag
  have hb1 := below_brk_def_tag hb tag
  cases hn : get_note_entry (db_def_tag db tag).1 path with
  | none => rw [db_tag_note_none hn]; exact ⟨hs1, hb1⟩
  | some note_e =>
    rw [db_tag_note_some hn]
    obtain ⟨t, ht, hta⟩ := db_def_tag_ret_mem db tag
    have h1 : (db_def_tag db tag).2 < (db_def_tag db tag).1.brk := hta ▸ (hb1.2 t ht).1
    have h2 : note_e.addr < (db_def_tag db tag).1.brk := (hb1.1 _ (get_note_entry_mem hn)).1
    exact ⟨symmetric_link hs1 _ _, below_brk_link hb1 _ _ h1 h2⟩

theorem run_ops_inv (db : db_t) (ops : List db_op) (hs : symmetric db) (hb : below_brk db) :
    symmetric (run_ops db ops) ∧ below_brk (run_ops db ops) := by
  induction ops generalizing db with
  | nil => exact ⟨hs, hb⟩
  | cons op ops ih =>
    have step : symmetric (op.run db) ∧ below_brk (op.run db) := by
      cases op with
      | add_note path c m => exact ⟨symmetric_add_note hs hb path c m, below_brk_add_note hb path c m⟩
      | def_tag tag => exact ⟨symmetric_def_tag hs hb tag, below_brk_def_tag hb tag⟩
      | tag_note path tag => exact db_tag_note_inv hs hb path tag
    exact ih (op.run db) step.1 step.2

theorem all_notes_empty (root : List Nat) : all_notes (db_empty root) = [] := by
  simp [all_notes, db_empty]

theorem all_tags_empty (root : List Nat) : all_tags (db_empty root) = [] := by
  simp [all_tags, db_empty]

/-- C1 (symmetry): in every store reached from the empty store by a sequence of
`db_add_note`, `db_def_tag` and `db_tag_note` calls, a tag record occurs in a note
record's tag array if and only if the note record occurs in the tag record's note
array. -/
theorem symmetry_reachable (root : List Nat) (ops : List db_op) :
    ∀ n ∈ all_notes (run_ops (db_empty root) ops),
      ∀ t ∈ all_tags (run_ops (db_empty root) ops),
        t.addr ∈ n.tags ↔ n.addr ∈ t.notes :=
  (run_ops_inv (db_empty root) ops
    (by intro n hn; simp [all_notes_empty] at hn)
    ⟨by intro n hn; simp [all_notes_empty] at hn,
     by intro t ht; simp [all_tags_empty] at ht⟩).1

/-- The store of the symmetry example: notes `a` and `b`, both tagged `x`. -/
theorem symmetry_reachable_witness :
    (({ addr := 1, path := bytes "a", hash := jb_fnv1a_str (bytes "a"), ctime := 0, mtime := 0,
        cap := 16, tags := [3] } : note_entry) ∈
      all_notes (run_ops (db_empty (bytes "/nb"))
        [.add_note (bytes "a") 0 0, .add_note (bytes "b") 0 0,
         .tag_note (bytes "a") (bytes "x"), .tag_note (bytes "b") (bytes "x")])) ∧
    (({ addr := 3, tag := bytes "x", hash := jb_fnv1a_str (bytes "x"), cap := 16,
        notes := [1, 2] } : tag_entry) ∈
      all_tags (run_ops (db_empty (bytes "/nb"))
        [.add_note (bytes "a") 0 0, .add_note (bytes "b") 0 0,
         .tag_note (bytes "a") (bytes "x"), .tag_note (bytes "b") (bytes "x")])) ∧
    ((3 : Nat) ∈ [3] ↔ (1 : Nat) ∈ [1, 2]) :=
  ⟨by decide, by decide,
   symmetry_reachable (bytes "/nb")
     [.add_note (bytes "a") 0 0, .add_note (bytes "b") 0 0,
      .tag_note (bytes "a") (bytes "x"), .tag_note (bytes "b") (bytes "x")]
     { addr := 1, path := bytes "a", hash := jb_fnv1a_str (bytes "a"), ctime := 0, mtime := 0,
       cap := 16, tags := [3] } (by decide)
     { addr := 3, tag := bytes "x", hash := jb_fnv1a_str (bytes "x"), cap := 16,
       notes := [1, 2] } (by decide)⟩

/-! ## Query -/

theorem note_has_tag_iff (n : note_entry) (tag : Nat) :
    note_has_tag n tag = decide (tag ∈ n.tags) := by
  simp only [note_has_tag]
  rw [Bool.eq_iff_iff, List.any_eq_true, decide_eq_true_iff]
  constructor
  · rintro ⟨t, ht, he⟩
    rw [beq_iff_eq] at he
    exact he ▸ ht
  · intro h
    exact ⟨tag, h, beq_self_eq_true tag⟩

theorem filter_matches_iff (n : note_entry) (filter : List db_tag_t) :
    filter_matches n filter = true ↔ note_matches n filter := by
  induction filter with
  | nil => simp [filter_matches, note_matches]
  | cons f rest ih =>
    simp only [filter_matches, note_matches, List.mem_cons, forall_eq_or_imp,
      note_has_tag_iff]
    by_cases h : decide (f.tag ∈ n.tags) = f.sign
    · simp only [h, bne_self_eq_false, Bool.false_eq_true, if_false, true_and]
      exact ih
    · have : (decide (f.tag ∈ n.tags) != f.sign) = true := by simpa using h
      simp [this, h]

theorem chain_foldl_cb {σ : Type} (p : note_entry → Bool) (g : σ → note_entry → σ)
    (chain : List note_entry) (st : σ) :
    chain.foldl (fun st note => if p note then g st note else st) st =
      (chain.filter p).foldl g st := by
  induction chain generalizing st with
  | nil => rfl
  | cons n rest ih =>
    by_cases h : p n <;> simp [List.filter_cons, h, ih]

theorem buckets_foldl_cb {σ : Type} (p : note_entry → Bool) (g : σ → note_entry → σ)
    (chains : Fin BUCKETS → List note_entry) (bs : List (Fin BUCKETS)) (st : σ) :
    bs.foldl (fun st b =>
        (chains b).foldl (fun st note => if p note then g st note else st) st) st =
      ((bs.flatMap chains).filter p).foldl g st := by
  induction bs generalizing st with
  | nil => rfl
  | cons b rest ih =>
    simp only [List.foldl_cons, List.flatMap_cons, List.filter_append, List.foldl_append]
    rw [ih, chain_foldl_cb]

/-- The visitor runs, in order, on the records of the store that pass the filter. -/
theorem db_query_eq_foldl {σ : Type} (db : db_t) (st : σ) (filter : List db_tag_t)
    (cb : db_t → σ → note_entry → σ) :
    db_query db st filter cb =
      ((all_notes db).filter (fun n => decide (note_matches n filter))).foldl (cb db) st := by
  unfold db_query all_notes
  rw [buckets_foldl_cb (fun n => filter_matches n filter)]
  congr 2
  funext n
  rw [Bool.eq_iff_iff]
  simp [filter_matches_iff]

theorem foldl_visit_log (db : db_t) (l log : List note_entry) :
    l.foldl (visit_log db) log = log ++ l := by
  induction l generalizing log with
  | nil => simp
  | cons n rest ih => simp [List.foldl_cons, visit_log, ih]

theorem db_query_log (db : db_t) (filter : List db_tag_t) :
    db_query db [] filter visit_log =
      (all_notes db).filter (fun n => decide (note_matches n filter)) := by
  rw [db_query_eq_foldl, foldl_visit_log]
  simp
/-! ## Records of a reachable store have distinct addresses -/

theorem flatMap_push_perm {α : Type} (f : Fin BUCKETS → List α) (b0 : Fin BUCKETS) (e : α)
    (bs : List (Fin BUCKETS)) (hnd : bs.Nodup) :
    (bs.flatMap (fun b => if b = b0 then e :: f b0 else f b)).Perm
      (if b0 ∈ bs then e :: bs.flatMap f else bs.flatMap f) := by
  induction bs with
  | nil => simp
  | cons b rest ih =>
    rw [List.nodup_cons] at hnd
    have ih := ih hnd.2
    simp only [List.flatMap_cons, List.mem_cons]
    by_cases hb : b = b0
    · subst hb
      have hnot : ¬ b ∈ rest := hnd.1
      simp only [hnot, if_false] at ih
      simp only [true_or, if_true, List.cons_append]
      exact List.Perm.cons _ (List.Perm.append_left _ ih)
    · have hb2 : ¬ b0 = b := fun h => hb h.symm
      simp only [hb, hb2, if_false, false_or]
      by_cases hm : b0 ∈ rest
      · simp only [hm, if_true] at ih ⊢
        exact (List.Perm.append_left _ ih).trans List.perm_middle
      · simp only [hm, if_false] at ih ⊢
        exact List.Perm.append_left _ ih

theorem all_notes_add_note_perm {db : db_t} {path : List Nat} (c m : Int)
    (h : get_note_entry db path = none) :
    (all_notes (db_add_note db path c m)).Perm (new_note db path c m :: all_notes db) := by
  have := flatMap_push_perm db.bnotes (bucket_of (jb_fnv1a_str path)) (new_note db path c m)
    (List.finRange BUCKETS) (List.nodup_finRange _)
  simp only [List.mem_finRange, if_true] at this
  simpa [all_notes, db_add_note, h, new_note] using this

theorem all_tags_def_tag_perm {db : db_t} {tag : List Nat}
    (h : db_get_tag db tag = none) :
    (all_tags (db_def_tag db tag).1).Perm (new_tag db tag :: all_tags db) := by
  have := flatMap_push_perm db.btags (bucket_of (jb_fnv1a_str tag)) (new_tag db tag)
    (List.finRange BUCKETS) (List.nodup_finRange _)
  simp only [List.mem_finRange, if_true] at this
  simpa [all_tags, db_def_tag, h, new_tag] using this

theorem all_notes_poke_note (db : db_t) (a : Nat) (f : note_entry → note_entry) :
    all_notes (poke_note db a f) =
      (all_notes db).map (fun e => if e.addr = a then f e else e) := by
  simp [all_notes, poke_note, List.map_flatMap]

theorem all_tags_poke_tag (db : db_t) (a : Nat) (f : tag_entry → tag_entry) :
    all_tags (poke_tag db a f) =
      (all_tags db).map (fun e => if e.addr = a then f e else e) := by
  simp [all_tags, poke_tag, List.map_flatMap]

theorem distinct_def_tag {db : db_t} (hd : distinct_addrs db) (hb : below_brk db)
    (tag : List Nat) : distinct_addrs (db_def_tag db tag).1 := by
  refine ⟨by rw [all_notes_def_tag]; exact hd.1, ?_⟩
  cases h : db_get_tag db tag with
  | some e => simpa [db_def_tag, h] using hd.2
  | none =>
    rw [((all_tags_def_tag_perm h).map tag_entry.addr).nodup_iff, List.map_cons,
      List.nodup_cons]
    refine ⟨?_, hd.2⟩
    simp only [List.mem_map, not_exists, not_and]
    intro t ht he
    have := (hb.2 t ht).1
    simp only [new_tag] at he
    omega

theorem distinct_add_note {db : db_t} (hd : distinct_addrs db) (hb : below_brk db)
    (path : List Nat) (c m : Int) : distinct_addrs (db_add_note db path c m) := by
  refine ⟨?_, by rw [all_tags_add_note]; exact hd.2⟩
  cases h : get_note_entry db path with
  | some e => simpa [db_add_note, h] using hd.1
  | none =>
    rw [((all_notes_add_note_perm c m h).map note_entry.addr).nodup_iff, List.map_cons,
      List.nodup_cons]
    refine ⟨?_, hd.1⟩
    simp only [List.mem_map, not_exists, not_and]
    intro n hn he
    have := (hb.1 n hn).1
    simp only [new_note] at he
    omega

theorem distinct_link {db : db_t} (hd : distinct_addrs db) (ta na : Nat)
    (f : tag_entry → tag_entry) (g : note_entry → note_entry)
    (hf : ∀ t, (f t).addr = t.addr) (hg : ∀ n, (g n).addr = n.addr) :
    distinct_addrs (poke_note (poke_tag db ta f) na g) := by
  have e1 : (fun e : note_entry => (if e.addr = na then g e else e).addr) = note_entry.addr := by
    funext e; by_cases h : e.addr = na <;> simp [h, hg]
  have e2 : (fun e : tag_entry => (if e.addr = ta then f e else e).addr) = tag_entry.addr := by
    funext e; by_cases h : e.addr = ta <;> simp [h, hf]
  constructor
  · rw [all_notes_poke_note, all_notes_poke_tag, List.map_map]
    simpa [Function.comp_def, e1] using hd.1
  · rw [all_tags_poke_note, all_tags_poke_tag, List.map_map]
    simpa [Function.comp_def, e2] using hd.2

theorem distinct_tag_note {db : db_t} (hd : distinct_addrs db) (hb : below_brk db)
    (path tag : List Nat) : distinct_addrs (db_tag_note db path tag) := by
  have hd1 := distinct_def_tag hd hb tag
  cases hn : get_note_entry (db_def_tag db tag).1 path with
  | none => rw [db_tag_note_none hn]; exact hd1
  | some note_e =>
    rw [db_tag_note_some hn]
    exact distinct_link hd1 _ _ _ _ (fun _ => rfl) (fun _ => rfl)

/-- The three invariants hold in every store reached from one where they hold. -/
theorem run_ops_distinct (db : db_t) (ops : List db_op) (hs : symmetric db)
    (hb : below_brk db) (hd : distinct_addrs db) : distinct_addrs (run_ops db ops) := by
  induction ops generalizing db with
  | nil => exact hd
  | cons op ops ih =>
    cases op with
    | add_note path c m =>
      exact ih _ (symmetric_add_note hs hb path c m) (below_brk_add_note hb path c m)
        (distinct_add_note hd hb path c m)
    | def_tag tag =>
      exact ih _ (symmetric_def_tag hs hb tag) (below_brk_def_tag hb tag)
        (distinct_def_tag hd hb tag)
    | tag_note path tag =>
      exact ih _ (db_tag_note_inv hs hb path tag).1 (db_tag_note_inv hs hb path tag).2
        (distinct_tag_note hd hb path tag)

theorem reachable_distinct (root : List Nat) (ops : List db_op) :
    distinct_addrs (run_ops (db_empty root) ops) :=
  run_ops_distinct _ ops (by intro n hn; simp [all_notes_empty] at hn)
    ⟨by intro n hn; simp [all_notes_empty] at hn, by intro t ht; simp [all_tags_empty] at ht⟩
    (by simp [distinct_addrs, all_notes_empty, all_tags_empty])

theorem reachable_notes_nodup (root : List Nat) (ops : List db_op) :
    (all_notes (run_ops (db_empty root) ops)).Nodup :=
  List.Nodup.of_map _ (reachable_distinct root ops).1
/-- C2 (query correctness): `db_query` runs the visitor, in index order, on exactly the
note records that satisfy every filter entry (`(tag in the note's tag list) == sign`); in
a store built by the store operations each such note is visited exactly once and no
other note is visited; the empty filter visits every note; and on notes `a: [x]`,
`b: [x, y]`, `c: []` the three filters of the spec visit `{a, b}`, `{a}`, `{a, b, c}`. -/
theorem query_correct :
    (∀ (σ : Type) (db : db_t) (st : σ) (filter : List db_tag_t)
        (cb : db_t → σ → note_entry → σ),
      db_query db st filter cb =
        ((all_notes db).filter (fun n => decide (note_matches n filter))).foldl (cb db) st) ∧
    (∀ (root : List Nat) (ops : List db_op) (filter : List db_tag_t) (n : note_entry),
      (db_query (run_ops (db_empty root) ops) [] filter visit_log).count n =
        if n ∈ all_notes (run_ops (db_empty root) ops) ∧ note_matches n filter
        then 1 else 0) ∧
    (∀ db : db_t, db_query db [] [] visit_log = all_notes db) ∧
    (db_query demo_db [] [⟨true, tag_ptr demo_db (bytes "x")⟩] visit_log).map note_entry.path
      = [bytes "b", bytes "a"] ∧
    (db_query demo_db [] [⟨true, tag_ptr demo_db (bytes "x")⟩,
        ⟨false, tag_ptr demo_db (bytes "y")⟩] visit_log).map note_entry.path
      = [bytes "a"] ∧
    (db_query demo_db [] [] visit_log).map note_entry.path
      = [bytes "c", bytes "b", bytes "a"] := by
  refine ⟨fun σ db st filter cb => db_query_eq_foldl db st filter cb, ?_, ?_,
    by decide, by decide, by decide⟩
  · intro root ops filter n
    rw [db_query_log]
    have hnd := (reachable_notes_nodup root ops).filter
      (fun n => decide (note_matches n filter))
    rw [List.count_eq_of_nodup hnd]
    simp only [List.mem_filter, decide_eq_true_eq]
  · intro db
    rw [db_query_log]
    simp [note_matches]
/-! ## The tag list of a mutation -/

theorem is_filtered_iff (filter : List db_tag_t) (t : Nat) :
    is_filtered filter t = true ↔ ∃ f ∈ filter, f.sign = false ∧ f.tag = t := by
  induction filter with
  | nil => simp [is_filtered]
  | cons f rest ih =>
    simp only [is_filtered, List.mem_cons, exists_eq_or_imp]
    by_cases h : (!f.sign && f.tag == t) = true
    · simp only [h, if_true, true_iff]
      left
      simpa using h
    · have h2 : ¬ (f.sign = false ∧ f.tag = t) := by simpa using h
      simp only [h, if_false, Bool.false_eq_true, ih, h2, false_or]

theorem neg_pass_eq (ts : List Nat) (filter : List db_tag_t) (acc : List Nat) :
    neg_pass ts filter acc = acc ++ spec_kept ts filter := by
  induction ts generalizing acc with
  | nil => simp [neg_pass, spec_kept]
  | cons t rest ih =>
    simp only [neg_pass, ih]
    by_cases h : is_filtered filter t = true
    · have h2 := (is_filtered_iff filter t).1 h
      simp [h, spec_kept, List.filter_cons, h2]
    · have h2 : ¬ ∃ f ∈ filter, f.sign = false ∧ f.tag = t :=
        fun hh => h ((is_filtered_iff filter t).2 hh)
      have h3 : is_filtered filter t = false := by simpa using h
      have h4 : ∀ x ∈ filter, x.sign = false → ¬ x.tag = t := by simpa using h2
      simp only [h3, spec_kept, List.filter_cons, Bool.not_false, if_true, List.append_assoc,
        List.singleton_append, not_exists, not_and, decide_eq_true_eq]
      rw [if_pos h4]

theorem is_dup_iff (tags : List Nat) (tag : Nat) : is_dup tags tag = true ↔ tag ∈ tags := by
  induction tags with
  | nil => simp [is_dup]
  | cons t rest ih =>
    simp only [is_dup, List.mem_cons]
    by_cases h : t = tag
    · simp [h]
    · have h2 : ¬ tag = t := fun hh => h hh.symm
      simp [h, h2, ih]

theorem pos_pass_eq (filter : List db_tag_t) (acc : List Nat) :
    pos_pass filter acc = filter.foldl spec_add acc := by
  induction filter generalizing acc with
  | nil => rfl
  | cons f rest ih =>
    simp only [pos_pass, List.foldl_cons, ih]
    by_cases hs : f.sign = true
    · by_cases hd : f.tag ∈ acc
      · have := (is_dup_iff acc f.tag).2 hd
        simp [hs, spec_add, hd, this]
      · have : is_dup acc f.tag = false := by
          cases hh : is_dup acc f.tag
          · rfl
          · exact absurd ((is_dup_iff acc f.tag).1 hh) hd
        simp [hs, spec_add, hd, this]
    · have hs2 : f.sign = false := by simpa using hs
      simp [hs2, spec_add]

theorem mutate_tags_eq_spec (ts : List Nat) (filter : List db_tag_t) :
    mutate_tags ts filter = spec_mutate_tags ts filter := by
  simp [mutate_tags, spec_mutate_tags, neg_pass_eq, pos_pass_eq]

theorem mem_foldl_spec_add_of_mem (filter : List db_tag_t) (acc : List Nat) (x : Nat)
    (h : x ∈ acc) : x ∈ filter.foldl spec_add acc := by
  induction filter generalizing acc with
  | nil => exact h
  | cons f rest ih =>
    apply ih
    unfold spec_add
    split
    · exact List.mem_append_left _ h
    · exact h

theorem mem_foldl_spec_add (filter : List db_tag_t) (acc : List Nat) (x : Nat)
    (h : (⟨true, x⟩ : db_tag_t) ∈ filter) : x ∈ filter.foldl spec_add acc := by
  induction filter generalizing acc with
  | nil => cases h
  | cons f rest ih =>
    rcases List.mem_cons.1 h with h | h
    · subst h
      refine mem_foldl_spec_add_of_mem rest _ x ?_
      show x ∈ spec_add acc ⟨true, x⟩
      unfold spec_add
      by_cases hx : x ∈ acc
      · simp [hx]
      · simp [hx]
    · exact ih _ h
/-! ## Reading and checking the header line -/

theorem read_line_loop_eq (data buf : List Nat) (n : Nat) :
    read_line_loop data buf n =
      (buf ++ first_line data,
        n + (first_line data).length + (if (first_line data).length < data.length then 1 else 0)) := by
  induction data generalizing buf n with
  | nil => simp [read_line_loop, first_line]
  | cons c rest ih =>
    by_cases h : c = 10
    · simp [read_line_loop, first_line, h]
    · have ih' := ih (buf ++ [c]) (n + 1)
      simp only [first_line] at ih'
      simp only [read_line_loop, h, if_false, first_line, List.takeWhile_cons, bne_iff_ne, ne_eq,
        not_false_eq_true, decide_True, if_true, List.length_cons, ih']
      simp only [List.append_assoc, List.singleton_append, Nat.add_lt_add_iff_right]
      congr 1
      omega

theorem first_line_append (H B : List Nat) (h : 10 ∉ H) :
    first_line (H ++ 10 :: B) = H := by
  unfold first_line
  rw [List.takeWhile_append_of_pos]
  · simp
  · intro c hc
    have : c ≠ 10 := fun e => h (e ▸ hc)
    simpa using this

theorem first_line_self (H : List Nat) (h : 10 ∉ H) : first_line H = H := by
  unfold first_line
  rw [List.takeWhile_eq_self_iff]
  intro c hc
  have : c ≠ 10 := fun e => h (e ▸ hc)
  simpa using this

theorem validate_hdr_eq (line : List Nat) :
    validate_hdr line = (cstr line).all valid_hdr_char := by
  induction line with
  | nil => rfl
  | cons c rest ih =>
    by_cases h : c = 0
    · simp [validate_hdr, cstr, h]
    · simp only [validate_hdr, h, if_false, cstr, List.takeWhile_cons, bne_iff_ne, ne_eq,
        not_false_eq_true, decide_True, if_true, List.all_cons]
      cases hv : valid_hdr_char c
      · simp
      · simpa [cstr] using ih

theorem strncmp_eq_iff (s1 s2 : List Nat) (h0 : 0 ∉ s2) :
    strncmp_eq s1 s2 s2.length = true ↔ (cstr s1).take s2.length = s2 := by
  induction s2 generalizing s1 with
  | nil => simp [strncmp_eq]
  | cons c2 rest ih =>
    have hc2 : c2 ≠ 0 := fun e => h0 (e ▸ List.mem_cons_self _ _)
    have hrest : 0 ∉ rest := fun hm => h0 (List.mem_cons_of_mem _ hm)
    cases s1 with
    | nil => simp [strncmp_eq, cstr, hc2, Ne.symm hc2]
    | cons c1 r1 =>
      by_cases hc : c1 = c2
      · subst hc
        have := ih r1 hrest
        simp [strncmp_eq, cstr, hc2] at this ⊢
        exact this
      · by_cases hz : c1 = 0
        · simp [strncmp_eq, cstr, hc, hz, Ne.symm hc2]
        · simp [strncmp_eq, cstr, hc, hz]

theorem is_adrus_hdr_iff (line : List Nat) :
    is_adrus_hdr line = true ↔ hdr_ok (cstr line) := by
  have h := strncmp_eq_iff line (bytes "adrus") (by decide)
  have hl : (bytes "adrus").length = 5 := by decide
  rw [hl] at h
  simp only [is_adrus_hdr, Bool.and_eq_true, validate_hdr_eq, List.all_eq_true, h, hdr_ok]

theorem cstr_eq_self (line : List Nat) (h : 0 ∉ line) : cstr line = line := by
  unfold cstr
  rw [List.takeWhile_eq_self_iff]
  intro c hc
  have : c ≠ 0 := fun e => h (e ▸ hc)
  simpa using this

theorem hdr_ok_no_nul {line : List Nat} (h : hdr_ok line) : 0 ∉ line := by
  intro hm
  have := h.1 0 hm
  simp [valid_hdr_char, isspace, isalnum] at this
/-! ## The steps of `db_mutate` -/

theorem read_line_start (data : List Nat) :
    read_line { data := data, pos := 0 } false =
      .ok (first_line data, { data := data, pos := hdr_end data }) := by
  simp [read_line, read_line_loop_eq, hdr_end]

theorem fopen_eq_some {fs : file_sys} {path : List Nat} {f : FILE} (h : fopen fs path = some f) :
    path ≠ [] ∧ fs path = some f.data ∧ f = { data := f.data, pos := 0 } := by
  unfold fopen at h
  by_cases hp : path = []
  · simp [hp] at h
  · simp only [hp, if_false, Option.map_eq_some'] at h
    obtain ⟨d, hd, rfl⟩ := h
    exact ⟨hp, hd, rfl⟩

theorem fopen_of_some {fs : file_sys} {path data : List Nat} (hp : path ≠ [])
    (h : fs path = some data) : fopen fs path = some { data := data, pos := 0 } := by
  simp [fopen, hp, h]

/-- With the note found and the file open, `db_mutate` is a chain of four guards. -/
theorem db_mutate_open {fs : file_sys} {flt : io_faults} {db : db_t} {name : List Nat}
    {filter : List db_tag_t} {note : note_entry} {data : List Nat}
    (hn : db_get_note db name = some note)
    (hf : fopen fs (jb_path_cat db.path name).2 = some { data := data, pos := 0 }) :
    db_mutate fs flt db name filter =
      if flt.read_err then (JB_ERR_LIBC "read_line failed", fs)
      else if !is_adrus_hdr (first_line data) then
        (JB_ERR .JB_ERR_USER "path is not adrus note", fs)
      else
        match read_rest flt { data := data, pos := hdr_end data } with
        | .error e => (e, fs)
        | .ok content =>
          if flt.freopen then (JB_ERR_LIBC "failed to open note for writing", fs)
          else
            (JB_OK_VAL, fun p =>
              if p = (jb_path_cat db.path name).2 then
                some (serialise db (mutate_tags note.tags filter) content)
              else fs p) := by
  unfold db_mutate
  simp only [hn, hf]
  cases hr : flt.read_err
  · simp only [read_line_start, Bool.false_eq_true, if_false, is_adrus_hdr, Bool.not_and]
  · simp [read_line]

theorem to_int_small (n : Nat) (h : n < 2 ^ 31) : to_int (n : Int) = n := by
  unfold to_int
  norm_num at h ⊢
  omega

theorem hdr_end_le (data : List Nat) : hdr_end data ≤ data.length := by
  unfold hdr_end
  have : (first_line data).length ≤ data.length := by
    unfold first_line
    exact (List.takeWhile_sublist _).length_le
  split <;> omega

theorem read_rest_error {flt : io_faults} {f : FILE} {e : jb_res_t}
    (h : read_rest flt f = .error e) : e.is_err = true := by
  unfold read_rest at h
  dsimp only at h
  split_ifs at h
  all_goals (rw [← Except.error.inj h]; rfl)

/-- Every error return of `db_mutate` leaves the files as they were, and a success has
found the note and written the serialised tag list and the bytes `read_rest` gave. -/
theorem db_mutate_result (fs : file_sys) (flt : io_faults) (db : db_t) (name : List Nat)
    (filter : List db_tag_t) :
    ((db_mutate fs flt db name filter).1.is_err = true ∧
      (db_mutate fs flt db name filter).2 = fs) ∨
    (∃ note data content,
      db_get_note db name = some note ∧
      fs (jb_path_cat db.path name).2 = some data ∧
      read_rest flt { data := data, pos := hdr_end data } = .ok content ∧
      db_mutate fs flt db name filter =
        (JB_OK_VAL, fun p =>
          if p = (jb_path_cat db.path name).2 then
            some (serialise db (mutate_tags note.tags filter) content)
          else fs p)) := by
  cases hn : db_get_note db name with
  | none => left; simp [db_mutate, hn, jb_res_t.is_err, JB_ERR]
  | some note =>
    cases hf : fopen fs (jb_path_cat db.path name).2 with
    | none => left; simp [db_mutate, hn, hf, jb_res_t.is_err, JB_ERR_LIBC]
    | some f =>
      obtain ⟨_, hdata, hfe⟩ := fopen_eq_some hf
      rw [hfe] at hf
      rw [db_mutate_open hn hf]
      by_cases h1 : flt.read_err = true
      · left; simp [h1, jb_res_t.is_err, JB_ERR_LIBC]
      · by_cases h2 : (!is_adrus_hdr (first_line f.data)) = true
        · left; simp [h1, h2, jb_res_t.is_err, JB_ERR]
        · simp only [h1, h2, if_false]
          cases hr : read_rest flt { data := f.data, pos := hdr_end f.data } with
          | error e =>
            left
            exact ⟨read_rest_error hr, rfl⟩
          | ok content =>
            by_cases h3 : flt.freopen = true
            · left; simp [h3, jb_res_t.is_err, JB_ERR_LIBC]
            · right
              exact ⟨note, f.data, content, rfl, hdata, hr, by simp [h3]⟩

/-- C3 (mutate tag computation): the tag list `db_mutate` serialises is the note's tag
list without the tags that have a `(tag, false)` entry in the filter, order kept,
followed by the tags of the `(tag, true)` entries in filter order, each appended only if
not already in the list built so far; a successful `db_mutate` writes that list; and the
note `adrus foo bar\nBODY` mutated with `[(bar, false), (baz, true)]` becomes
`adrus foo baz \nBODY`, its tag list `[foo, baz]`. -/
theorem mutate_tag_computation :
    (∀ (ts : List Nat) (filter : List db_tag_t),
      mutate_tags ts filter = filter.foldl spec_add (spec_kept ts filter)) ∧
    (∀ (fs : file_sys) (flt : io_faults) (db : db_t) (name : List Nat)
        (filter : List db_tag_t),
      (db_mutate fs flt db name filter).1 = JB_OK_VAL →
      ∃ note content, db_get_note db name = some note ∧
        (db_mutate fs flt db name filter).2 (jb_path_cat db.path name).2 =
          some (serialise db (spec_mutate_tags note.tags filter) content)) ∧
    mutate_tags [tag_ptr scanned_db (bytes "foo"), tag_ptr scanned_db (bytes "bar")]
        demo_filter
      = [tag_ptr scanned_db (bytes "foo"), tag_ptr scanned_db (bytes "baz")] ∧
    (db_mutate demo_fs no_faults scanned_db (bytes "/a") demo_filter).2 (bytes "/nb//a")
      = some (bytes "adrus foo baz \nBODY") := by
  refine ⟨mutate_tags_eq_spec, ?_, by decide, by decide⟩
  intro fs flt db name filter hok
  rcases db_mutate_result fs flt db name filter with ⟨herr, _⟩ | ⟨note, data, content, hn, _, _, he⟩
  · rw [hok] at herr
    exact absurd herr (by decide)
  · exact ⟨note, content, hn, by rw [he, ← mutate_tags_eq_spec]; simp⟩

/-- C6 (removals before additions): when the filter holds both `(x, true)` and
`(x, false)`, in either order, the tag list `db_mutate` computes contains `x`, whatever
the note's tags were. -/
theorem mutate_add_wins (ts : List Nat) (filter : List db_tag_t) (x : Nat)
    (hadd : (⟨true, x⟩ : db_tag_t) ∈ filter) (_hdel : (⟨false, x⟩ : db_tag_t) ∈ filter) :
    x ∈ mutate_tags ts filter := by
  rw [mutate_tags_eq_spec]
  exact mem_foldl_spec_add filter _ x hadd

theorem mutate_add_wins_witness :
    ((⟨true, 7⟩ : db_tag_t) ∈ [(⟨false, 7⟩ : db_tag_t), ⟨true, 7⟩]) ∧
    ((⟨false, 7⟩ : db_tag_t) ∈ [(⟨false, 7⟩ : db_tag_t), ⟨true, 7⟩]) ∧
    7 ∈ mutate_tags [3, 7] [⟨false, 7⟩, ⟨true, 7⟩] ∧
    7 ∈ mutate_tags [3] [⟨true, 7⟩, ⟨false, 7⟩] :=
  ⟨by decide, by decide, mutate_add_wins [3, 7] _ 7 (by decide) (by decide),
    mutate_add_wins [3] _ 7 (by decide) (by decide)⟩

/-- C8 (mutate leaves the file untouched on a failed read step): whenever `db_mutate`
returns an error (unknown note, file cannot be opened, read error, invalid header,
position, seek or read failure, and also a failed reopen), every file holds what it held
before the call. -/
theorem mutate_error_untouched (fs : file_sys) (flt : io_faults) (db : db_t)
    (name : List Nat) (filter : List db_tag_t)
    (herr : (db_mutate fs flt db name filter).1.is_err = true) :
    (db_mutate fs flt db name filter).2 = fs := by
  rcases db_mutate_result fs flt db name filter with ⟨_, h⟩ | ⟨_, _, _, _, _, _, he⟩
  · exact h
  · rw [he] at herr
    simp [jb_res_t.is_err, JB_OK_VAL] at herr

theorem mutate_error_untouched_witness :
    (db_mutate demo_fs no_faults scanned_db (bytes "/zz") demo_filter).1.is_err = true ∧
    (db_mutate demo_fs { no_faults with fread_short := true } scanned_db (bytes "/a")
      demo_filter).1.is_err = true ∧
    (db_mutate demo_fs no_faults scanned_db (bytes "/zz") demo_filter).2 = demo_fs ∧
    (db_mutate demo_fs { no_faults with fread_short := true } scanned_db (bytes "/a")
      demo_filter).2 = demo_fs :=
  ⟨by decide, by decide,
    mutate_error_untouched demo_fs no_faults scanned_db (bytes "/zz") demo_filter (by decide),
    mutate_error_untouched demo_fs _ scanned_db (bytes "/a") demo_filter (by decide)⟩
/-! ## The body of a mutated note -/

theorem hdr_end_append (H B : List Nat) (h : 10 ∉ H) :
    hdr_end (H ++ 10 :: B) = H.length + 1 := by
  simp [hdr_end, first_line_append H B h]

theorem hdr_end_self (H : List Nat) (h : 10 ∉ H) : hdr_end H = H.length := by
  simp [hdr_end, first_line_self H h]

theorem read_rest_ok_small {flt : io_faults} {f : FILE} {content : List Nat}
    (h : read_rest flt f = .ok content) (hpos : f.pos ≤ f.data.length)
    (hlen : f.data.length < 2 ^ 31) : content = f.data.drop f.pos := by
  have hp : to_int (f.pos : Int) = f.pos := to_int_small _ (lt_of_le_of_lt hpos hlen)
  have hl : to_int (f.data.length : Int) = f.data.length := to_int_small _ hlen
  have hd : to_int ((f.data.length : Int) - f.pos) =
      ((f.data.length - f.pos : Nat) : Int) := by
    rw [← Nat.cast_sub hpos]
    exact to_int_small _ (lt_of_le_of_lt (Nat.sub_le _ _) hlen)
  have hs : to_size_t ((f.data.length - f.pos : Nat) : Int) = f.data.length - f.pos := by
    unfold to_size_t
    norm_num at hlen ⊢
    omega
  have hnn : (0 : Int) ≤ (f.pos : Int) := Int.natCast_nonneg _
  unfold read_rest at h
  simp only [hp, hl, hd, hs, hnn, if_true, Int.toNat_ofNat] at h
  split_ifs at h
  have := Except.ok.inj h
  rw [← this]
  simp
/-- On a note file shorter than `2^31` bytes a successful `db_mutate` writes the magic,
the tag names, a newline and then every byte that followed the header line. -/
theorem mutate_keeps_small_body (fs : file_sys) (flt : io_faults) (db : db_t)
    (name : List Nat) (filter : List db_tag_t) (data : List Nat)
    (hf : fs (jb_path_cat db.path name).2 = some data) (hsmall : data.length < 2 ^ 31)
    (hok : (db_mutate fs flt db name filter).1 = JB_OK_VAL) :
    ∃ note, db_get_note db name = some note ∧
      (db_mutate fs flt db name filter).2 (jb_path_cat db.path name).2 =
        some (bytes "adrus " ++
          (mutate_tags note.tags filter).flatMap (fun t => tag_name db t ++ [32]) ++ [10] ++
          data.drop (hdr_end data)) := by
  rcases db_mutate_result fs flt db name filter with
    ⟨herr, _⟩ | ⟨note, data2, content, hn, hf2, hr, he⟩
  · rw [hok] at herr
    exact absurd herr (by decide)
  · rw [hf] at hf2
    cases hf2
    have hc := read_rest_ok_small hr (hdr_end_le data) hsmall
    refine ⟨note, hn, ?_⟩
    rw [he, hc]
    simp [serialise]

theorem db_mutate_ok_of {fs : file_sys} {flt : io_faults} {db : db_t} {name : List Nat}
    {filter : List db_tag_t} {note : note_entry} {data content : List Nat}
    (hn : db_get_note db name = some note)
    (hf : fopen fs (jb_path_cat db.path name).2 = some { data := data, pos := 0 })
    (hre : flt.read_err = false) (hh : is_adrus_hdr (first_line data) = true)
    (hr : read_rest flt { data := data, pos := hdr_end data } = .ok content)
    (hfo : flt.freopen = false) :
    db_mutate fs flt db name filter =
      (JB_OK_VAL, fun p =>
        if p = (jb_path_cat db.path name).2 then
          some (serialise db (mutate_tags note.tags filter) content)
        else fs p) := by
  rw [db_mutate_open hn hf]
  simp [hre, hh, hr, hfo]

theorem demo_note :
    db_get_note scanned_db (bytes "/a") =
      some { addr := 1, path := bytes "/a", hash := jb_fnv1a_str (bytes "/a"), ctime := 0,
             mtime := 0, cap := 16, tags := [2, 3] } := by
  decide

theorem demo_path : (jb_path_cat scanned_db.path (bytes "/a")).2 = bytes "/nb//a" := by
  decide

theorem big_body_length (c : Nat) : (big_body c).length = 2 ^ 32 := by
  unfold big_body
  exact List.length_replicate _ _

theorem big_data_length (c : Nat) :
    (bytes "adrus foo bar" ++ 10 :: big_body c).length = 4294967310 := by
  rw [List.length_append, List.length_cons, big_body_length]
  decide

theorem read_rest_big (c : Nat) :
    read_rest no_faults
      { data := bytes "adrus foo bar" ++ 10 :: big_body c,
        pos := hdr_end (bytes "adrus foo bar" ++ 10 :: big_body c) } = .ok [] := by
  have hlen := big_data_length c
  have hend : hdr_end (bytes "adrus foo bar" ++ 10 :: big_body c) = 14 := by
    rw [hdr_end_append _ _ (by decide)]
    decide
  have e1 : to_int ((14 : Nat) : Int) = 14 := by decide
  have e2 : to_int ((4294967310 : Nat) : Int) = 14 := by decide
  have e3 : to_size_t (to_int ((14 : Int) - 14)) = 0 := by decide
  unfold read_rest
  simp only [hlen, hend, e1, e2, e3, no_faults]
  simp

/-- C4 (mutate preserves the body), evaluated on a note file whose body has `2^32`
bytes: the file is `adrus foo bar`, a newline and `2^32` bytes `x`; `int flen = ftell(f)`
wraps to 14, `clen` is 0, and `db_mutate` returns success with the file holding only the
new header line: the body is gone. -/
theorem mutate_drops_big_body :
    big_fs (bytes "/nb//a") = some (bytes "adrus foo bar" ++ 10 :: big_body 120) ∧
    (big_body 120).length = 2 ^ 32 ∧
    (db_mutate big_fs no_faults scanned_db (bytes "/a") demo_filter).1 = JB_OK_VAL ∧
    (db_mutate big_fs no_faults scanned_db (bytes "/a") demo_filter).2 (bytes "/nb//a")
      = some (bytes "adrus foo baz \n") := by
  have hf : fopen big_fs (jb_path_cat scanned_db.path (bytes "/a")).2 =
      some { data := bytes "adrus foo bar" ++ 10 :: big_body 120, pos := 0 } := by
    rw [demo_path]
    exact fopen_of_some (by decide) (if_pos rfl)
  have hhdr : is_adrus_hdr (first_line (bytes "adrus foo bar" ++ 10 :: big_body 120)) = true := by
    rw [first_line_append _ _ (by decide)]
    decide
  have hm : db_mutate big_fs no_faults scanned_db (bytes "/a") demo_filter = _ :=
    db_mutate_ok_of demo_note hf rfl hhdr (read_rest_big _) rfl
  refine ⟨if_pos rfl, big_body_length _, ?_, ?_⟩
  · rw [hm]
  · rw [hm]
    dsimp only
    rw [demo_path, if_pos rfl]
    decide

/-- C5 (mutate no-op), evaluated on a note file whose body has `2^32` bytes: with the
empty filter `db_mutate` returns success, the header it writes lists the note's tags
`foo bar`, and the body of `2^32` bytes is gone. -/
theorem mutate_noop_drops_big_body :
    big_fs_b (bytes "/nb//a") = some (bytes "adrus foo bar" ++ 10 :: big_body 66) ∧
    (big_body 66).length = 2 ^ 32 ∧
    (db_mutate big_fs_b no_faults scanned_db (bytes "/a") []).1 = JB_OK_VAL ∧
    (db_mutate big_fs_b no_faults scanned_db (bytes "/a") []).2 (bytes "/nb//a")
      = some (bytes "adrus foo bar \n") := by
  have hf : fopen big_fs_b (jb_path_cat scanned_db.path (bytes "/a")).2 =
      some { data := bytes "adrus foo bar" ++ 10 :: big_body 66, pos := 0 } := by
    rw [demo_path]
    exact fopen_of_some (by decide) (if_pos rfl)
  have hhdr : is_adrus_hdr (first_line (bytes "adrus foo bar" ++ 10 :: big_body 66)) = true := by
    rw [first_line_append _ _ (by decide)]
    decide
  have hm : db_mutate big_fs_b no_faults scanned_db (bytes "/a") [] = _ :=
    db_mutate_ok_of demo_note hf rfl hhdr (read_rest_big _) rfl
  refine ⟨if_pos rfl, big_body_length _, ?_, ?_⟩
  · rw [hm]
  · rw [hm]
    dsimp only
    rw [demo_path, if_pos rfl]
    decide
/-- A successful `db_mutate` on a small file `H ++ "\n" ++ B` keeps exactly `B`. -/
theorem mutate_keeps_small_body_line (fs : file_sys) (flt : io_faults) (db : db_t)
    (name : List Nat) (filter : List db_tag_t) (H B : List Nat) (hH : 10 ∉ H)
    (hf : fs (jb_path_cat db.path name).2 = some (H ++ 10 :: B))
    (hsmall : (H ++ 10 :: B).length < 2 ^ 31)
    (hok : (db_mutate fs flt db name filter).1 = JB_OK_VAL) :
    ∃ note, db_get_note db name = some note ∧
      (db_mutate fs flt db name filter).2 (jb_path_cat db.path name).2 =
        some (bytes "adrus " ++
          (mutate_tags note.tags filter).flatMap (fun t => tag_name db t ++ [32]) ++ [10] ++
          B) := by
  obtain ⟨note, hn, h⟩ := mutate_keeps_small_body fs flt db name filter _ hf hsmall hok
  refine ⟨note, hn, ?_⟩
  rw [h, hdr_end_append H B hH]
  simp

/-! ## When `db_mutate` fails -/

theorem cstr_length_le (l : List Nat) : (cstr l).length ≤ l.length :=
  (List.takeWhile_sublist _).length_le

theorem sscanf_tag_bounds {hdr tag_buf : List Nat} {n : Nat}
    (h : sscanf_tag hdr = some (tag_buf, n)) : 0 < n ∧ n ≤ hdr.length := by
  unfold sscanf_tag at h
  dsimp only at h
  split_ifs at h with he
  simp only [Option.some.injEq, Prod.mk.injEq] at h
  obtain ⟨h1, h2⟩ := h
  rw [h1] at h2
  have hpos : 0 < tag_buf.length := by
    rw [← h1]
    cases ht : (List.take 31 (List.takeWhile (fun c => decide (97 ≤ c) && decide (c ≤ 122))
        (List.drop (List.takeWhile isspace (cstr hdr)).length (cstr hdr))))
    · rw [ht] at he; simp at he
    · simp
  have hws : (List.takeWhile isspace (cstr hdr)).length ≤ (cstr hdr).length :=
    (List.takeWhile_sublist _).length_le
  have htl : tag_buf.length ≤ (cstr hdr).length - (List.takeWhile isspace (cstr hdr)).length := by
    rw [← h1, List.length_take]
    have := (List.takeWhile_sublist (fun c => decide (97 ≤ c) && decide (c ≤ 122))
      (l := List.drop (List.takeWhile isspace (cstr hdr)).length (cstr hdr))).length_le
    rw [List.length_drop] at this
    omega
  have := cstr_length_le hdr
  omega

/-- The tag loop ends within one iteration per byte of the header. -/
theorem tag_loop_total (fuel : Nat) (db : db_t) (name hdr : List Nat)
    (h : hdr.length < fuel) : ∃ db2, tag_loop fuel db name hdr = some db2 := by
  induction fuel generalizing db hdr with
  | zero => omega
  | succ fuel ih =>
    unfold tag_loop
    cases hs : sscanf_tag hdr with
    | none => exact ⟨db, rfl⟩
    | some r =>
      obtain ⟨tag_buf, n⟩ := r
      have hb := sscanf_tag_bounds hs
      apply ih
      rw [List.length_drop]
      omega

theorem db_get_note_def_tag (db : db_t) (tag name : List Nat) :
    db_get_note (db_def_tag db tag).1 name = db_get_note db name := by
  simp [db_get_note, db_def_tag_notes]

theorem db_get_note_poke_tag (db : db_t) (a : Nat) (f : tag_entry → tag_entry)
    (name : List Nat) : db_get_note (poke_tag db a f) name = db_get_note db name := rfl

theorem db_get_note_poke_note (db : db_t) (a : Nat) (g : note_entry → note_entry)
    (hh : ∀ n, (g n).hash = n.hash) (hp : ∀ n, (g n).path = n.path) (name : List Nat) :
    db_get_note (poke_note db a g) name =
      (db_get_note db name).map (fun e => if e.addr = a then g e else e) := by
  simp only [db_get_note, poke_note, List.find?_map]
  congr 2
  funext e
  by_cases h : e.addr = a <;> simp [h, hh, hp]

theorem db_tag_note_keeps (db : db_t) (path tag name : List Nat)
    (h : (db_get_note db name).isSome = true) :
    (db_get_note (db_tag_note db path tag) name).isSome = true := by
  cases hn : get_note_entry (db_def_tag db tag).1 path with
  | none => rw [db_tag_note_none hn, db_get_note_def_tag]; exact h
  | some note_e =>
    rw [db_tag_note_some hn, db_get_note_poke_note, db_get_note_poke_tag,
      db_get_note_def_tag, Option.isSome_map']
    · exact h
    · exact fun _ => rfl
    · exact fun _ => rfl

theorem tag_loop_keeps (fuel : Nat) (db db2 : db_t) (name hdr : List Nat)
    (h : (db_get_note db name).isSome = true) (hl : tag_loop fuel db name hdr = some db2) :
    (db_get_note db2 name).isSome = true := by
  induction fuel generalizing db hdr with
  | zero => simp [tag_loop] at hl
  | succ fuel ih =>
    unfold tag_loop at hl
    cases hs : sscanf_tag hdr with
    | none =>
      rw [hs] at hl
      cases hl
      exact h
    | some r =>
      rw [hs] at hl
      exact ih _ _ (db_tag_note_keeps db name r.1 name h) hl

theorem db_add_note_registers (db : db_t) (name : List Nat) (c m : Int)
    (hlen : name.length < PATH_MAX) :
    (db_get_note (db_add_note db name c m) name).isSome = true := by
  unfold db_add_note
  cases hn : get_note_entry db name with
  | some e =>
    have : db_get_note db name = some e := hn
    simp [this]
  | none =>
    have ht : List.take (PATH_MAX - 1) name = name := by
      apply List.take_of_length_le
      omega
    simp [db_get_note, ht]
/-- With the base name found and the file open, `process` is the header check followed
by registration and the tag loop. -/
theorem process_open {cwd : file_sys} {temp : db_t} {path data : List Nat} (sb : stat)
    (hb : (jb_basename path NAME_MAX).1 = 0)
    (hf : fopen cwd (jb_basename path NAME_MAX).2 = some { data := data, pos := 0 }) :
    process cwd false temp path sb =
      if is_adrus_hdr (first_line data) = true then
        (tag_loop (((first_line data).drop 5).length + 1)
          (db_add_note temp (path.drop temp.path.length) sb.st_ctime sb.st_mtime)
          (path.drop temp.path.length) ((first_line data).drop 5)).map
          (fun db2 => (db2, JB_OK_VAL))
      else some (temp, JB_OK_VAL) := by
  unfold process
  simp only [hb, hf, read_line_start, ne_eq, not_true_eq_false, if_false]
  cases h : is_adrus_hdr (first_line data)
  · have : (!validate_hdr (first_line data) ||
        !strncmp_eq (first_line data) (bytes "adrus") 5) = true := by
      simpa [is_adrus_hdr, ← Bool.not_and] using h
    simp [this]
  · have : (!validate_hdr (first_line data) ||
        !strncmp_eq (first_line data) (bytes "adrus") 5) = false := by
      simpa [is_adrus_hdr, ← Bool.not_and] using h
    simp [this]

/-- Whatever happens, a file whose header check fails leaves the store as it was. -/
theorem process_rejects (cwd : file_sys) (read_err : Bool) (temp : db_t) (path : List Nat)
    (sb : stat)
    (hbad : ∀ data, fopen cwd (jb_basename path NAME_MAX).2 = some { data := data, pos := 0 } →
      is_adrus_hdr (first_line data) = false) :
    ∃ res, process cwd read_err temp path sb = some (temp, res) := by
  by_cases hb : (jb_basename path NAME_MAX).1 = 0
  · cases hf : fopen cwd (jb_basename path NAME_MAX).2 with
    | none =>
      exact ⟨JB_ERR_LIBC "failed to open file", by simp [process, hb, hf]⟩
    | some f =>
      obtain ⟨_, _, hfe⟩ := fopen_eq_some hf
      rw [hfe] at hf
      cases read_err
      · refine ⟨JB_OK_VAL, ?_⟩
        rw [process_open sb hb hf, hbad _ hf]
        simp
      · exact ⟨JB_ERR_LIBC "read_line failed", by simp [process, hb, hf, read_line]⟩
  · exact ⟨JB_ERR_LIBC "failed to get basename of path", by simp [process, hb]⟩

/-- C9 as stated fails on a first line with a zero byte: the line `adrus`, a zero byte,
`@` holds two characters that are not white space, alphanumeric or underscore, and
`process` registers the file as a note. -/
theorem header_acceptance_counterexample :
    nul_cwd (bytes "a") = some (bytes "adrus" ++ [0, 64] ++ bytes "\nBODY") ∧
    first_line (bytes "adrus" ++ [0, 64] ++ bytes "\nBODY") = bytes "adrus" ++ [0, 64] ∧
    valid_hdr_char 0 = false ∧ valid_hdr_char 64 = false ∧
    ¬ hdr_ok (first_line (bytes "adrus" ++ [0, 64] ++ bytes "\nBODY")) ∧
    db_get_note (db_empty (bytes "/nb")) (bytes "/a") = none ∧
    (process nul_cwd false (db_empty (bytes "/nb")) (bytes "/nb/a") ⟨0, 0⟩).map
      (fun r => ((db_get_note r.1 (bytes "/a")).isSome, r.2)) = some (true, JB_OK_VAL) := by
  decide

/-- C9 (amended): for a file that `process` opens and reads, under a name shorter than
`PATH_MAX - 1` (so that the record's path field holds it with its terminator) that is not
yet registered, `process` returns without error, and it registers the file as a note if
and only if the first line read as a C string (its bytes up to the first zero byte) has
only white space, alphanumeric and underscore characters and begins with `adrus`; for
every other such file the store is left unchanged. -/
theorem header_acceptance (cwd : file_sys) (temp : db_t) (path : List Nat) (sb : stat)
    (data : List Nat)
    (hb : (jb_basename path NAME_MAX).1 = 0)
    (hopen : fopen cwd (jb_basename path NAME_MAX).2 = some { data := data, pos := 0 })
    (hname : (path.drop temp.path.length).length < PATH_MAX - 1)
    (hfresh : db_get_note temp (path.drop temp.path.length) = none) :
    ∃ db2, process cwd false temp path sb = some (db2, JB_OK_VAL) ∧
      ((db_get_note db2 (path.drop temp.path.length)).isSome = true ↔
        hdr_ok (cstr (first_line data))) ∧
      (¬ hdr_ok (cstr (first_line data)) → db2 = temp) := by
  rw [process_open sb hb hopen]
  by_cases h : is_adrus_hdr (first_line data) = true
  · have hok := (is_adrus_hdr_iff _).1 h
    obtain ⟨db2, hl⟩ := tag_loop_total (((first_line data).drop 5).length + 1)
      (db_add_note temp (path.drop temp.path.length) sb.st_ctime sb.st_mtime)
      (path.drop temp.path.length) ((first_line data).drop 5) (Nat.lt_succ_self _)
    refine ⟨db2, by rw [if_pos h, hl]; rfl, ?_, fun hn => absurd hok hn⟩
    have := tag_loop_keeps _ _ _ _ _ (db_add_note_registers temp _ sb.st_ctime sb.st_mtime
      (Nat.lt_of_lt_of_le hname (Nat.sub_le _ _))) hl
    simp [this, hok]
  · have hbad : ¬ hdr_ok (cstr (first_line data)) := fun hh => h ((is_adrus_hdr_iff _).2 hh)
    refine ⟨temp, by rw [if_neg h], ?_, fun _ => rfl⟩
    simp [hfresh, hbad]

theorem header_acceptance_witness :
    (∃ db2, process demo_cwd false (db_empty (bytes "/nb")) (bytes "/nb/a") ⟨0, 0⟩ =
        some (db2, JB_OK_VAL) ∧
      ((db_get_note db2 (bytes "/a")).isSome = true ↔
        hdr_ok (cstr (first_line (bytes "adrus foo bar\nBODY")))) ∧
      (¬ hdr_ok (cstr (first_line (bytes "adrus foo bar\nBODY"))) →
        db2 = db_empty (bytes "/nb"))) ∧
    hdr_ok (cstr (first_line (bytes "adrus foo bar\nBODY"))) :=
  ⟨header_acceptance demo_cwd (db_empty (bytes "/nb")) (bytes "/nb/a") ⟨0, 0⟩
    (bytes "adrus foo bar\nBODY") (by decide) (by decide) (by decide) (by decide),
   by decide⟩

/-- C10 as stated fails on the first line `adrusfoo`: `process` registers the file as a
note, with the one tag `foo`. -/
theorem malformed_rejection_counterexample :
    glued_cwd (bytes "a") = some (bytes "adrusfoo\nBODY") ∧
    first_line (bytes "adrusfoo\nBODY") = bytes "adrusfoo" ∧
    all_notes (db_empty (bytes "/nb")) = [] ∧
    (process glued_cwd false (db_empty (bytes "/nb")) (bytes "/nb/a") ⟨0, 0⟩).map
      (fun r => ((all_notes r.1).map (fun n => (n.path, n.tags.map (tag_name r.1))), r.2))
      = some ([(bytes "/a", [bytes "foo"])], JB_OK_VAL) := by
  decide

/-- C10 (amended): a file whose first line, read as a C string (its bytes up to the
first zero byte), contains a character that is not white space, alphanumeric or
underscore is never registered as a note: `process` leaves the store unchanged. -/
theorem malformed_rejection (cwd : file_sys) (read_err : Bool) (temp : db_t)
    (path : List Nat) (sb : stat)
    (hbad : ∀ data, fopen cwd (jb_basename path NAME_MAX).2 = some { data := data, pos := 0 } →
      ∃ c ∈ cstr (first_line data), valid_hdr_char c = false) :
    ∃ res, process cwd read_err temp path sb = some (temp, res) := by
  apply process_rejects
  intro data hf
  obtain ⟨c, hc, hv⟩ := hbad data hf
  cases h : is_adrus_hdr (first_line data)
  · rfl
  · have := ((is_adrus_hdr_iff _).1 h).1 c hc
    rw [hv] at this
    exact absurd this (by decide)

theorem malformed_rejection_witness :
    (∀ data, fopen bad_cwd (jb_basename (bytes "/nb/a") NAME_MAX).2 =
        some { data := data, pos := 0 } →
      ∃ c ∈ cstr (first_line data), valid_hdr_char c = false) ∧
    ∃ res, process bad_cwd false (db_empty (bytes "/nb")) (bytes "/nb/a") ⟨0, 0⟩ =
      some (db_empty (bytes "/nb"), res) :=
  have hfo : fopen bad_cwd (jb_basename (bytes "/nb/a") NAME_MAX).2 =
      some { data := bytes "adrus f-o\nBODY", pos := 0 } := by decide
  have hyp : ∀ data, fopen bad_cwd (jb_basename (bytes "/nb/a") NAME_MAX).2 =
        some { data := data, pos := 0 } →
      ∃ c ∈ cstr (first_line data), valid_hdr_char c = false := by
    intro data h
    rw [hfo] at h
    cases h
    exact ⟨45, by decide, by decide⟩
  ⟨hyp, malformed_rejection bad_cwd false (db_empty (bytes "/nb")) (bytes "/nb/a") ⟨0, 0⟩ hyp⟩
/-! ## Parsing the tags of a header -/

theorem isspace_not_lower {c : Nat} (h : isspace c = true) :
    (decide (97 ≤ c) && decide (c ≤ 122)) = false := by
  simp only [isspace, Bool.or_eq_true, beq_iff_eq, Bool.and_eq_true, decide_eq_true_eq] at h
  rw [Bool.and_eq_false_iff]
  simp only [decide_eq_false_iff_not]
  omega

theorem lower_not_space {c : Nat} (h : 97 ≤ c ∧ c ≤ 122) : isspace c = false := by
  cases hs : isspace c
  · rfl
  · have := isspace_not_lower hs
    simp only [Bool.and_eq_false_iff, decide_eq_false_iff_not] at this
    omega

theorem isspace_ne_zero {c : Nat} (h : isspace c = true) : c ≠ 0 := by
  intro hc
  subst hc
  simp [isspace] at h

/-- One `sscanf` call on white space, a token and a rest that does not go on with a
letter: the token is read whole. -/
theorem sscanf_tag_token (ws t rest : List Nat) (hws : ∀ c ∈ ws, isspace c = true)
    (ht : t ≠ []) (hlen : t.length ≤ 31) (hlow : ∀ c ∈ t, 97 ≤ c ∧ c ≤ 122)
    (hrest : ∀ c ∈ rest.head?, isspace c = true) (hz : 0 ∉ rest) :
    sscanf_tag (ws ++ t ++ rest) = some (t, ws.length + t.length) := by
  have hnz : 0 ∉ ws ++ t ++ rest := by
    simp only [List.mem_append, not_or]
    refine ⟨⟨fun h => isspace_ne_zero (hws 0 h) rfl, fun h => ?_⟩, hz⟩
    have := hlow 0 h
    omega
  have h1 : List.takeWhile isspace (ws ++ t ++ rest) = ws := by
    rw [List.append_assoc, List.takeWhile_append_of_pos hws]
    cases t with
    | nil => exact absurd rfl ht
    | cons c t' =>
      have := lower_not_space (hlow c (List.mem_cons_self _ _))
      simp [List.takeWhile_cons, this]
  have h2 : List.takeWhile (fun c => decide (97 ≤ c) && decide (c ≤ 122)) (t ++ rest) = t := by
    rw [List.takeWhile_append_of_pos]
    · cases rest with
      | nil => simp
      | cons c r =>
        have := isspace_not_lower (hrest c (by simp))
        simp [List.takeWhile_cons, this]
    · intro c hc
      have := hlow c hc
      simp [this.1, this.2]
  unfold sscanf_tag
  simp only [cstr_eq_self _ hnz, h1]
  rw [List.append_assoc, List.drop_left, h2, List.take_of_length_le hlen]
  cases t with
  | nil => exact absurd rfl ht
  | cons c t' => simp

/-- On white space alone `sscanf` reads no tag. -/
theorem sscanf_tag_trail (trail : List Nat) (h : ∀ c ∈ trail, isspace c = true) :
    sscanf_tag trail = none := by
  have hnz : 0 ∉ trail := fun hm => isspace_ne_zero (h 0 hm) rfl
  have h1 : List.takeWhile isspace trail = trail := by
    rw [List.takeWhile_eq_self_iff]
    exact h
  unfold sscanf_tag
  simp [cstr_eq_self _ hnz, h1]

theorem tokens_head_space (toks : List (List Nat × List Nat)) (trail : List Nat)
    (hall : ∀ p ∈ toks, token_ok p) (htrail : ∀ c ∈ trail, isspace c = true) :
    ∀ c ∈ (toks.flatMap (fun p => p.1 ++ p.2) ++ trail).head?, isspace c = true := by
  intro c hc
  cases toks with
  | nil =>
    simp only [List.flatMap_nil, List.nil_append] at hc
    cases trail with
    | nil => simp at hc
    | cons a r =>
      simp only [List.head?_cons, Option.mem_def, Option.some.injEq] at hc
      exact hc ▸ htrail a (List.mem_cons_self _ _)
  | cons p ps =>
    obtain ⟨h1, h2, _⟩ := hall p (List.mem_cons_self _ _)
    cases hp : p.1 with
    | nil => exact absurd hp h1
    | cons a r =>
      simp only [List.flatMap_cons, hp, List.cons_append, List.head?_cons, Option.mem_def,
        Option.some.injEq] at hc
      exact hc ▸ h2 a (by rw [hp]; exact List.mem_cons_self _ _)

theorem tokens_no_zero (toks : List (List Nat × List Nat)) (trail : List Nat)
    (hall : ∀ p ∈ toks, token_ok p) (htrail : ∀ c ∈ trail, isspace c = true) :
    0 ∉ toks.flatMap (fun p => p.1 ++ p.2) ++ trail := by
  simp only [List.mem_append, List.mem_flatMap, not_or, not_exists, not_and]
  refine ⟨fun p hp => ?_, fun h => isspace_ne_zero (htrail 0 h) rfl⟩
  obtain ⟨_, h2, _, _, h5⟩ := hall p hp
  refine ⟨fun h => isspace_ne_zero (h2 0 h) rfl, fun h => ?_⟩
  have := h5 0 h
  omega

/-- The tag loop on well-formed tokens makes one `db_tag_note` call per token, in
order. -/
theorem tag_loop_tokens (toks : List (List Nat × List Nat)) (trail : List Nat)
    (hall : ∀ p ∈ toks, token_ok p) (htrail : ∀ c ∈ trail, isspace c = true)
    (fuel : Nat) (db : db_t) (name : List Nat) (hfuel : toks.length < fuel) :
    tag_loop fuel db name (toks.flatMap (fun p => p.1 ++ p.2) ++ trail) =
      some (link_all db name (toks.map (fun p => p.2))) := by
  induction toks generalizing fuel db with
  | nil =>
    cases fuel with
    | zero => omega
    | succ fuel =>
      simp only [List.flatMap_nil, List.nil_append, tag_loop, sscanf_tag_trail trail htrail,
        link_all, List.map_nil, List.foldl_nil]
  | cons p ps ih =>
    cases fuel with
    | zero => omega
    | succ fuel =>
      have hps : ∀ q ∈ ps, token_ok q := fun q hq => hall q (List.mem_cons_of_mem _ hq)
      obtain ⟨_, h2, h3, h4, h5⟩ := hall p (List.mem_cons_self _ _)
      have hs := sscanf_tag_token p.1 p.2 (ps.flatMap (fun p => p.1 ++ p.2) ++ trail) h2 h3 h4 h5
        (tokens_head_space ps trail hps htrail) (tokens_no_zero ps trail hps htrail)
      have hd : List.drop (p.1.length + p.2.length)
          (p.1 ++ p.2 ++ (ps.flatMap (fun p => p.1 ++ p.2) ++ trail)) =
          ps.flatMap (fun p => p.1 ++ p.2) ++ trail := by
        rw [← List.length_append]
        exact List.drop_left _ _
      simp only [List.flatMap_cons, List.append_assoc] at hs hd ⊢
      simp only [tag_loop, hs, hd]
      rw [ih hps fuel _ (by simpa using hfuel)]
      simp [link_all]
/-! ## The tag list a scanned header leaves on its note -/

theorem tag_name_of_mem {db : db_t} (hd : distinct_addrs db) {t : tag_entry}
    (ht : t ∈ all_tags db) : tag_name db t.addr = t.tag := by
  unfold tag_name
  cases hf : (all_tags db).find? (fun u => u.addr == t.addr) with
  | none =>
    rw [List.find?_eq_none] at hf
    exact absurd (by simp) (hf t ht)
  | some x =>
    have hx := List.mem_of_find?_eq_some hf
    have hp : x.addr = t.addr := by simpa using List.find?_some hf
    rw [List.inj_on_of_nodup_map hd.2 hx ht hp]

theorem tag_names_of_forall₂ {db : db_t} (hd : distinct_addrs db) {as : List Nat}
    {names : List (List Nat)} (h : List.Forall₂ (names_tag db) as names) :
    as.map (tag_name db) = names := by
  induction h with
  | nil => rfl
  | cons hh _ ih =>
    obtain ⟨u, hu, ha, hn⟩ := hh
    rw [List.map_cons, ih, ← ha, tag_name_of_mem hd hu, hn]

/-- The pointer `db_def_tag` returns for a name shorter than `TAG_MAX` is a tag record
with that name. -/
theorem db_def_tag_names (db : db_t) (tag : List Nat) (hlen : tag.length < TAG_MAX) :
    names_tag (db_def_tag db tag).1 (db_def_tag db tag).2 tag := by
  cases h : db_get_tag db tag with
  | some e =>
    refine ⟨e, ?_, ?_, ?_⟩
    · rw [mem_all_tags_def_tag]; exact Or.inl (db_get_tag_mem h)
    · simp [db_def_tag, h]
    · have := List.find?_some h
      simp only [Bool.and_eq_true, beq_iff_eq] at this
      exact this.2
  | none =>
    refine ⟨new_tag db tag, ?_, ?_, ?_⟩
    · rw [mem_all_tags_def_tag]; exact Or.inr ⟨h, rfl⟩
    · simp [db_def_tag, h, new_tag]
    · simp only [new_tag]
      exact List.take_of_length_le (Nat.le_of_lt hlen)

theorem names_tag_def_tag {db : db_t} {a : Nat} {nm : List Nat} (tag : List Nat)
    (h : names_tag db a nm) : names_tag (db_def_tag db tag).1 a nm := by
  obtain ⟨u, hu, ha, hn⟩ := h
  exact ⟨u, (mem_all_tags_def_tag db tag u).2 (Or.inl hu), ha, hn⟩

theorem names_tag_poke {db : db_t} {a : Nat} {nm : List Nat} (ta na : Nat)
    (f : tag_entry → tag_entry) (g : note_entry → note_entry)
    (hfa : ∀ t, (f t).addr = t.addr) (hft : ∀ t, (f t).tag = t.tag)
    (h : names_tag db a nm) : names_tag (poke_note (poke_tag db ta f) na g) a nm := by
  obtain ⟨u, hu, ha, hn⟩ := h
  refine ⟨if u.addr = ta then f u else u, ?_, ?_, ?_⟩
  · rw [all_tags_poke_note, mem_all_tags_poke_tag]
    exact ⟨u, hu, rfl⟩
  · by_cases hc : u.addr = ta
    · rw [if_pos hc, hfa, ha]
    · rw [if_neg hc, ha]
  · by_cases hc : u.addr = ta <;> simp [hc, hft, hn]

theorem names_tag_tag_note {db : db_t} {a : Nat} {nm : List Nat} (path tag : List Nat)
    (h : names_tag db a nm) : names_tag (db_tag_note db path tag) a nm := by
  have h1 := names_tag_def_tag tag h
  cases hn : get_note_entry (db_def_tag db tag).1 path with
  | none => rw [db_tag_note_none hn]; exact h1
  | some note_e =>
    rw [db_tag_note_some hn]
    exact names_tag_poke _ _ _ _ (fun _ => rfl) (fun _ => rfl) h1

/-- One `db_tag_note` call on a registered note appends the tag's pointer to the note's
tag array. -/
theorem db_tag_note_appends {db : db_t} {name tag : List Nat} {n : note_entry}
    (hn : db_get_note db name = some n) :
    db_get_note (db_tag_note db name tag) name =
      some { n with cap := grow_cap n.tags.length n.cap,
                    tags := n.tags ++ [(db_def_tag db tag).2] } := by
  have hg : get_note_entry (db_def_tag db tag).1 name = some n := by
    have : get_note_entry (db_def_tag db tag).1 name = db_get_note (db_def_tag db tag).1 name :=
      rfl
    rw [this, db_get_note_def_tag, hn]
  rw [db_tag_note_some hg, db_get_note_poke_note, db_get_note_poke_tag, db_get_note_def_tag, hn]
  · simp
  · exact fun _ => rfl
  · exact fun _ => rfl

theorem below_brk_tag_note {db : db_t} (hb : below_brk db) (path tag : List Nat) :
    below_brk (db_tag_note db path tag) := by
  have hb1 := below_brk_def_tag hb tag
  cases hn : get_note_entry (db_def_tag db tag).1 path with
  | none => rw [db_tag_note_none hn]; exact hb1
  | some note_e =>
    rw [db_tag_note_some hn]
    obtain ⟨t, ht, hta⟩ := db_def_tag_ret_mem db tag
    exact below_brk_link hb1 _ _ (hta ▸ (hb1.2 t ht).1) (hb1.1 _ (get_note_entry_mem hn)).1

/-- The `db_tag_note` calls for a list of short tag names leave the note with the
pointers of those tags appended, in order. -/
theorem link_all_tags (tags : List (List Nat)) (db : db_t) (name : List Nat) (n : note_entry)
    (acc : List (List Nat)) (hn : db_get_note db name = some n)
    (hacc : List.Forall₂ (names_tag db) n.tags acc)
    (hlen : ∀ t ∈ tags, t.length < TAG_MAX) (hb : below_brk db) (hd : distinct_addrs db) :
    ∃ n2, db_get_note (link_all db name tags) name = some n2 ∧
      List.Forall₂ (names_tag (link_all db name tags)) n2.tags (acc ++ tags) ∧
      n2.ctime = n.ctime ∧ n2.mtime = n.mtime ∧
      below_brk (link_all db name tags) ∧ distinct_addrs (link_all db name tags) := by
  induction tags generalizing db n acc with
  | nil => exact ⟨n, hn, by simpa using hacc, rfl, rfl, hb, hd⟩
  | cons t rest ih =>
    have ht : t.length < TAG_MAX := hlen t (List.mem_cons_self _ _)
    have hstep : db_get_note (db_tag_note db name t) name = _ := db_tag_note_appends hn
    have hacc2 : List.Forall₂ (names_tag (db_tag_note db name t))
        (n.tags ++ [(db_def_tag db t).2]) (acc ++ [t]) := by
      apply List.rel_append
      · exact hacc.imp (fun _ _ h => names_tag_tag_note name t h)
      · refine List.Forall₂.cons ?_ List.Forall₂.nil
        have h1 := db_def_tag_names db t ht
        cases hg : get_note_entry (db_def_tag db t).1 name with
        | none => rw [db_tag_note_none hg]; exact h1
        | some note_e =>
          rw [db_tag_note_some hg]
          exact names_tag_poke _ _ _ _ (fun _ => rfl) (fun _ => rfl) h1
    obtain ⟨n2, h1, h2, h3, h4, h5, h6⟩ := ih (db_tag_note db name t) _ (acc ++ [t]) hstep hacc2
      (fun u hu => hlen u (List.mem_cons_of_mem _ hu)) (below_brk_tag_note hb name t)
      (distinct_tag_note hd hb name t)
    refine ⟨n2, h1, ?_, h3, h4, h5, h6⟩
    simpa [link_all] using h2
theorem db_add_note_fresh {db : db_t} {name : List Nat} (c m : Int)
    (hfresh : db_get_note db name = none) (hlen : name.length < PATH_MAX) :
    db_get_note (db_add_note db name c m) name = some (new_note db name c m) := by
  have hg : get_note_entry db name = none := hfresh
  have ht : List.take (PATH_MAX - 1) name = name := by
    apply List.take_of_length_le
    omega
  simp [db_add_note, hg, db_get_note, new_note, ht]

theorem tokens_length_le (toks : List (List Nat × List Nat)) (hall : ∀ p ∈ toks, token_ok p) :
    toks.length ≤ (toks.flatMap (fun p => p.1 ++ p.2)).length := by
  induction toks with
  | nil => simp
  | cons p ps ih =>
    have := ih (fun q hq => hall q (List.mem_cons_of_mem _ hq))
    obtain ⟨h1, _⟩ := hall p (List.mem_cons_self _ _)
    have hp : 0 < p.1.length := List.length_pos.2 h1
    simp only [List.flatMap_cons, List.length_append, List.length_cons]
    omega

theorem tagged_hdr_ok (toks : List (List Nat × List Nat)) (trail : List Nat)
    (hall : ∀ p ∈ toks, token_ok p) (htrail : ∀ c ∈ trail, isspace c = true) :
    is_adrus_hdr (tagged_hdr toks trail) = true := by
  have hz : 0 ∉ tagged_hdr toks trail := by
    unfold tagged_hdr
    rw [List.append_assoc, List.mem_append, not_or]
    exact ⟨by decide, tokens_no_zero toks trail hall htrail⟩
  rw [is_adrus_hdr_iff, cstr_eq_self _ hz]
  constructor
  · intro c hc
    simp only [tagged_hdr, List.mem_append, List.mem_flatMap] at hc
    rcases hc with (hc | ⟨p, hp, hc | hc⟩) | hc
    · revert c
      decide
    · simp [valid_hdr_char, (hall p hp).2.1 c hc]
    · have := (hall p hp).2.2.2.2 c hc
      simp [valid_hdr_char, isalnum, this.1, this.2]
    · simp [valid_hdr_char, htrail c hc]
  · unfold tagged_hdr
    rw [List.append_assoc, List.take_left' (by decide)]

theorem tagged_hdr_drop (toks : List (List Nat × List Nat)) (trail : List Nat) :
    (tagged_hdr toks trail).drop 5 = toks.flatMap (fun p => p.1 ++ p.2) ++ trail := by
  unfold tagged_hdr
  rw [List.append_assoc, List.drop_left' (by decide)]

/-- C11 (header tag parsing): when the first line of the file `process` opens is `adrus`
followed by tokens, each a non-empty run of at most 31 letters `a`..`z` after at least
one white-space character, with optional trailing white space, `process` registers the
note (under a fresh name shorter than `PATH_MAX - 1`, in a store built by the store
operations) by one `db_tag_note` call per token, in header order, and the names of the
note's tag list are exactly the tokens, in header order. -/
theorem header_tag_parsing (cwd : file_sys) (root : List Nat) (ops : List db_op)
    (temp : db_t) (path : List Nat) (sb : stat) (data : List Nat)
    (toks : List (List Nat × List Nat)) (trail : List Nat)
    (hreach : temp = run_ops (db_empty root) ops)
    (hb : (jb_basename path NAME_MAX).1 = 0)
    (hopen : fopen cwd (jb_basename path NAME_MAX).2 = some { data := data, pos := 0 })
    (hline : first_line data = tagged_hdr toks trail)
    (htoks : ∀ p ∈ toks, token_ok p) (htrail : ∀ c ∈ trail, isspace c = true)
    (hname : (path.drop temp.path.length).length < PATH_MAX - 1)
    (hfresh : db_get_note temp (path.drop temp.path.length) = none) :
    ∃ db2 n, process cwd false temp path sb = some (db2, JB_OK_VAL) ∧
      db2 = link_all (db_add_note temp (path.drop temp.path.length) sb.st_ctime sb.st_mtime)
        (path.drop temp.path.length) (toks.map (fun p => p.2)) ∧
      db_get_note db2 (path.drop temp.path.length) = some n ∧
      n.tags.map (tag_name db2) = toks.map (fun p => p.2) ∧
      n.tags.length = toks.length := by
  have hinv := run_ops_inv (db_empty root) ops
    (by intro n hn; simp [all_notes_empty] at hn)
    ⟨by intro n hn; simp [all_notes_empty] at hn, by intro t ht; simp [all_tags_empty] at ht⟩
  have hdist := reachable_distinct root ops
  rw [← hreach] at hinv hdist
  have hb1 := below_brk_add_note hinv.2 (path.drop temp.path.length) sb.st_ctime sb.st_mtime
  have hd1 := distinct_add_note hdist hinv.2 (path.drop temp.path.length) sb.st_ctime sb.st_mtime
  have hn1 := db_add_note_fresh sb.st_ctime sb.st_mtime hfresh
    (Nat.lt_of_lt_of_le hname (Nat.sub_le _ _))
  have hshort : ∀ t ∈ toks.map (fun p => p.2), t.length < TAG_MAX := by
    intro t ht
    obtain ⟨p, hp, rfl⟩ := List.mem_map.1 ht
    have := (htoks p hp).2.2.2.1
    show p.2.length < 32
    omega
  obtain ⟨n2, h1, h2, _, _, _, h6⟩ := link_all_tags (toks.map (fun p => p.2)) _ _ _ []
    hn1 (by simp [new_note]) hshort hb1 hd1
  refine ⟨_, n2, ?_, rfl, h1, ?_, ?_⟩
  · rw [process_open sb hb hopen, hline, if_pos (tagged_hdr_ok toks trail htoks htrail),
      tagged_hdr_drop, tag_loop_tokens toks trail htoks htrail]
    · rfl
    · have := tokens_length_le toks htoks
      simp only [List.length_append]
      omega
  · exact tag_names_of_forall₂ h6 (by simpa using h2)
  · have := (by simpa using h2 : List.Forall₂ _ n2.tags (toks.map (fun p => p.2))).length_eq
    simpa using this

theorem header_tag_parsing_witness :
    (∀ p ∈ [(bytes " ", bytes "foo"), (bytes "  ", bytes "bar")], token_ok p) ∧
    first_line (bytes "adrus foo  bar \nBODY") =
      tagged_hdr [(bytes " ", bytes "foo"), (bytes "  ", bytes "bar")] (bytes " ") ∧
    ∃ db2 n, process (fun p => if p = bytes "a" then some (bytes "adrus foo  bar \nBODY") else none)
        false (db_empty (bytes "/nb")) (bytes "/nb/a") ⟨0, 0⟩ = some (db2, JB_OK_VAL) ∧
      db2 = link_all (db_add_note (db_empty (bytes "/nb")) (bytes "/a") 0 0) (bytes "/a")
        [bytes "foo", bytes "bar"] ∧
      db_get_note db2 (bytes "/a") = some n ∧
      n.tags.map (tag_name db2) = [bytes "foo", bytes "bar"] ∧
      n.tags.length = 2 :=
  ⟨by decide, by decide,
   header_tag_parsing (fun p => if p = bytes "a" then some (bytes "adrus foo  bar \nBODY") else none)
     (bytes "/nb") [] (db_empty (bytes "/nb")) (bytes "/nb/a") ⟨0, 0⟩
     (bytes "adrus foo  bar \nBODY") [(bytes " ", bytes "foo"), (bytes "  ", bytes "bar")]
     (bytes " ") rfl (by decide) (by decide) (by decide) (by decide) (by decide) (by decide)
     (by decide)⟩
/-! ## Uniqueness of keys -/

theorem keyed_note_found {db : db_t} (hk : keyed db) {e : note_entry}
    (he : e ∈ all_notes db) : ∃ x, get_note_entry db e.path = some x := by
  obtain ⟨b, hb⟩ := (mem_all_notes db e).1 he
  obtain ⟨h1, h2⟩ := hk.1 b e hb
  have : ((db.bnotes (bucket_of (jb_fnv1a_str e.path))).find?
      (fun cur => cur.hash == jb_fnv1a_str e.path && cur.path == e.path)).isSome = true := by
    rw [List.find?_isSome]
    refine ⟨e, ?_, by simp [h1]⟩
    rw [← h1, h2]
    exact hb
  exact Option.isSome_iff_exists.1 this

theorem keyed_tag_found {db : db_t} (hk : keyed db) {e : tag_entry}
    (he : e ∈ all_tags db) : ∃ x, db_get_tag db e.tag = some x := by
  obtain ⟨b, hb⟩ := (mem_all_tags db e).1 he
  obtain ⟨h1, h2⟩ := hk.2 b e hb
  have : ((db.btags (bucket_of (jb_fnv1a_str e.tag))).find?
      (fun cur => cur.hash == jb_fnv1a_str e.tag && cur.tag == e.tag)).isSome = true := by
    rw [List.find?_isSome]
    refine ⟨e, ?_, by simp [h1]⟩
    rw [← h1, h2]
    exact hb
  exact Option.isSome_iff_exists.1 this

theorem keyed_add_note {db : db_t} (hk : keyed db) (path : List Nat) (c m : Int)
    (hlen : path.length < PATH_MAX) : keyed (db_add_note db path c m) := by
  have ht : List.take (PATH_MAX - 1) path = path :=
    List.take_of_length_le (by omega)
  refine ⟨?_, by rw [db_add_note_tags]; exact hk.2⟩
  unfold db_add_note
  cases hn : get_note_entry db path with
  | some e => exact hk.1
  | none =>
    intro b e he
    by_cases hb : b = bucket_of (jb_fnv1a_str path)
    · simp only [hb, if_true, List.mem_cons] at he
      rcases he with rfl | he
      · simp [ht, hb]
      · exact hb ▸ hk.1 _ e he
    · simp only [hb, if_false] at he
      exact hk.1 b e he

theorem keyed_def_tag {db : db_t} (hk : keyed db) (tag : List Nat)
    (hlen : tag.length < TAG_MAX) : keyed (db_def_tag db tag).1 := by
  have ht : List.take TAG_MAX tag = tag := List.take_of_length_le (Nat.le_of_lt hlen)
  refine ⟨by rw [db_def_tag_notes]; exact hk.1, ?_⟩
  unfold db_def_tag
  cases hn : db_get_tag db tag with
  | some e => exact hk.2
  | none =>
    intro b e he
    by_cases hb : b = bucket_of (jb_fnv1a_str tag)
    · simp only [hb, if_true, List.mem_cons] at he
      rcases he with rfl | he
      · simp [ht, hb]
      · exact hb ▸ hk.2 _ e he
    · simp only [hb, if_false] at he
      exact hk.2 b e he

theorem keyed_poke {db : db_t} (hk : keyed db) (ta na : Nat)
    (f : tag_entry → tag_entry) (g : note_entry → note_entry)
    (hf1 : ∀ t, (f t).hash = t.hash) (hf2 : ∀ t, (f t).tag = t.tag)
    (hg1 : ∀ n, (g n).hash = n.hash) (hg2 : ∀ n, (g n).path = n.path) :
    keyed (poke_note (poke_tag db ta f) na g) := by
  constructor
  · intro b e he
    simp only [poke_note, poke_tag, List.mem_map] at he
    obtain ⟨x, hx, rfl⟩ := he
    have := hk.1 b x hx
    by_cases hc : x.addr = na
    · simpa [hc, hg1, hg2] using this
    · simpa [hc] using this
  · intro b e he
    simp only [poke_note, poke_tag, List.mem_map] at he
    obtain ⟨x, hx, rfl⟩ := he
    have := hk.2 b x hx
    by_cases hc : x.addr = ta
    · simpa [hc, hf1, hf2] using this
    · simpa [hc] using this

theorem keyed_tag_note {db : db_t} (hk : keyed db) (path tag : List Nat)
    (hlen : tag.length < TAG_MAX) : keyed (db_tag_note db path tag) := by
  have h1 := keyed_def_tag hk tag hlen
  cases hn : get_note_entry (db_def_tag db tag).1 path with
  | none => rw [db_tag_note_none hn]; exact h1
  | some note_e =>
    rw [db_tag_note_some hn]
    exact keyed_poke h1 _ _ _ _ (fun _ => rfl) (fun _ => rfl) (fun _ => rfl) (fun _ => rfl)

theorem unique_add_note {db : db_t} (hu : unique_keys db) (hk : keyed db) (path : List Nat)
    (c m : Int) (hlen : path.length < PATH_MAX) : unique_keys (db_add_note db path c m) := by
  have ht : List.take (PATH_MAX - 1) path = path :=
    List.take_of_length_le (by omega)
  refine ⟨?_, by rw [all_tags_add_note]; exact hu.2⟩
  cases h : get_note_entry db path with
  | some e => simpa [db_add_note, h] using hu.1
  | none =>
    rw [((all_notes_add_note_perm c m h).map note_entry.path).nodup_iff, List.map_cons,
      List.nodup_cons]
    refine ⟨?_, hu.1⟩
    simp only [List.mem_map, not_exists, not_and, new_note, ht]
    intro n hn he
    obtain ⟨x, hx⟩ := keyed_note_found hk hn
    rw [he, h] at hx
    cases hx

theorem unique_def_tag {db : db_t} (hu : unique_keys db) (hk : keyed db) (tag : List Nat)
    (hlen : tag.length < TAG_MAX) : unique_keys (db_def_tag db tag).1 := by
  have ht : List.take TAG_MAX tag = tag := List.take_of_length_le (Nat.le_of_lt hlen)
  refine ⟨by rw [all_notes_def_tag]; exact hu.1, ?_⟩
  cases h : db_get_tag db tag with
  | some e => simpa [db_def_tag, h] using hu.2
  | none =>
    rw [((all_tags_def_tag_perm h).map tag_entry.tag).nodup_iff, List.map_cons,
      List.nodup_cons]
    refine ⟨?_, hu.2⟩
    simp only [List.mem_map, not_exists, not_and, new_tag, ht]
    intro n hn he
    obtain ⟨x, hx⟩ := keyed_tag_found hk hn
    rw [he, h] at hx
    cases hx

theorem unique_poke {db : db_t} (hu : unique_keys db) (ta na : Nat)
    (f : tag_entry → tag_entry) (g : note_entry → note_entry)
    (hf : ∀ t, (f t).tag = t.tag) (hg : ∀ n, (g n).path = n.path) :
    unique_keys (poke_note (poke_tag db ta f) na g) := by
  have e1 : (fun e : note_entry => (if e.addr = na then g e else e).path) = note_entry.path := by
    funext e; by_cases h : e.addr = na <;> simp [h, hg]
  have e2 : (fun e : tag_entry => (if e.addr = ta then f e else e).tag) = tag_entry.tag := by
    funext e; by_cases h : e.addr = ta <;> simp [h, hf]
  constructor
  · rw [all_notes_poke_note, all_notes_poke_tag, List.map_map]
    simpa [Function.comp_def, e1] using hu.1
  · rw [all_tags_poke_note, all_tags_poke_tag, List.map_map]
    simpa [Function.comp_def, e2] using hu.2

theorem unique_tag_note {db : db_t} (hu : unique_keys db) (hk : keyed db) (path tag : List Nat)
    (hlen : tag.length < TAG_MAX) : unique_keys (db_tag_note db path tag) := by
  have h1 := unique_def_tag hu hk tag hlen
  cases hn : get_note_entry (db_def_tag db tag).1 path with
  | none => rw [db_tag_note_none hn]; exact h1
  | some note_e =>
    rw [db_tag_note_some hn]
    exact unique_poke h1 _ _ _ _ (fun _ => rfl) (fun _ => rfl)

theorem run_ops_keyed (db : db_t) (ops : List db_op) (hb : ∀ op ∈ ops, op.bounded)
    (hk : keyed db) (hu : unique_keys db) :
    keyed (run_ops db ops) ∧ unique_keys (run_ops db ops) := by
  induction ops generalizing db with
  | nil => exact ⟨hk, hu⟩
  | cons op ops ih =>
    have hop := hb op (List.mem_cons_self _ _)
    have hrest : ∀ o ∈ ops, o.bounded := fun o ho => hb o (List.mem_cons_of_mem _ ho)
    cases op with
    | add_note path c m =>
      have hop2 : path.length < PATH_MAX := Nat.lt_of_lt_of_le hop (Nat.sub_le _ _)
      exact ih _ hrest (keyed_add_note hk path c m hop2) (unique_add_note hu hk path c m hop2)
    | def_tag tag =>
      exact ih _ hrest (keyed_def_tag hk tag hop) (unique_def_tag hu hk tag hop)
    | tag_note path tag =>
      exact ih _ hrest (keyed_tag_note hk path tag hop) (unique_tag_note hu hk path tag hop)

theorem reachable_keyed (root : List Nat) (ops : List db_op) (hb : ∀ op ∈ ops, op.bounded) :
    keyed (run_ops (db_empty root) ops) ∧ unique_keys (run_ops (db_empty root) ops) :=
  run_ops_keyed _ ops hb
    ⟨by intro b e he; simp [db_empty] at he, by intro b e he; simp [db_empty] at he⟩
    (by simp [unique_keys, all_notes_empty, all_tags_empty])
/-- C13 as stated fails for names that do not fit the record: two names of 33 bytes that
share their first 32 bytes have different hashes, so the second is not found and a
second record is made, and both records hold the same 32 bytes as their name. -/
theorem uniqueness_counterexample :
    long_name 98 ≠ long_name 99 ∧
    jb_fnv1a_str (long_name 98) ≠ jb_fnv1a_str (long_name 99) ∧
    (all_tags (run_ops (db_empty (bytes "/nb"))
        [.def_tag (long_name 98), .def_tag (long_name 99)])).map tag_entry.tag =
      [List.replicate 32 97, List.replicate 32 97] ∧
    ¬ unique_keys (run_ops (db_empty (bytes "/nb"))
        [.def_tag (long_name 98), .def_tag (long_name 99)]) := by
  refine ⟨by decide, by decide, by decide, ?_⟩
  intro h
  have h2 := h.2
  have e : (all_tags (run_ops (db_empty (bytes "/nb"))
        [.def_tag (long_name 98), .def_tag (long_name 99)])).map tag_entry.tag =
      [List.replicate 32 97, List.replicate 32 97] := by decide
  rw [e] at h2
  exact absurd h2 (by decide)

/-- C13 (amended): in every store reached from the empty store by a sequence of
`db_add_note`, `db_def_tag` and `db_tag_note` calls whose paths are shorter than
`PATH_MAX - 1` and whose tag names are shorter than `TAG_MAX`, no two note records hold the
same path and no two tag records hold the same name. -/
theorem uniqueness_reachable (root : List Nat) (ops : List db_op)
    (hb : ∀ op ∈ ops, op.bounded) :
    ((all_notes (run_ops (db_empty root) ops)).map note_entry.path).Nodup ∧
    ((all_tags (run_ops (db_empty root) ops)).map tag_entry.tag).Nodup :=
  (reachable_keyed root ops hb).2

theorem uniqueness_reachable_witness :
    (∀ op ∈ [db_op.add_note (bytes "a") 1 2, .add_note (bytes "a") 3 4, .def_tag (bytes "x"),
        .tag_note (bytes "a") (bytes "x"), .tag_note (bytes "b") (bytes "x")], op.bounded) ∧
    ((all_notes (run_ops (db_empty (bytes "/nb"))
        [.add_note (bytes "a") 1 2, .add_note (bytes "a") 3 4, .def_tag (bytes "x"),
         .tag_note (bytes "a") (bytes "x"), .tag_note (bytes "b") (bytes "x")])).map
      note_entry.path).Nodup ∧
    ((all_tags (run_ops (db_empty (bytes "/nb"))
        [.add_note (bytes "a") 1 2, .add_note (bytes "a") 3 4, .def_tag (bytes "x"),
         .tag_note (bytes "a") (bytes "x"), .tag_note (bytes "b") (bytes "x")])).map
      tag_entry.tag).Nodup :=
  ⟨by decide,
   uniqueness_reachable (bytes "/nb")
     [.add_note (bytes "a") 1 2, .add_note (bytes "a") 3 4, .def_tag (bytes "x"),
      .tag_note (bytes "a") (bytes "x"), .tag_note (bytes "b") (bytes "x")] (by decide)⟩
/-! ## Registering a note twice -/

/-- Once a path shorter than `PATH_MAX` has been added, the lookup finds a record. -/
theorem get_note_entry_add_note (db : db_t) (p : List Nat) (c m : Int)
    (hlen : p.length < PATH_MAX) :
    get_note_entry (db_add_note db p c m) p =
      some (match get_note_entry db p with
            | some e => e
            | none => new_note db p c m) := by
  cases h : get_note_entry db p with
  | some e => simp [db_add_note, h]
  | none =>
    have := db_add_note_fresh c m (show db_get_note db p = none from h) hlen
    exact this

/-- With the filter at its default, or at any level up to `JB_WARN`, the call for a path
that is registered has no defined result: the format has one conversion and the call
passes no argument. -/
theorem db_add_note_call_warns (filter : jb_llevel_t) (db : db_t) (p : List Nat) (c m : Int)
    (e : note_entry) (h : get_note_entry db p = some e) (hf : filter ≠ .JB_ERROR) :
    db_add_note_call filter db p c m = none := by
  have hq : jb_log_inner filter .JB_WARN (bytes "note '%s' already registered") 0 = none := by
    cases filter
    · decide
    · decide
    · decide
    · decide
    · exact absurd rfl hf
  simp [db_add_note_call, h, hq]

/-- C14 (no duplicate edges), evaluated on the header `adrus foo foo` and on the calls
`db_add_note a`, `db_tag_note a x`, `db_tag_note a x`: the note's tag array holds the
tag's pointer twice, and the tag's note array holds the note's pointer twice. -/
theorem duplicate_edge_kept :
    (process dup_cwd false (db_empty (bytes "/nb")) (bytes "/nb/a") ⟨0, 0⟩).map
      (fun r => ((all_notes r.1).map (fun n => (n.path, n.addr, n.tags)),
                 (all_tags r.1).map (fun t => (t.tag, t.addr, t.notes))))
      = some ([(bytes "/a", 1, [2, 2])], [(bytes "foo", 2, [1, 1])]) ∧
    (all_notes (run_ops (db_empty (bytes "/nb"))
        [.add_note (bytes "a") 0 0, .tag_note (bytes "a") (bytes "x"),
         .tag_note (bytes "a") (bytes "x")])).map (fun n => (n.addr, n.tags)) = [(1, [2, 2])] ∧
    (all_tags (run_ops (db_empty (bytes "/nb"))
        [.add_note (bytes "a") 0 0, .tag_note (bytes "a") (bytes "x"),
         .tag_note (bytes "a") (bytes "x")])).map (fun t => (t.addr, t.notes)) = [(2, [1, 1])] := by
  decide

/-! ## Defining a tag -/

/-- C15 as stated fails for a name of 33 bytes: the record keeps 32 of them, and the
lookup that follows `db_def_tag` does not find the tag. -/
theorem def_tag_contract_counterexample :
    (long_name 98).length = 33 ∧
    (all_tags (db_def_tag (db_empty (bytes "/nb")) (long_name 98)).1).map tag_entry.tag =
      [List.replicate 32 97] ∧
    db_get_tag (db_def_tag (db_empty (bytes "/nb")) (long_name 98)).1 (long_name 98) = none ∧
    jb_fnv1a_str (long_name 98) % 256 ≠ 98 := by
  decide

/-- C15 (amended): for every store and every name shorter than `TAG_MAX`, `db_def_tag`
returns a tag record; if a tag of that name is registered it returns that record and
leaves the store unchanged; otherwise it puts a new record with that name and an empty
note array at the head of the name's bucket and leaves every note and every other tag
record unchanged; in both cases a following `db_get_tag` returns the record that
`db_def_tag` returned. -/
theorem def_tag_contract (db : db_t) (name : List Nat) (hlen : name.length < TAG_MAX) :
    (∀ e, db_get_tag db name = some e → db_def_tag db name = (db, e.addr)) ∧
    (db_get_tag db name = none →
      (db_def_tag db name).2 = (new_tag db name).addr ∧
      (new_tag db name).tag = name ∧ (new_tag db name).notes = [] ∧
      (db_def_tag db name).1.bnotes = db.bnotes ∧
      (∀ b, (db_def_tag db name).1.btags b =
        if b = bucket_of (jb_fnv1a_str name) then new_tag db name :: db.btags b
        else db.btags b)) ∧
    (∃ e, db_get_tag (db_def_tag db name).1 name = some e ∧
      e.addr = (db_def_tag db name).2 ∧ e.tag = name) := by
  have ht : List.take TAG_MAX name = name := List.take_of_length_le (Nat.le_of_lt hlen)
  refine ⟨fun e he => by simp [db_def_tag, he], fun hn => ?_, ?_⟩
  · refine ⟨by simp [db_def_tag, hn, new_tag], by simp [new_tag, ht], rfl,
      db_def_tag_notes db name, fun b => ?_⟩
    by_cases hb : b = bucket_of (jb_fnv1a_str name)
    · simp [db_def_tag, hn, new_tag, hb]
    · simp [db_def_tag, hn, hb]
  · cases hn : db_get_tag db name with
    | some e =>
      have hp := List.find?_some hn
      simp only [Bool.and_eq_true, beq_iff_eq] at hp
      exact ⟨e, by simp [db_def_tag, hn], by simp [db_def_tag, hn], hp.2⟩
    | none =>
      refine ⟨new_tag db name, ?_, by simp [db_def_tag, hn, new_tag], by simp [new_tag, ht]⟩
      have hs : (db_def_tag db name).1.btags (bucket_of (jb_fnv1a_str name)) =
          new_tag db name :: db.btags (bucket_of (jb_fnv1a_str name)) := by
        simp [db_def_tag, hn, new_tag]
      unfold db_get_tag
      simp only [hs]
      simp [new_tag, ht]

theorem def_tag_contract_witness :
    (bytes "x").length < TAG_MAX ∧ (bytes "zz").length < TAG_MAX ∧
    (∃ e, db_get_tag demo_db (bytes "x") = some e ∧
      db_def_tag demo_db (bytes "x") = (demo_db, e.addr)) ∧
    db_get_tag demo_db (bytes "zz") = none ∧
    (db_def_tag demo_db (bytes "zz")).2 = (new_tag demo_db (bytes "zz")).addr ∧
    (∃ e, db_get_tag (db_def_tag demo_db (bytes "zz")).1 (bytes "zz") = some e ∧
      e.addr = (db_def_tag demo_db (bytes "zz")).2 ∧ e.tag = bytes "zz") :=
  ⟨by decide, by decide,
   ⟨{ addr := 4, tag := bytes "x", hash := jb_fnv1a_str (bytes "x"), cap := 16,
      notes := [1, 2] }, by decide,
    (def_tag_contract demo_db (bytes "x") (by decide)).1 _ (by decide)⟩,
   by decide,
   ((def_tag_contract demo_db (bytes "zz") (by decide)).2.1 (by decide)).1,
   (def_tag_contract demo_db (bytes "zz") (by decide)).2.2⟩

/-! ## Linking a tag to an unknown note -/

/-- C16 (linking to an unknown note): when no note is registered under the path,
`db_tag_note` does what `db_def_tag` alone does: no note record is added or changed, and
every tag chain keeps its records unchanged, with at most new records in front that have
an empty note array. -/
theorem tag_unknown_note (db : db_t) (path tag : List Nat)
    (hnone : db_get_note db path = none) :
    db_tag_note db path tag = (db_def_tag db tag).1 ∧
    (db_tag_note db path tag).bnotes = db.bnotes ∧
    (∀ b, ∃ front, (db_tag_note db path tag).btags b = front ++ db.btags b ∧
      ∀ t ∈ front, t.notes = []) := by
  have hg : get_note_entry (db_def_tag db tag).1 path = none := by
    have : get_note_entry (db_def_tag db tag).1 path = db_get_note (db_def_tag db tag).1 path :=
      rfl
    rw [this, db_get_note_def_tag, hnone]
  rw [db_tag_note_none hg]
  refine ⟨rfl, db_def_tag_notes db tag, fun b => ?_⟩
  cases hn : db_get_tag db tag with
  | some e => exact ⟨[], by simp [db_def_tag, hn], by simp⟩
  | none =>
    by_cases hb : b = bucket_of (jb_fnv1a_str tag)
    · exact ⟨[new_tag db tag], by simp [db_def_tag, hn, hb, new_tag], by simp [new_tag]⟩
    · exact ⟨[], by simp [db_def_tag, hn, hb], by simp⟩

theorem tag_unknown_note_witness :
    db_get_note demo_db (bytes "zz") = none ∧
    db_tag_note demo_db (bytes "zz") (bytes "y") = (db_def_tag demo_db (bytes "y")).1 ∧
    (db_tag_note demo_db (bytes "zz") (bytes "new")).bnotes = demo_db.bnotes :=
  ⟨by decide, (tag_unknown_note demo_db (bytes "zz") (bytes "y") (by decide)).1,
   (tag_unknown_note demo_db (bytes "zz") (bytes "new") (by decide)).2.1⟩
/-! ## Lookups -/

theorem db_get_note_add_note_ne (db : db_t) (p k : List Nat) (c m : Int) (hk : k ≠ p)
    (hlen : p.length < PATH_MAX) :
    db_get_note (db_add_note db p c m) k = db_get_note db k := by
  have ht : List.take (PATH_MAX - 1) p = p := List.take_of_length_le (by omega)
  unfold db_add_note
  cases hn : get_note_entry db p with
  | some e => rfl
  | none =>
    unfold db_get_note
    by_cases hb : bucket_of (jb_fnv1a_str k) = bucket_of (jb_fnv1a_str p)
    · have hne : (p == k) = false := by simpa using fun h => hk h.symm
      simp [hb, ht, hne]
    · simp [hb]

theorem db_get_note_add_note_isSome (db : db_t) (p k : List Nat) (c m : Int)
    (hlen : p.length < PATH_MAX) :
    (db_get_note (db_add_note db p c m) k).isSome = true ↔
      (db_get_note db k).isSome = true ∨ k = p := by
  by_cases hk : k = p
  · subst hk
    have : db_get_note (db_add_note db k c m) k = _ := get_note_entry_add_note db k c m hlen
    simp [this]
  · rw [db_get_note_add_note_ne db p k c m hk hlen]
    simp [hk]

theorem db_get_tag_add_note (db : db_t) (p k : List Nat) (c m : Int) :
    db_get_tag (db_add_note db p c m) k = db_get_tag db k := by
  simp [db_get_tag, db_add_note_tags]

theorem db_get_tag_def_tag_isSome (db : db_t) (t k : List Nat) (hlen : t.length < TAG_MAX) :
    (db_get_tag (db_def_tag db t).1 k).isSome = true ↔
      (db_get_tag db k).isSome = true ∨ k = t := by
  have ht : List.take TAG_MAX t = t := List.take_of_length_le (Nat.le_of_lt hlen)
  cases hn : db_get_tag db t with
  | some e =>
    have : (db_def_tag db t).1 = db := by simp [db_def_tag, hn]
    rw [this]
    constructor
    · exact Or.inl
    · rintro (h | rfl)
      · exact h
      · simp [hn]
  | none =>
    have hs : ∀ b, (db_def_tag db t).1.btags b =
        if b = bucket_of (jb_fnv1a_str t) then new_tag db t :: db.btags b else db.btags b := by
      intro b
      by_cases hb : b = bucket_of (jb_fnv1a_str t)
      · simp [db_def_tag, hn, new_tag, hb]
      · simp [db_def_tag, hn, hb]
    simp only [db_get_tag, hs]
    by_cases hk : k = t
    · subst hk
      simp [new_tag, ht]
    · have hne : (t == k) = false := by simpa using fun h => hk h.symm
      by_cases hb : bucket_of (jb_fnv1a_str k) = bucket_of (jb_fnv1a_str t)
      · simp [hb, new_tag, ht, hne, hk]
      · simp [hb, hk]

theorem db_get_tag_poke (db : db_t) (ta na : Nat) (f : tag_entry → tag_entry)
    (g : note_entry → note_entry) (hh : ∀ t, (f t).hash = t.hash)
    (ht : ∀ t, (f t).tag = t.tag) (k : List Nat) :
    (db_get_tag (poke_note (poke_tag db ta f) na g) k).isSome = (db_get_tag db k).isSome := by
  have : db_get_tag (poke_note (poke_tag db ta f) na g) k =
      (db_get_tag db k).map (fun e => if e.addr = ta then f e else e) := by
    simp only [db_get_tag, poke_note, poke_tag, List.find?_map]
    congr 2
    funext e
    by_cases h : e.addr = ta <;> simp [h, hh, ht]
  rw [this, Option.isSome_map']

theorem db_get_tag_tag_note_isSome (db : db_t) (path t k : List Nat)
    (hlen : t.length < TAG_MAX) :
    (db_get_tag (db_tag_note db path t) k).isSome = true ↔
      (db_get_tag db k).isSome = true ∨ k = t := by
  rw [← db_get_tag_def_tag_isSome db t k hlen]
  cases hn : get_note_entry (db_def_tag db t).1 path with
  | none => rw [db_tag_note_none hn]
  | some note_e =>
    rw [db_tag_note_some hn, db_get_tag_poke]
    · exact fun _ => rfl
    · exact fun _ => rfl

theorem db_get_note_tag_note_isSome (db : db_t) (path t k : List Nat) :
    (db_get_note (db_tag_note db path t) k).isSome = (db_get_note db k).isSome := by
  cases hn : get_note_entry (db_def_tag db t).1 path with
  | none => rw [db_tag_note_none hn, db_get_note_def_tag]
  | some note_e =>
    rw [db_tag_note_some hn, db_get_note_poke_note, db_get_note_poke_tag,
      db_get_note_def_tag, Option.isSome_map']
    · exact fun _ => rfl
    · exact fun _ => rfl

/-- After a sequence of calls with keys that fit, a key is found exactly when it was
found before or one of the calls registered it. -/
theorem run_ops_lookup (ops : List db_op) (db : db_t) (hb : ∀ op ∈ ops, op.bounded)
    (k : List Nat) :
    ((db_get_note (run_ops db ops) k).isSome = true ↔
      (db_get_note db k).isSome = true ∨ k ∈ note_keys ops) ∧
    ((db_get_tag (run_ops db ops) k).isSome = true ↔
      (db_get_tag db k).isSome = true ∨ k ∈ tag_keys ops) := by
  induction ops generalizing db with
  | nil => simp [run_ops, note_keys, tag_keys]
  | cons op ops ih =>
    have hop := hb op (List.mem_cons_self _ _)
    have ih2 := ih (op.run db) (fun o ho => hb o (List.mem_cons_of_mem _ ho))
    have hrun : run_ops db (op :: ops) = run_ops (op.run db) ops := rfl
    rw [hrun]
    cases op with
    | add_note p c m =>
      simp only [db_op.run] at ih2 ⊢
      rw [ih2.1, ih2.2, db_get_note_add_note_isSome db p k c m
        (Nat.lt_of_lt_of_le hop (Nat.sub_le _ _)), db_get_tag_add_note]
      simp only [note_keys, tag_keys, List.mem_cons]
      exact ⟨by tauto, trivial⟩
    | def_tag t =>
      simp only [db_op.run] at ih2 ⊢
      rw [ih2.1, ih2.2, db_get_tag_def_tag_isSome db t k hop, db_get_note_def_tag]
      simp only [note_keys, tag_keys, List.mem_cons]
      exact ⟨trivial, by tauto⟩
    | tag_note p t =>
      simp only [db_op.run] at ih2 ⊢
      rw [ih2.1, ih2.2, db_get_tag_tag_note_isSome db p t k hop, db_get_note_tag_note_isSome]
      simp only [note_keys, tag_keys, List.mem_cons]
      exact ⟨trivial, by tauto⟩
/-- C17 as stated fails for a key that does not fit the record: after `db_def_tag` on a
name of 33 bytes the tag is registered, under the first 32 bytes, and `db_get_tag` on
the name returns nothing. -/
theorem lookups_exact_counterexample :
    long_name 98 ∈ tag_keys [.add_note (bytes "a") 0 0, .def_tag (long_name 98)] ∧
    (all_tags (run_ops (db_empty (bytes "/nb"))
      [.add_note (bytes "a") 0 0, .def_tag (long_name 98)])).length = 1 ∧
    db_get_tag (run_ops (db_empty (bytes "/nb"))
      [.add_note (bytes "a") 0 0, .def_tag (long_name 98)]) (long_name 98) = none := by
  decide

/-- C17 (amended): after every sequence of `db_add_note`, `db_def_tag` and `db_tag_note`
calls whose paths are shorter than `PATH_MAX - 1` and whose tag names are shorter than
`TAG_MAX`, `db_get_note` (resp. `db_get_tag`) returns a record for a key if and only if
a call registered exactly that key; the record returned holds that key; further calls
never hide it. The lookups are functions of the store and cannot change it. -/
theorem lookups_exact (root : List Nat) (ops : List db_op) (hb : ∀ op ∈ ops, op.bounded)
    (k : List Nat) :
    ((db_get_note (run_ops (db_empty root) ops) k).isSome = true ↔ k ∈ note_keys ops) ∧
    ((db_get_tag (run_ops (db_empty root) ops) k).isSome = true ↔ k ∈ tag_keys ops) ∧
    (∀ e, db_get_note (run_ops (db_empty root) ops) k = some e →
      e.path = k ∧ e ∈ all_notes (run_ops (db_empty root) ops)) ∧
    (∀ e, db_get_tag (run_ops (db_empty root) ops) k = some e →
      e.tag = k ∧ e ∈ all_tags (run_ops (db_empty root) ops)) ∧
    (∀ more : List db_op, (∀ op ∈ more, op.bounded) →
      ((db_get_note (run_ops (db_empty root) ops) k).isSome = true →
        (db_get_note (run_ops (run_ops (db_empty root) ops) more) k).isSome = true) ∧
      ((db_get_tag (run_ops (db_empty root) ops) k).isSome = true →
        (db_get_tag (run_ops (run_ops (db_empty root) ops) more) k).isSome = true)) := by
  have h := run_ops_lookup ops (db_empty root) hb k
  have e1 : (db_get_note (db_empty root) k).isSome = false := by simp [db_get_note, db_empty]
  have e2 : (db_get_tag (db_empty root) k).isSome = false := by simp [db_get_tag, db_empty]
  refine ⟨?_, ?_, ?_, ?_, ?_⟩
  · rw [h.1, e1]; simp
  · rw [h.2, e2]; simp
  · intro e he
    have hp := List.find?_some he
    simp only [Bool.and_eq_true, beq_iff_eq] at hp
    exact ⟨hp.2, get_note_entry_mem he⟩
  · intro e he
    have hp := List.find?_some he
    simp only [Bool.and_eq_true, beq_iff_eq] at hp
    exact ⟨hp.2, db_get_tag_mem he⟩
  · intro more hm
    have h2 := run_ops_lookup more (run_ops (db_empty root) ops) hm k
    exact ⟨fun hs => h2.1.2 (Or.inl hs), fun hs => h2.2.2 (Or.inl hs)⟩

theorem lookups_exact_witness :
    (∀ op ∈ [db_op.add_note (bytes "a") 0 0, .tag_note (bytes "a") (bytes "x")], op.bounded) ∧
    bytes "a" ∈ note_keys [.add_note (bytes "a") 0 0, .tag_note (bytes "a") (bytes "x")] ∧
    (db_get_note (run_ops (db_empty (bytes "/nb"))
      [.add_note (bytes "a") 0 0, .tag_note (bytes "a") (bytes "x")]) (bytes "a")).isSome
      = true ∧
    bytes "A" ∉ note_keys [.add_note (bytes "a") 0 0, .tag_note (bytes "a") (bytes "x")] ∧
    ¬ (db_get_note (run_ops (db_empty (bytes "/nb"))
      [.add_note (bytes "a") 0 0, .tag_note (bytes "a") (bytes "x")]) (bytes "A")).isSome
      = true :=
  ⟨by decide, by decide,
   (lookups_exact (bytes "/nb") [.add_note (bytes "a") 0 0, .tag_note (bytes "a") (bytes "x")]
      (by decide) (bytes "a")).1.2 (by decide),
   by decide,
   fun h => absurd
     ((lookups_exact (bytes "/nb")
        [.add_note (bytes "a") 0 0, .tag_note (bytes "a") (bytes "x")]
        (by decide) (bytes "A")).1.1 h) (by decide)⟩
/-! ## Listing with a glob -/

theorem foldl_ls_glob (fnmatch : List Nat → List Nat → Nat → Int) (db : db_t)
    (glob : List Nat) (l : List note_entry) (out : List Nat) :
    l.foldl (ls_glob fnmatch db) (glob, out) =
      (glob, out ++ (l.filter (fun n => decide (fnmatch glob n.path FNM_EXTMATCH = 0))).flatMap
        (fun n => n.path ++ [10])) := by
  induction l generalizing out with
  | nil => simp
  | cons n rest ih =>
    by_cases h : fnmatch glob n.path FNM_EXTMATCH = 0
    · simp [List.foldl_cons, ls_glob, h, ih, List.filter_cons]
    · simp [List.foldl_cons, ls_glob, h, ih, List.filter_cons]

/-- C18 (glob composition): with glob matching given as a function `fnmatch`, `db_ls`
prints, one per line and in visiting order, the paths of exactly the note records that
satisfy the tag filter and whose path matches the glob; in a store built by the store
operations these records are distinct, and with keys that fit so are their paths, so
each path is printed once; with filter `[(x, true)]` and glob `*.md`, of the notes
`a.md: [x]`, `b.txt: [x]`, `c.md: []` only `a.md` is printed. -/
theorem glob_composition :
    (∀ (fnmatch : List Nat → List Nat → Nat → Int) (db : db_t) (glob : List Nat)
        (filter : List db_tag_t) (out : List Nat),
      db_ls fnmatch db glob filter out =
        out ++ ((all_notes db).filter (fun n =>
            decide (note_matches n filter) && decide (fnmatch glob n.path FNM_EXTMATCH = 0))).flatMap
          (fun n => n.path ++ [10])) ∧
    (∀ (fnmatch : List Nat → List Nat → Nat → Int) (root : List Nat) (ops : List db_op)
        (glob : List Nat) (filter : List db_tag_t),
      ((all_notes (run_ops (db_empty root) ops)).filter (fun n =>
          decide (note_matches n filter) &&
            decide (fnmatch glob n.path FNM_EXTMATCH = 0))).Nodup ∧
      ((∀ op ∈ ops, op.bounded) →
        (((all_notes (run_ops (db_empty root) ops)).filter (fun n =>
          decide (note_matches n filter) &&
            decide (fnmatch glob n.path FNM_EXTMATCH = 0))).map note_entry.path).Nodup)) ∧
    db_ls fnmatch_md glob_db (bytes "*.md") [⟨true, tag_ptr glob_db (bytes "x")⟩] []
      = bytes "a.md\n" ∧
    db_ls fnmatch_md glob_db (bytes "*.md") [] [] = bytes "a.md\nc.md\n" := by
  refine ⟨?_, ?_, by decide, by decide⟩
  · intro fnmatch db glob filter out
    unfold db_ls
    rw [db_query_eq_foldl, foldl_ls_glob, List.filter_filter]
    have e : (fun a : note_entry => decide (fnmatch glob a.path FNM_EXTMATCH = 0) &&
          decide (note_matches a filter)) =
        (fun n => decide (note_matches n filter) &&
          decide (fnmatch glob n.path FNM_EXTMATCH = 0)) := by
      funext n
      rw [Bool.and_comm]
    rw [e]
  · intro fnmatch root ops glob filter
    refine ⟨(reachable_notes_nodup root ops).filter _, fun hb => ?_⟩
    exact ((reachable_keyed root ops hb).2.1.sublist
      ((List.filter_sublist _).map note_entry.path))
/-! ## The collector -/

theorem rmdir_step_ok {r : Except jb_res_t Bool × List fs_node} {e : Bool}
    {left : Option (List fs_node)} (h : rmdir_step r = (.ok e, left)) :
    r.1 = .ok e ∧ left = if e && r.2.isEmpty then none else some r.2 := by
  obtain ⟨r1, r2⟩ := r
  cases r1 with
  | error err => simp [rmdir_step] at h
  | ok b =>
    simp only [rmdir_step, Prod.mk.injEq, Except.ok.injEq] at h
    obtain ⟨h1, h2⟩ := h
    subst h1
    exact ⟨rfl, h2.symm⟩

mutual
theorem visit_entry_reports (path : List Nat) :
    ∀ (ent : fs_node) (empty r : Bool) (left : Option fs_node),
      visit_entry path ent empty = (.ok r, left) → r = (empty && !has_file_node ent)
  | .file n, empty, r, left, h => by
    simp only [visit_entry, Prod.mk.injEq, Except.ok.injEq] at h
    simp [has_file_node, ← h.1]
  | .other n, empty, r, left, h => by
    simp only [visit_entry, Prod.mk.injEq, Except.ok.injEq] at h
    simp [has_file_node, ← h.1]
  | .dir n sub, empty, r, left, h => by
    simp only [visit_entry] at h
    split at h
    · simp at h
    · split at h
      · simp at h
      · rename_i em heq
        have h1 := (rmdir_step_ok heq).1
        have := readdir_loop_reports (jb_path_cat path n).2 sub true em _ (Prod.ext h1 rfl)
        simp only [Prod.mk.injEq, Except.ok.injEq] at h
        simp [has_file_node, ← h.1, this]
      · rename_i em l2 heq
        have h1 := (rmdir_step_ok heq).1
        have := readdir_loop_reports (jb_path_cat path n).2 sub true em _ (Prod.ext h1 rfl)
        simp only [Prod.mk.injEq, Except.ok.injEq] at h
        simp [has_file_node, ← h.1, this]
theorem readdir_loop_reports (path : List Nat) :
    ∀ (entries : List fs_node) (empty r : Bool) (left : List fs_node),
      readdir_loop path entries empty = (.ok r, left) → r = (empty && !has_file entries)
  | [], empty, r, left, h => by
    simp only [readdir_loop, Prod.mk.injEq, Except.ok.injEq] at h
    simp [has_file, ← h.1]
  | ent :: rest, empty, r, left, h => by
    simp only [readdir_loop] at h
    split at h
    · simp at h
    · rename_i e2 l2 heq
      have h1 := visit_entry_reports path ent empty e2 l2 heq
      simp only [Prod.mk.injEq] at h
      have h2 := readdir_loop_reports path rest e2 r _ (Prod.ext h.1 rfl)
      rw [h2, h1]
      simp [has_file, Bool.and_assoc]
end
theorem rmdir_step_of_ok {r : Except jb_res_t Bool × List fs_node} {e : Bool}
    (h : r.1 = .ok e) :
    rmdir_step r = (.ok e, if e && r.2.isEmpty then none else some r.2) := by
  obtain ⟨r1, r2⟩ := r
  simp only at h
  subst h
  rfl

mutual
theorem visit_entry_fits (path : List Nat) :
    ∀ (ent : fs_node) (empty : Bool), fits_node path ent = true →
      (visit_entry path ent empty).1 = .ok (empty && !has_file_node ent)
  | .file n, empty, _ => by simp [visit_entry, has_file_node]
  | .other n, empty, _ => by simp [visit_entry, has_file_node]
  | .dir n sub, empty, h => by
    simp only [fits_node, Bool.and_eq_true, beq_iff_eq, decide_eq_true_eq] at h
    have ih := readdir_loop_fits (jb_path_cat path n).2 sub true h.2
    simp only [visit_entry, h.1.1, ne_eq, not_true_eq_false, if_false, rmdir_step_of_ok ih,
      has_file_node, Bool.true_and]
    split <;> rename_i heq
    · simp at heq
    · simp only [Prod.mk.injEq, Except.ok.injEq] at heq
      simp [← heq.1]
    · simp only [Prod.mk.injEq, Except.ok.injEq] at heq
      simp [← heq.1]
theorem readdir_loop_fits (path : List Nat) :
    ∀ (entries : List fs_node) (empty : Bool), fits path entries = true →
      (readdir_loop path entries empty).1 = .ok (empty && !has_file entries)
  | [], empty, _ => by simp [readdir_loop, has_file]
  | ent :: rest, empty, h => by
    simp only [fits, Bool.and_eq_true] at h
    have h1 := visit_entry_fits path ent empty h.1
    simp only [readdir_loop]
    split <;> rename_i heq
    · rw [heq] at h1
      simp at h1
    · rw [heq] at h1
      simp only [Except.ok.injEq] at h1
      rw [readdir_loop_fits path rest _ h.2, h1]
      simp [has_file, Bool.and_assoc]
end

theorem prune_nil (entries : List fs_node) (hp : plain entries = true)
    (hf : has_file entries = false) : prune entries = [] := by
  induction entries with
  | nil => rfl
  | cons ent rest ih =>
    simp only [plain, Bool.and_eq_true] at hp
    simp only [has_file, Bool.or_eq_false_iff] at hf
    cases ent with
    | file n => simp [has_file_node] at hf
    | other n => simp [plain_node] at hp
    | dir n sub =>
      simp only [has_file_node] at hf
      simp [prune, prune_node, hf.1, ih hp.2 hf.2]

theorem prune_ne_nil (entries : List fs_node) (hf : has_file entries = true) :
    (prune entries).isEmpty = false := by
  induction entries with
  | nil => simp [has_file] at hf
  | cons ent rest ih =>
    cases ent with
    | file n => simp [prune, prune_node]
    | other n => simp [prune, prune_node]
    | dir n sub =>
      simp only [has_file, has_file_node, Bool.or_eq_true] at hf
      by_cases hs : has_file sub = true
      · simp [prune, prune_node, hs]
      · have hr := ih (hf.resolve_left hs)
        simp only [prune, prune_node, hs]
        simpa using hr

mutual
theorem visit_entry_plain (path : List Nat) :
    ∀ (ent : fs_node) (empty : Bool), fits_node path ent = true → plain_node ent = true →
      visit_entry path ent empty = (.ok (empty && !has_file_node ent), prune_node ent)
  | .file n, empty, _, _ => by simp [visit_entry, has_file_node, prune_node]
  | .other n, empty, _, hp => by simp [plain_node] at hp
  | .dir n sub, empty, h, hp => by
    simp only [fits_node, Bool.and_eq_true, beq_iff_eq, decide_eq_true_eq] at h
    simp only [plain_node] at hp
    have ih := readdir_loop_plain (jb_path_cat path n).2 sub true h.2 hp
    simp only [visit_entry, h.1.1, ne_eq, not_true_eq_false, if_false, ih, rmdir_step,
      has_file_node, prune_node, Bool.true_and]
    cases hf : has_file sub
    · simp [prune_nil sub hp hf]
    · simp [prune_ne_nil sub hf]
theorem readdir_loop_plain (path : List Nat) :
    ∀ (entries : List fs_node) (empty : Bool), fits path entries = true →
      plain entries = true →
      readdir_loop path entries empty = (.ok (empty && !has_file entries), prune entries)
  | [], empty, _, _ => by simp [readdir_loop, has_file, prune]
  | ent :: rest, empty, h, hp => by
    simp only [fits, Bool.and_eq_true] at h
    simp only [plain, Bool.and_eq_true] at hp
    simp only [readdir_loop, visit_entry_plain path ent empty h.1 hp.1,
      readdir_loop_plain path rest _ h.2 hp.2, has_file, prune]
    simp [Bool.and_assoc]
end
/-- C24 (first-line reading): without a read error, `read_line` from the start of a file
returns exactly the bytes before the first newline (the whole content when there is
none, the empty content included) and leaves the position just after that newline, or
at the end of the file; from any position it does the same on the unread bytes. -/
theorem read_line_first_line :
    (∀ f : FILE, read_line f false =
      .ok (first_line (f.data.drop f.pos),
           { f with pos := f.pos + hdr_end (f.data.drop f.pos) })) ∧
    (∀ H B : List Nat, 10 ∉ H →
      read_line { data := H ++ 10 :: B, pos := 0 } false =
        .ok (H, { data := H ++ 10 :: B, pos := H.length + 1 })) ∧
    (∀ H : List Nat, 10 ∉ H →
      read_line { data := H, pos := 0 } false = .ok (H, { data := H, pos := H.length })) ∧
    read_line { data := [], pos := 0 } false = .ok ([], { data := [], pos := 0 }) ∧
    read_line { data := bytes "adrus foo\nBODY\nmore", pos := 0 } false =
      .ok (bytes "adrus foo", { data := bytes "adrus foo\nBODY\nmore", pos := 10 }) ∧
    read_line { data := bytes "adrus foo\nBODY\nmore", pos := 10 } false =
      .ok (bytes "BODY", { data := bytes "adrus foo\nBODY\nmore", pos := 15 }) := by
  refine ⟨fun f => ?_, fun H B h => ?_, fun H h => ?_, rfl, rfl, rfl⟩
  · simp [read_line, read_line_loop_eq, hdr_end]
  · rw [read_line_start, first_line_append H B h, hdr_end_append H B h]
  · rw [read_line_start, first_line_self H h, hdr_end_self H h]

/-! ## Membership and repetition in the tag list of a mutation -/

theorem mem_foldl_spec_add_iff (filter : List db_tag_t) (acc : List Nat) (x : Nat) :
    x ∈ filter.foldl spec_add acc ↔ x ∈ acc ∨ ∃ f ∈ filter, f.sign = true ∧ f.tag = x := by
  induction filter generalizing acc with
  | nil => simp
  | cons f rest ih =>
    rw [List.foldl_cons, ih]
    simp only [List.mem_cons, exists_eq_or_imp]
    unfold spec_add
    by_cases h : f.sign = true ∧ f.tag ∉ acc
    · rw [if_pos h, List.mem_append, List.mem_singleton]
      constructor
      · rintro ((h1 | h1) | h1)
        · exact Or.inl h1
        · exact Or.inr (Or.inl ⟨h.1, h1.symm⟩)
        · exact Or.inr (Or.inr h1)
      · rintro (h1 | h1 | h1)
        · exact Or.inl (Or.inl h1)
        · exact Or.inl (Or.inr h1.2.symm)
        · exact Or.inr h1
    · rw [if_neg h]
      constructor
      · rintro (h1 | h1)
        · exact Or.inl h1
        · exact Or.inr (Or.inr h1)
      · rintro (h1 | h1 | h1)
        · exact Or.inl h1
        · left
          by_contra hx
          exact h ⟨h1.1, by rw [h1.2]; exact hx⟩
        · exact Or.inr h1

theorem nodup_foldl_spec_add (filter : List db_tag_t) (acc : List Nat) (h : acc.Nodup) :
    (filter.foldl spec_add acc).Nodup := by
  induction filter generalizing acc with
  | nil => exact h
  | cons f rest ih =>
    rw [List.foldl_cons]
    apply ih
    unfold spec_add
    by_cases hc : f.sign = true ∧ f.tag ∉ acc
    · rw [if_pos hc]
      refine List.Nodup.append h (List.nodup_singleton _) ?_
      intro a ha hb
      rw [List.mem_singleton.1 hb] at ha
      exact hc.2 ha
    · rw [if_neg hc]
      exact h

theorem mem_mutate_tags_iff (ts : List Nat) (filter : List db_tag_t) (x : Nat) :
    x ∈ mutate_tags ts filter ↔
      (x ∈ ts ∧ ¬ ∃ f ∈ filter, f.sign = false ∧ f.tag = x) ∨
      ∃ f ∈ filter, f.sign = true ∧ f.tag = x := by
  rw [mutate_tags_eq_spec, spec_mutate_tags, mem_foldl_spec_add_iff, spec_kept, List.mem_filter,
    decide_eq_true_iff]

/-- C28 (mutation is idempotent on the tag set): for every tag list and every filter,
the list `db_mutate` computes from its own result with the same filter has the same
members as that result. -/
theorem mutate_idempotent (ts : List Nat) (filter : List db_tag_t) (x : Nat) :
    x ∈ mutate_tags (mutate_tags ts filter) filter ↔ x ∈ mutate_tags ts filter := by
  rw [mem_mutate_tags_iff (mutate_tags ts filter), mem_mutate_tags_iff ts]
  constructor
  · rintro (⟨h1, _⟩ | h1)
    · exact h1
    · exact Or.inr h1
  · rintro (⟨h1, h2⟩ | h1)
    · exact Or.inl ⟨Or.inl ⟨h1, h2⟩, h2⟩
    · exact Or.inr h1

/-- C29 (mutate introduces no duplicates): from a tag list without a repeated tag, and
any filter, the tag list `db_mutate` computes has no repeated tag, holds no tag that has
an entry with sign false and none with sign true, and holds every tag that has an entry
with sign true. -/
theorem mutate_no_duplicates (ts : List Nat) (filter : List db_tag_t) (h : ts.Nodup) :
    (mutate_tags ts filter).Nodup ∧
    (∀ t, (∃ f ∈ filter, f.sign = false ∧ f.tag = t) →
      (¬ ∃ f ∈ filter, f.sign = true ∧ f.tag = t) → t ∉ mutate_tags ts filter) ∧
    (∀ t, (∃ f ∈ filter, f.sign = true ∧ f.tag = t) → t ∈ mutate_tags ts filter) := by
  refine ⟨?_, ?_, ?_⟩
  · rw [mutate_tags_eq_spec, spec_mutate_tags]
    exact nodup_foldl_spec_add _ _ (h.filter _)
  · intro t hf ht hm
    rcases (mem_mutate_tags_iff ts filter t).1 hm with h1 | h1
    · exact h1.2 hf
    · exact ht h1
  · intro t ht
    exact (mem_mutate_tags_iff ts filter t).2 (Or.inr ht)

/-- Witness for C29: a note tagged 1, 2, 3 and a filter that names 2 three times (twice
to remove, once to add), 3 to remove and 4 twice to add. -/
theorem mutate_no_duplicates_witness :
    ([1, 2, 3] : List Nat).Nodup ∧
    mutate_tags [1, 2, 3] [⟨false, 2⟩, ⟨true, 4⟩, ⟨false, 3⟩, ⟨true, 2⟩, ⟨true, 4⟩, ⟨false, 2⟩]
      = [1, 4, 2] ∧
    ((mutate_tags [1, 2, 3]
        [⟨false, 2⟩, ⟨true, 4⟩, ⟨false, 3⟩, ⟨true, 2⟩, ⟨true, 4⟩, ⟨false, 2⟩]).Nodup ∧
     (∀ t, (∃ f ∈ ([⟨false, 2⟩, ⟨true, 4⟩, ⟨false, 3⟩, ⟨true, 2⟩, ⟨true, 4⟩, ⟨false, 2⟩] :
          List db_tag_t), f.sign = false ∧ f.tag = t) →
        (¬ ∃ f ∈ ([⟨false, 2⟩, ⟨true, 4⟩, ⟨false, 3⟩, ⟨true, 2⟩, ⟨true, 4⟩, ⟨false, 2⟩] :
          List db_tag_t), f.sign = true ∧ f.tag = t) →
        t ∉ mutate_tags [1, 2, 3]
          [⟨false, 2⟩, ⟨true, 4⟩, ⟨false, 3⟩, ⟨true, 2⟩, ⟨true, 4⟩, ⟨false, 2⟩]) ∧
     (∀ t, (∃ f ∈ ([⟨false, 2⟩, ⟨true, 4⟩, ⟨false, 3⟩, ⟨true, 2⟩, ⟨true, 4⟩, ⟨false, 2⟩] :
          List db_tag_t), f.sign = true ∧ f.tag = t) →
        t ∈ mutate_tags [1, 2, 3]
          [⟨false, 2⟩, ⟨true, 4⟩, ⟨false, 3⟩, ⟨true, 2⟩, ⟨true, 4⟩, ⟨false, 2⟩])) :=
  ⟨by decide, by decide, mutate_no_duplicates [1, 2, 3] _ (by decide)⟩

/-! ## The tag loop reads no further than the first bad character -/

theorem takeWhile_takeWhile_of_imp (p q : Nat → Bool) (h : ∀ c, p c = true → q c = true)
    (l : List Nat) : (l.takeWhile q).takeWhile p = l.takeWhile p := by
  induction l with
  | nil => rfl
  | cons x xs ih =>
    by_cases hp : p x = true
    · simp [List.takeWhile_cons, hp, h x hp, ih]
    · by_cases hq : q x = true
      · simp [List.takeWhile_cons, hp, hq]
      · simp [List.takeWhile_cons, hp, hq]

theorem drop_takeWhile_of_le (q : Nat → Bool) (l : List Nat) (n : Nat)
    (h : n ≤ (l.takeWhile q).length) : (l.takeWhile q).drop n = (l.drop n).takeWhile q := by
  induction l generalizing n with
  | nil => simp
  | cons x xs ih =>
    cases n with
    | zero => rfl
    | succ n =>
      by_cases hq : q x = true
      · simp only [List.takeWhile_cons, hq, if_true, List.drop_succ_cons, List.length_cons] at h ⊢
        exact ih n (by omega)
      · simp [List.takeWhile_cons, hq] at h

theorem length_takeWhile_le_of_imp (p q : Nat → Bool) (h : ∀ c, p c = true → q c = true)
    (l : List Nat) : (l.takeWhile p).length ≤ (l.takeWhile q).length := by
  rw [← takeWhile_takeWhile_of_imp p q h l]
  exact (List.takeWhile_sublist _).length_le

/-- What one `sscanf` call reads depends only on the bytes before the first one that
is outside a set holding the white space and the letters `a`..`z`. -/
theorem sscanf_core_takeWhile (q : Nat → Bool) (hs : ∀ c, isspace c = true → q c = true)
    (hl : ∀ c, (decide (97 ≤ c) && decide (c ≤ 122)) = true → q c = true) (l : List Nat) :
    List.takeWhile isspace (l.takeWhile q) = List.takeWhile isspace l ∧
    List.takeWhile (fun c => decide (97 ≤ c) && decide (c ≤ 122))
        ((l.takeWhile q).drop (List.takeWhile isspace l).length) =
      List.takeWhile (fun c => decide (97 ≤ c) && decide (c ≤ 122))
        (l.drop (List.takeWhile isspace l).length) := by
  refine ⟨takeWhile_takeWhile_of_imp _ _ hs l, ?_⟩
  rw [drop_takeWhile_of_le q l _ (length_takeWhile_le_of_imp _ _ hs l),
    takeWhile_takeWhile_of_imp _ _ hl]

theorem sscanf_tag_takeWhile (hdr : List Nat) :
    sscanf_tag (hdr.takeWhile (fun c => isspace c || (decide (97 ≤ c) && decide (c ≤ 122)))) =
      sscanf_tag hdr := by
  have h0 : ∀ c, isspace c = true → (c != 0) = true := by
    intro c hc
    simpa using isspace_ne_zero hc
  have h1 : ∀ c, (decide (97 ≤ c) && decide (c ≤ 122)) = true → (c != 0) = true := by
    intro c hc
    simp only [Bool.and_eq_true, decide_eq_true_eq] at hc
    simp only [bne_iff_ne, ne_eq]
    omega
  have h2 : ∀ c, (isspace c || (decide (97 ≤ c) && decide (c ≤ 122))) = true → (c != 0) = true := by
    intro c hc
    rcases Bool.or_eq_true_iff.1 hc with h | h
    · exact h0 c h
    · exact h1 c h
  have ha := sscanf_core_takeWhile (fun c => c != 0) h0 h1 hdr
  have hb := sscanf_core_takeWhile
    (fun c => isspace c || (decide (97 ≤ c) && decide (c ≤ 122)))
    (fun c hc => by simp [hc]) (fun c hc => by simp only [hc, Bool.or_true]) hdr
  have hc : cstr (hdr.takeWhile (fun c => isspace c || (decide (97 ≤ c) && decide (c ≤ 122)))) =
      hdr.takeWhile (fun c => isspace c || (decide (97 ≤ c) && decide (c ≤ 122))) := by
    unfold cstr
    rw [List.takeWhile_eq_self_iff]
    intro c hm
    exact h2 c (List.mem_takeWhile_imp (p := fun c => isspace c || (decide (97 ≤ c) && decide (c ≤ 122))) hm)
  unfold sscanf_tag
  simp only [hc]
  simp only [cstr, ha.1, ha.2, hb.1, hb.2]

/-- The tag loop on a header is the tag loop on the header cut before its first byte
that is neither white space nor a letter `a`..`z`. -/
theorem tag_loop_takeWhile (fuel : Nat) (db : db_t) (name hdr : List Nat) :
    tag_loop fuel db name
        (hdr.takeWhile (fun c => isspace c || (decide (97 ≤ c) && decide (c ≤ 122)))) =
      tag_loop fuel db name hdr := by
  induction fuel generalizing db hdr with
  | zero => rfl
  | succ fuel ih =>
    unfold tag_loop
    rw [sscanf_tag_takeWhile]
    cases hs : sscanf_tag hdr with
    | none => rfl
    | some r =>
      obtain ⟨tag_buf, n⟩ := r
      have hb := sscanf_tag_bounds ((sscanf_tag_takeWhile hdr).trans hs)
      simp only
      rw [drop_takeWhile_of_le _ _ _ hb.2]
      exact ih _ _

/-- C30 (tag parsing stops at the first bad token): on a header whose bytes after
`adrus` are `pre`, all white space or letters `a`..`z`, then a byte `c` that is neither,
the tag loop of the scanner does what it does on `pre` alone, whatever follows `c`; when
`pre` is tokens (runs of at most 31 letters, the last one possibly ending right at `c`) and
white space, the tags it links to the note are exactly those tokens, in order. -/
theorem parsing_stops_at_bad (fuel : Nat) (db : db_t) (name pre : List Nat) (c : Nat)
    (rest : List Nat) (hpre : ∀ x ∈ pre, isspace x = true ∨ (97 ≤ x ∧ x ≤ 122))
    (hc : isspace c = false ∧ ¬ (97 ≤ c ∧ c ≤ 122)) :
    tag_loop fuel db name (pre ++ c :: rest) = tag_loop fuel db name pre ∧
    ∀ (toks : List (List Nat × List Nat)) (trail : List Nat),
      pre = toks.flatMap (fun p => p.1 ++ p.2) ++ trail →
      (∀ p ∈ toks, token_ok p) → (∀ x ∈ trail, isspace x = true) → toks.length < fuel →
      tag_loop fuel db name (pre ++ c :: rest) =
        some (link_all db name (toks.map (fun p => p.2))) := by
  have hcut : (pre ++ c :: rest).takeWhile
      (fun c => isspace c || (decide (97 ≤ c) && decide (c ≤ 122))) = pre := by
    rw [List.takeWhile_append_of_pos]
    · have : (isspace c || (decide (97 ≤ c) && decide (c ≤ 122))) = false := by
        simp only [hc.1, Bool.false_or, Bool.and_eq_false_imp, decide_eq_true_eq,
          decide_eq_false_iff_not]
        intro h1 h2
        exact hc.2 ⟨h1, h2⟩
      simp [List.takeWhile_cons, this]
    · intro x hx
      rcases hpre x hx with h | h
      · simp [h]
      · simp [h.1, h.2]
  have h1 : tag_loop fuel db name (pre ++ c :: rest) = tag_loop fuel db name pre := by
    rw [← tag_loop_takeWhile fuel db name (pre ++ c :: rest), hcut]
  refine ⟨h1, ?_⟩
  intro toks trail hp htoks htrail hfuel
  rw [h1, hp]
  exact tag_loop_tokens toks trail htoks htrail fuel db name hfuel

/-- Witness for C30: the header `adrus foo barBaz qux` links `foo` and `bar`, and the header
`adrus foo Bar baz` links `foo` alone. -/
theorem parsing_stops_at_bad_witness :
    (∀ x ∈ bytes " foo bar", isspace x = true ∨ (97 ≤ x ∧ x ≤ 122)) ∧
    (isspace 66 = false ∧ ¬ (97 ≤ 66 ∧ 66 ≤ 122)) ∧
    (tag_loop 16 (db_add_note (db_empty (bytes "/nb")) (bytes "/a") 0 0) (bytes "/a")
        (bytes " foo bar" ++ 66 :: bytes "az qux") =
      tag_loop 16 (db_add_note (db_empty (bytes "/nb")) (bytes "/a") 0 0) (bytes "/a")
        (bytes " foo bar") ∧
     ∀ (toks : List (List Nat × List Nat)) (trail : List Nat),
      bytes " foo bar" = toks.flatMap (fun p => p.1 ++ p.2) ++ trail →
      (∀ p ∈ toks, token_ok p) → (∀ x ∈ trail, isspace x = true) → toks.length < 16 →
      tag_loop 16 (db_add_note (db_empty (bytes "/nb")) (bytes "/a") 0 0) (bytes "/a")
          (bytes " foo bar" ++ 66 :: bytes "az qux") =
        some (link_all (db_add_note (db_empty (bytes "/nb")) (bytes "/a") 0 0) (bytes "/a")
          (toks.map (fun p => p.2)))) ∧
    ((process (fun p => if p = bytes "a" then some (bytes "adrus foo barBaz qux\nBODY") else none)
        false (db_empty (bytes "/nb")) (bytes "/nb/a") ⟨0, 0⟩).bind
      (fun r => (db_get_note r.1 (bytes "/a")).map (fun n => n.tags.map (tag_name r.1)))) =
      some [bytes "foo", bytes "bar"] ∧
    ((process (fun p => if p = bytes "a" then some (bytes "adrus foo Bar baz\nBODY") else none)
        false (db_empty (bytes "/nb")) (bytes "/nb/a") ⟨0, 0⟩).bind
      (fun r => (db_get_note r.1 (bytes "/a")).map (fun n => n.tags.map (tag_name r.1)))) =
      some [bytes "foo"] ∧
    ((process (fun p => if p = bytes "a" then some (bytes "adrus foo b4r baz\nBODY") else none)
        false (db_empty (bytes "/nb")) (bytes "/nb/a") ⟨0, 0⟩).bind
      (fun r => (db_get_note r.1 (bytes "/a")).map (fun n => n.tags.map (tag_name r.1)))) =
      some [bytes "foo", bytes "b"] :=
  ⟨by decide, by decide,
   parsing_stops_at_bad 16 (db_add_note (db_empty (bytes "/nb")) (bytes "/a") 0 0) (bytes "/a")
     (bytes " foo bar") 66 (bytes "az qux") (by decide) (by decide),
   by decide, by decide, by decide⟩

/-! ## The header a mutation writes, read back by the scanner -/

theorem serialise_first_line (db : db_t) (tags content : List Nat)
    (h : ∀ t ∈ tags, 10 ∉ tag_name db t) :
    first_line (serialise db tags content) =
      bytes "adrus " ++ tags.flatMap (fun t => tag_name db t ++ [32]) := by
  unfold serialise
  rw [List.append_assoc, List.singleton_append]
  apply first_line_append
  rw [List.mem_append, not_or]
  refine ⟨by decide, ?_⟩
  simp only [List.mem_flatMap, List.mem_append, List.mem_singleton, not_exists, not_and, not_or]
  intro t ht
  exact ⟨h t ht, by decide⟩

theorem written_hdr_eq (names : List (List Nat)) :
    bytes "adrus " ++ names.flatMap (fun n => n ++ [32]) =
      tagged_hdr (names.map (fun n => ([32], n))) [32] := by
  have h : ∀ l : List (List Nat), [32] ++ l.flatMap (fun n => n ++ [32]) =
      (l.map (fun n => (([32] : List Nat), n))).flatMap (fun p => p.1 ++ p.2) ++ [32] := by
    intro l
    induction l with
    | nil => rfl
    | cons n ns ih =>
      simp only [List.flatMap_cons, List.map_cons, List.append_assoc]
      rw [← ih]
  unfold tagged_hdr
  rw [List.append_assoc, ← h]
  rfl

/-- The scanner on a file whose first line is `adrus`, tokens and white space: the note
is registered and the names of its tag list are the tokens, in order. -/
theorem process_tagged (cwd : file_sys) (root : List Nat) (ops : List db_op)
    (temp : db_t) (path : List Nat) (sb : stat) (data : List Nat)
    (toks : List (List Nat × List Nat)) (trail : List Nat)
    (hreach : temp = run_ops (db_empty root) ops)
    (hb : (jb_basename path NAME_MAX).1 = 0)
    (hopen : fopen cwd (jb_basename path NAME_MAX).2 = some { data := data, pos := 0 })
    (hline : first_line data = tagged_hdr toks trail)
    (htoks : ∀ p ∈ toks, token_ok p) (htrail : ∀ c ∈ trail, isspace c = true)
    (hname : (path.drop temp.path.length).length < PATH_MAX - 1)
    (hfresh : db_get_note temp (path.drop temp.path.length) = none) :
    ∃ db2 n, process cwd false temp path sb = some (db2, JB_OK_VAL) ∧
      db_get_note db2 (path.drop temp.path.length) = some n ∧
      n.tags.map (tag_name db2) = toks.map (fun p => p.2) := by
  have hinv := run_ops_inv (db_empty root) ops
    (by intro n hn; simp [all_notes_empty] at hn)
    ⟨by intro n hn; simp [all_notes_empty] at hn, by intro t ht; simp [all_tags_empty] at ht⟩
  have hdist := reachable_distinct root ops
  rw [← hreach] at hinv hdist
  have hb1 := below_brk_add_note hinv.2 (path.drop temp.path.length) sb.st_ctime sb.st_mtime
  have hd1 := distinct_add_note hdist hinv.2 (path.drop temp.path.length) sb.st_ctime sb.st_mtime
  have hn1 := db_add_note_fresh sb.st_ctime sb.st_mtime hfresh
    (Nat.lt_of_lt_of_le hname (Nat.sub_le _ _))
  have hshort : ∀ t ∈ toks.map (fun p => p.2), t.length < TAG_MAX := by
    intro t ht
    obtain ⟨p, hp, rfl⟩ := List.mem_map.1 ht
    have := (htoks p hp).2.2.2.1
    show p.2.length < 32
    omega
  obtain ⟨n2, h1, h2, _, _, _, h6⟩ := link_all_tags (toks.map (fun p => p.2)) _ _ _ []
    hn1 (by simp [new_note]) hshort hb1 hd1
  refine ⟨_, n2, ?_, h1, ?_⟩
  · rw [process_open sb hb hopen, hline, if_pos (tagged_hdr_ok toks trail htoks htrail),
      tagged_hdr_drop, tag_loop_tokens toks trail htoks htrail]
    · rfl
    · have := tokens_length_le toks htoks
      simp only [List.length_append]
      omega
  · exact tag_names_of_forall₂ h6 (by simpa using h2)

/-- C27 (mutate then re-scan round trip): for a tag list whose names are non-empty runs
of at most 31 letters `a`..`z`, the first line of the file `db_mutate` writes is `adrus `
followed by each name and a space; it passes the header check; the tag loop of the
scanner makes on it one `db_tag_note` call per name, in the same order; and the scanner,
run on the written file for a fresh note of a store built by the store operations,
leaves on the note a tag list with exactly those names, in the same order. -/
theorem mutate_rescan (db : db_t) (tags content : List Nat)
    (hnames : ∀ t ∈ tags, token_ok (bytes " ", tag_name db t)) :
    first_line (serialise db tags content) =
      bytes "adrus " ++ tags.flatMap (fun t => tag_name db t ++ bytes " ") ∧
    is_adrus_hdr (first_line (serialise db tags content)) = true ∧
    (∀ (d : db_t) (name : List Nat),
      tag_loop (((first_line (serialise db tags content)).drop 5).length + 1) d name
          ((first_line (serialise db tags content)).drop 5) =
        some (link_all d name (tags.map (tag_name db)))) ∧
    (∀ (cwd : file_sys) (root : List Nat) (ops : List db_op) (temp : db_t) (path : List Nat)
        (sb : stat), temp = run_ops (db_empty root) ops →
      (jb_basename path NAME_MAX).1 = 0 →
      fopen cwd (jb_basename path NAME_MAX).2 =
        some { data := serialise db tags content, pos := 0 } →
      (path.drop temp.path.length).length < PATH_MAX - 1 →
      db_get_note temp (path.drop temp.path.length) = none →
      ∃ db2 n, process cwd false temp path sb = some (db2, JB_OK_VAL) ∧
        db_get_note db2 (path.drop temp.path.length) = some n ∧
        n.tags.map (tag_name db2) = tags.map (tag_name db)) := by
  have hnl : ∀ t ∈ tags, 10 ∉ tag_name db t := by
    intro t ht hm
    have := (hnames t ht).2.2.2.2 10 hm
    omega
  have hline : first_line (serialise db tags content) =
      tagged_hdr ((tags.map (tag_name db)).map (fun n => ([32], n))) [32] := by
    rw [serialise_first_line db tags content hnl, ← written_hdr_eq, List.flatMap_map]
  have htoks : ∀ p ∈ (tags.map (tag_name db)).map (fun n => (([32] : List Nat), n)),
      token_ok p := by
    intro p hp
    simp only [List.map_map, List.mem_map, Function.comp] at hp
    obtain ⟨t, ht, rfl⟩ := hp
    exact hnames t ht
  have htrail : ∀ c ∈ ([32] : List Nat), isspace c = true := by decide
  have hmap : ((tags.map (tag_name db)).map (fun n => (([32] : List Nat), n))).map
      (fun p => p.2) = tags.map (tag_name db) := by
    simp [List.map_map, Function.comp]
  refine ⟨serialise_first_line db tags content hnl, ?_, ?_, ?_⟩
  · rw [hline]
    exact tagged_hdr_ok _ _ htoks htrail
  · intro d name
    rw [hline, tagged_hdr_drop, tag_loop_tokens _ _ htoks htrail, hmap]
    have := tokens_length_le _ htoks
    simp only [List.length_append]
    omega
  · intro cwd root ops temp path sb hreach hb hopen hname hfresh
    have := process_tagged cwd root ops temp path sb _ _ _ hreach hb hopen hline htoks htrail
      hname hfresh
    rw [hmap] at this
    exact this

/-- Witness for C27: the tag list bar, foo, baz of the scanned store, written and read
back. -/
theorem mutate_rescan_witness :
    (∀ t ∈ [3, 2, 4], token_ok (bytes " ", tag_name scanned_db t)) ∧
    first_line (serialise scanned_db [3, 2, 4] (bytes "BODY")) = bytes "adrus bar foo baz " ∧
    (first_line (serialise scanned_db [3, 2, 4] (bytes "BODY")) =
      bytes "adrus " ++ [3, 2, 4].flatMap (fun t => tag_name scanned_db t ++ bytes " ") ∧
    is_adrus_hdr (first_line (serialise scanned_db [3, 2, 4] (bytes "BODY"))) = true ∧
    (∀ (d : db_t) (name : List Nat),
      tag_loop (((first_line (serialise scanned_db [3, 2, 4] (bytes "BODY"))).drop 5).length + 1)
          d name ((first_line (serialise scanned_db [3, 2, 4] (bytes "BODY"))).drop 5) =
        some (link_all d name ([3, 2, 4].map (tag_name scanned_db)))) ∧
    (∀ (cwd : file_sys) (root : List Nat) (ops : List db_op) (temp : db_t) (path : List Nat)
        (sb : stat), temp = run_ops (db_empty root) ops →
      (jb_basename path NAME_MAX).1 = 0 →
      fopen cwd (jb_basename path NAME_MAX).2 =
        some { data := serialise scanned_db [3, 2, 4] (bytes "BODY"), pos := 0 } →
      (path.drop temp.path.length).length < PATH_MAX - 1 →
      db_get_note temp (path.drop temp.path.length) = none →
      ∃ db2 n, process cwd false temp path sb = some (db2, JB_OK_VAL) ∧
        db_get_note db2 (path.drop temp.path.length) = some n ∧
        n.tags.map (tag_name db2) = [3, 2, 4].map (tag_name scanned_db))) :=
  ⟨by decide, by decide, mutate_rescan scanned_db [3, 2, 4] (bytes "BODY") (by decide)⟩

/-! ## Tags named on the command line -/

/-- The tag `sscanf` reads is a non-empty run of at most 31 letters `a`..`z`. -/
theorem sscanf_tag_lower {hdr tag_buf : List Nat} {n : Nat}
    (h : sscanf_tag hdr = some (tag_buf, n)) :
    tag_buf ≠ [] ∧ tag_buf.length ≤ 31 ∧ ∀ c ∈ tag_buf, 97 ≤ c ∧ c ≤ 122 := by
  unfold sscanf_tag at h
  dsimp only at h
  split_ifs at h with he
  simp only [Option.some.injEq, Prod.mk.injEq] at h
  obtain ⟨h1, _⟩ := h
  refine ⟨?_, ?_, ?_⟩
  · intro hnil
    rw [h1, hnil] at he
    exact he rfl
  · rw [← h1, List.length_take]
    exact Nat.min_le_left _ _
  · intro c hc
    rw [← h1] at hc
    have := List.mem_takeWhile_imp (List.mem_of_mem_take hc)
    simpa using this

/-- C23 (tag names lowercase and bounded) fails for tags named on the command line:
`take_tag` hands the bytes after the sign to `db_def_tag` as they are. The argument `+Foo`
registers a tag named `Foo`, `+a-b` one named `a-b`, `+` one with the empty name, and a
name of 33 bytes leaves 32 bytes in the record. The header `db_mutate` writes for the tag
`Foo` is read back by the scanner without any tag, and the one for `a-b` is no header. -/
theorem take_tag_unchecked_name :
    (take_tag ⟨[bytes "+Foo"], 0⟩ (db_empty (bytes "/nb"))).map
        (fun r => (r.1.sign, r.1.tag, (all_tags r.2.1).map (fun t => (t.addr, t.tag)))) =
      some (true, 1, [(1, bytes "Foo")]) ∧
    (take_tag ⟨[bytes "-a-b"], 0⟩ (db_empty (bytes "/nb"))).map
        (fun r => (r.1.sign, r.1.tag, (all_tags r.2.1).map (fun t => (t.addr, t.tag)))) =
      some (false, 1, [(1, bytes "a-b")]) ∧
    (take_tag ⟨[bytes "+"], 0⟩ (db_empty (bytes "/nb"))).map
        (fun r => (r.1.sign, r.1.tag, (all_tags r.2.1).map (fun t => (t.addr, t.tag)))) =
      some (true, 1, [(1, [])]) ∧
    (take_tag ⟨[43 :: long_name 98], 0⟩ (db_empty (bytes "/nb"))).map
        (fun r => (r.1.sign, r.1.tag, (all_tags r.2.1).map (fun t => (t.addr, t.tag.length)))) =
      some (true, 1, [(1, 32)]) ∧
    (take_tag ⟨[bytes "+Foo"], 0⟩ (db_empty (bytes "/nb"))).map
        (fun r => first_line (serialise r.2.1 [r.1.tag] (bytes "BODY"))) =
      some (bytes "adrus Foo ") ∧
    ((process (fun p => if p = bytes "a" then some (bytes "adrus Foo \nBODY") else none)
        false (db_empty (bytes "/nb")) (bytes "/nb/a") ⟨0, 0⟩).bind
      (fun r => (db_get_note r.1 (bytes "/a")).map (fun n => n.tags.map (tag_name r.1)))) =
      some [] ∧
    (take_tag ⟨[bytes "-a-b"], 0⟩ (db_empty (bytes "/nb"))).map
        (fun r => is_adrus_hdr (first_line (serialise r.2.1 [r.1.tag] (bytes "BODY")))) =
      some false := by
  refine ⟨by decide, by decide, by decide, by decide, by decide, by decide, by decide⟩

/-- C25 as stated fails for a name of 33 bytes: `take_tag` succeeds on `+name`, but the tag
of the entry it produces holds 32 bytes, not the name, and a second `+name` makes a second
tag record. -/
theorem take_tag_contract_counterexample :
    (long_name 98).length = 33 ∧
    (take_tag ⟨[43 :: long_name 98], 0⟩ (db_empty (bytes "/nb"))).map
        (fun r => (r.1.sign, r.1.tag, (all_tags r.2.1).map (fun t => (t.addr, t.tag)))) =
      some (true, 1, [(1, List.replicate 32 97)]) ∧
    List.replicate 32 97 ≠ long_name 98 ∧
    (take_tags 3 ⟨[43 :: long_name 98, 43 :: long_name 98], 0⟩ (db_empty (bytes "/nb"))
        cmd_t.CMD_QUERY []).map
        (fun r => (r.2.2.2, (all_tags r.2.1).map (fun t => (t.addr, t.tag)))) =
      some ([⟨true, 1⟩, ⟨true, 2⟩], [(2, List.replicate 32 97), (1, List.replicate 32 97)]) := by
  refine ⟨by decide, by decide, by decide, by decide⟩

/-- C25 (amended): for every store and every next argument, if it is `+name` or `-name`
with a name shorter than `TAG_MAX`, `take_tag` succeeds, consumes the argument and
produces an entry with sign true for `+` and false for `-` whose tag is the record
`db_def_tag` returns, a tag record of the store named `name`: the registered one, the
store unchanged, if there was one, and otherwise a new record with no notes, all note
records unchanged; if the argument starts with another character or is empty,
`take_tag` fails, and nothing is consumed or produced. -/
theorem take_tag_contract (db : db_t) (args : args_t) (arg : List Nat)
    (harg : args.args.get? args.ptr = some arg) :
    (∀ c name, arg = c :: name → c = 43 ∨ c = 45 → name.length < TAG_MAX →
      take_tag args db = some (⟨decide (c = 43), (db_def_tag db name).2⟩, (db_def_tag db name).1,
        { args with ptr := args.ptr + 1 }) ∧
      names_tag (db_def_tag db name).1 (db_def_tag db name).2 name ∧
      (∀ e, db_get_tag db name = some e → db_def_tag db name = (db, e.addr)) ∧
      (db_get_tag db name = none →
        (∃ u ∈ all_tags (db_def_tag db name).1,
          u.addr = (db_def_tag db name).2 ∧ u.tag = name ∧ u.notes = []) ∧
        (db_def_tag db name).1.bnotes = db.bnotes)) ∧
    (arg.head? ≠ some 43 → arg.head? ≠ some 45 → take_tag args db = none) := by
  have hlt : args.ptr < args.args.length := by
    by_contra hge
    rw [List.get?_eq_none.2 (Nat.le_of_not_lt hge)] at harg
    cases harg
  have hend : args_end args = false := by
    simp only [args_end, ge_iff_le, decide_eq_false_iff_not, not_le]
    exact hlt
  have hget : args.args.getD args.ptr [] = arg := by
    rw [List.getD_eq_getElem?_getD, ← List.get?_eq_getElem?, harg]
    rfl
  constructor
  · intro c name hc hsign hlen
    have ht : List.take TAG_MAX name = name := List.take_of_length_le (Nat.le_of_lt hlen)
    refine ⟨?_, ?_, ?_, ?_⟩
    · unfold take_tag
      rw [hend, hget, hc]
      simp only [Bool.false_eq_true, if_false, take, hend]
      rcases hsign with h | h
      · subst h
        simp
      · subst h
        simp
    · cases hn : db_get_tag db name with
      | some e =>
        have hp := List.find?_some hn
        simp only [Bool.and_eq_true, beq_iff_eq] at hp
        refine ⟨e, ?_, ?_, hp.2⟩
        · rw [mem_all_tags_def_tag]
          exact Or.inl (db_get_tag_mem hn)
        · simp [db_def_tag, hn]
      | none =>
        refine ⟨new_tag db name, ?_, ?_, ?_⟩
        · rw [mem_all_tags_def_tag]
          exact Or.inr ⟨hn, rfl⟩
        · simp [db_def_tag, hn, new_tag]
        · simp [new_tag, ht]
    · intro e he
      simp [db_def_tag, he]
    · intro hn
      refine ⟨⟨new_tag db name, ?_, ?_, ?_, rfl⟩, db_def_tag_notes db name⟩
      · rw [mem_all_tags_def_tag]
        exact Or.inr ⟨hn, rfl⟩
      · simp [db_def_tag, hn, new_tag]
      · simp [new_tag, ht]
  · intro h1 h2
    unfold take_tag
    rw [hend, hget]
    cases arg with
    | nil => rfl
    | cons c name =>
      have hc1 : c ≠ 43 := fun h => h1 (by rw [h]; rfl)
      have hc2 : c ≠ 45 := fun h => h2 (by rw [h]; rfl)
      simp [hc1, hc2]

/-- Witness for C25: `-x` names the registered tag `x` of the demo store, `+zz` makes a new
tag, and `note` is no tag argument. -/
theorem take_tag_contract_witness :
    (take_tag ⟨[bytes "adrus", bytes "-x", bytes "+zz"], 1⟩ demo_db =
        some (⟨decide (45 = 43), (db_def_tag demo_db (bytes "x")).2⟩,
          (db_def_tag demo_db (bytes "x")).1,
          { args := [bytes "adrus", bytes "-x", bytes "+zz"], ptr := 2 }) ∧
      names_tag (db_def_tag demo_db (bytes "x")).1 (db_def_tag demo_db (bytes "x")).2
        (bytes "x") ∧
      (∀ e, db_get_tag demo_db (bytes "x") = some e →
        db_def_tag demo_db (bytes "x") = (demo_db, e.addr)) ∧
      (db_get_tag demo_db (bytes "x") = none →
        (∃ u ∈ all_tags (db_def_tag demo_db (bytes "x")).1,
          u.addr = (db_def_tag demo_db (bytes "x")).2 ∧ u.tag = bytes "x" ∧ u.notes = []) ∧
        (db_def_tag demo_db (bytes "x")).1.bnotes = demo_db.bnotes)) ∧
    (db_get_tag demo_db (bytes "x")).map (fun e => e.addr) = some 4 ∧
    db_get_tag demo_db (bytes "zz") = none ∧
    (take_tag ⟨[bytes "adrus", bytes "-x", bytes "+zz"], 2⟩ demo_db).map
        (fun r => (r.1.sign, r.1.tag, (all_tags r.2.1).map (fun t => (t.addr, t.tag, t.notes)),
          r.2.2.ptr)) =
      some (true, demo_db.brk,
        (demo_db.brk, bytes "zz", []) ::
          (all_tags demo_db).map (fun t => (t.addr, t.tag, t.notes)), 3) ∧
    take_tag ⟨[bytes "adrus", bytes "note"], 1⟩ demo_db = none :=
  ⟨(take_tag_contract demo_db ⟨[bytes "adrus", bytes "-x", bytes "+zz"], 1⟩ (bytes "-x")
      rfl).1 45 (bytes "x") rfl (Or.inr rfl) (by decide),
   by decide, by decide, rfl,
   (take_tag_contract demo_db ⟨[bytes "adrus", bytes "note"], 1⟩ (bytes "note") rfl).2
     (by decide) (by decide)⟩

/-! ## The order in which a query visits notes -/

theorem chain_order_add_note {db : db_t} (h : chain_order db) (hb : below_brk db)
    (path : List Nat) (c m : Int) : chain_order (db_add_note db path c m) := by
  unfold db_add_note
  cases hn : get_note_entry db path with
  | some e => exact h
  | none =>
    intro b
    by_cases hbk : b = bucket_of (jb_fnv1a_str path)
    · subst hbk
      simp only [if_true]
      refine ⟨List.Pairwise.cons ?_ (h _).1, ?_⟩
      · intro y hy
        exact (hb.1 y ((mem_all_notes db y).2 ⟨_, hy⟩)).1
      · intro e he
        rcases List.mem_cons.1 he with he | he
        · rw [he]
        · exact (h _).2 e he
    · simp only [hbk, if_false]
      exact h b

theorem chain_order_def_tag {db : db_t} (h : chain_order db) (tag : List Nat) :
    chain_order (db_def_tag db tag).1 := by
  intro b
  rw [db_def_tag_notes]
  exact h b

theorem chain_order_poke_tag {db : db_t} (h : chain_order db) (a : Nat)
    (f : tag_entry → tag_entry) : chain_order (poke_tag db a f) := h

theorem chain_order_poke_note {db : db_t} (h : chain_order db) (a : Nat)
    (g : note_entry → note_entry) (ha : ∀ n, (g n).addr = n.addr)
    (hh : ∀ n, (g n).hash = n.hash) : chain_order (poke_note db a g) := by
  intro b
  have e1 : ∀ n : note_entry, (if n.addr = a then g n else n).addr = n.addr := by
    intro n
    split
    · exact ha n
    · rfl
  have e2 : ∀ n : note_entry, (if n.addr = a then g n else n).hash = n.hash := by
    intro n
    split
    · exact hh n
    · rfl
  refine ⟨?_, ?_⟩
  · show ((db.bnotes b).map _).Pairwise _
    rw [List.pairwise_map]
    simp only [e1]
    exact (h b).1
  · intro e he
    obtain ⟨n, hn, rfl⟩ := List.mem_map.1 he
    rw [e2]
    exact (h b).2 n hn

theorem chain_order_tag_note {db : db_t} (h : chain_order db) (path tag : List Nat) :
    chain_order (db_tag_note db path tag) := by
  have h1 := chain_order_def_tag h tag
  cases hn : get_note_entry (db_def_tag db tag).1 path with
  | none => rw [db_tag_note_none hn]; exact h1
  | some note_e =>
    rw [db_tag_note_some hn]
    exact chain_order_poke_note (chain_order_poke_tag h1 _ _) _ _ (fun _ => rfl) (fun _ => rfl)

theorem run_ops_chain_order (db : db_t) (ops : List db_op) (hs : symmetric db)
    (hb : below_brk db) (h : chain_order db) : chain_order (run_ops db ops) := by
  induction ops generalizing db with
  | nil => exact h
  | cons op ops ih =>
    cases op with
    | add_note path c m =>
      exact ih _ (symmetric_add_note hs hb path c m) (below_brk_add_note hb path c m)
        (chain_order_add_note h hb path c m)
    | def_tag tag =>
      exact ih _ (symmetric_def_tag hs hb tag) (below_brk_def_tag hb tag)
        (chain_order_def_tag h tag)
    | tag_note path tag =>
      exact ih _ (db_tag_note_inv hs hb path tag).1 (db_tag_note_inv hs hb path tag).2
        (chain_order_tag_note h path tag)

theorem reachable_chain_order (root : List Nat) (ops : List db_op) :
    chain_order (run_ops (db_empty root) ops) :=
  run_ops_chain_order _ ops (by intro n hn; simp [all_notes_empty] at hn)
    ⟨by intro n hn; simp [all_notes_empty] at hn, by intro t ht; simp [all_tags_empty] at ht⟩
    (by intro b; simp [db_empty])

theorem all_notes_ordered {db : db_t} (h : chain_order db) :
    (all_notes db).Pairwise (fun x y => bucket_of x.hash < bucket_of y.hash ∨
      (bucket_of x.hash = bucket_of y.hash ∧ y.addr < x.addr)) := by
  unfold all_notes
  rw [List.pairwise_flatMap]
  refine ⟨fun b _ => ?_, ?_⟩
  · refine List.Pairwise.imp_of_mem ?_ (h b).1
    intro x y hx hy hlt
    exact Or.inr ⟨by rw [(h b).2 x hx, (h b).2 y hy], hlt⟩
  · refine List.Pairwise.imp ?_ (List.pairwise_lt_finRange BUCKETS)
    intro b1 b2 hlt x hx y hy
    left
    rw [(h b1).2 x hx, (h b2).2 y hy]
    exact hlt

/-- C26 (visit order): in a store built by the store operations, `db_query` calls the
visitor on the matching notes by ascending bucket index, the hash of the note modulo
32, and inside one bucket on a note before the notes registered earlier (those with a
smaller address); the hash of a note is the FNV hash of its path when the paths fit the
records; and a newly registered note gets an address above those of all notes registered
before and sits at the head of its chain. -/
theorem visit_order (root : List Nat) (ops : List db_op) (filter : List db_tag_t) :
    (db_query (run_ops (db_empty root) ops) [] filter visit_log).Pairwise
      (fun x y => bucket_of x.hash < bucket_of y.hash ∨
        (bucket_of x.hash = bucket_of y.hash ∧ y.addr < x.addr)) ∧
    ((∀ op ∈ ops, op.bounded) →
      ∀ n ∈ db_query (run_ops (db_empty root) ops) [] filter visit_log,
        n.hash = jb_fnv1a_str n.path) ∧
    (∀ path c m, get_note_entry (run_ops (db_empty root) ops) path = none →
      (db_add_note (run_ops (db_empty root) ops) path c m).bnotes
          (bucket_of (jb_fnv1a_str path)) =
        new_note (run_ops (db_empty root) ops) path c m ::
          (run_ops (db_empty root) ops).bnotes (bucket_of (jb_fnv1a_str path)) ∧
      ∀ n ∈ all_notes (run_ops (db_empty root) ops),
        n.addr < (new_note (run_ops (db_empty root) ops) path c m).addr) ∧
    (db_query (run_ops (db_empty (bytes "/nb"))
        [.add_note (bytes "a") 0 0, .add_note (bytes "z") 0 0, .add_note (bytes "ad") 0 0,
         .add_note (bytes "d") 0 0, .add_note (bytes "aa") 0 0]) [] [] visit_log).map
        (fun n => ((bucket_of n.hash).val, n.addr, n.path)) =
      [(5, 2, bytes "z"), (27, 5, bytes "aa"), (27, 4, bytes "d"), (30, 3, bytes "ad"),
       (30, 1, bytes "a")] := by
  have hinv := run_ops_inv (db_empty root) ops
    (by intro n hn; simp [all_notes_empty] at hn)
    ⟨by intro n hn; simp [all_notes_empty] at hn, by intro t ht; simp [all_tags_empty] at ht⟩
  refine ⟨?_, ?_, ?_, by decide⟩
  · rw [db_query_log]
    exact (all_notes_ordered (reachable_chain_order root ops)).filter _
  · intro hb n hn
    rw [db_query_log] at hn
    obtain ⟨b, hmem⟩ := (mem_all_notes _ n).1 (List.mem_of_mem_filter hn)
    exact ((reachable_keyed root ops hb).1.1 b n hmem).1
  · intro path c m hnone
    refine ⟨by simp [db_add_note, hnone, new_note], ?_⟩
    intro n hn
    exact (hinv.2.1 n hn).1

/-! ## A second run of the collector -/

theorem visit_entry_dir_cat (path n : List Nat) (sub : List fs_node) (e : Bool)
    (hcat : (jb_path_cat path n).1 ≠ 0) :
    visit_entry path (.dir n sub) e =
      (.error (JB_ERR_LIBC "failed to concatenate paths"), some (.dir n sub)) := by
  simp only [visit_entry, hcat, ne_eq, not_false_eq_true, if_true]

theorem visit_entry_dir_error (path n : List Nat) (sub : List fs_node) (e : Bool)
    (hcat : (jb_path_cat path n).1 = 0) {err : jb_res_t} {l : List fs_node}
    (h : readdir_loop (jb_path_cat path n).2 sub true = (.error err, l)) :
    visit_entry path (.dir n sub) e = (.error err, some (.dir n l)) := by
  simp only [visit_entry, hcat, ne_eq, not_true_eq_false, if_false, h, rmdir_step, Option.getD]

theorem visit_entry_dir_ok (path n : List Nat) (sub : List fs_node) (e : Bool)
    (hcat : (jb_path_cat path n).1 = 0) {em : Bool} {l : List fs_node}
    (h : readdir_loop (jb_path_cat path n).2 sub true = (.ok em, l)) :
    visit_entry path (.dir n sub) e =
      (.ok (e && em), if (em && l.isEmpty) = true then none else some (.dir n l)) := by
  cases em <;> cases l <;> simp [visit_entry, hcat, h, rmdir_step]

theorem has_file_append (a b : List fs_node) :
    has_file (a ++ b) = (has_file a || has_file b) := by
  induction a with
  | nil => simp [has_file]
  | cons x xs ih => simp [has_file, ih, Bool.or_assoc]

mutual
/-- The collector removes no regular file: what is left of an entry holds a regular file
exactly when the entry did. -/
theorem visit_entry_has_file (path : List Nat) :
    ∀ (ent : fs_node) (e : Bool),
      has_file (visit_entry path ent e).2.toList = has_file_node ent
  | .file n, e => by simp [visit_entry, has_file, has_file_node]
  | .other n, e => by simp [visit_entry, has_file, has_file_node]
  | .dir n sub, e => by
    by_cases hcat : (jb_path_cat path n).1 = 0
    · have ih := readdir_loop_has_file (jb_path_cat path n).2 sub true
      rcases hr : readdir_loop (jb_path_cat path n).2 sub true with ⟨r, l⟩
      rw [hr] at ih
      cases r with
      | error err =>
        rw [visit_entry_dir_error path n sub e hcat hr]
        simpa [has_file, has_file_node] using ih
      | ok em =>
        rw [visit_entry_dir_ok path n sub e hcat hr]
        have hem := readdir_loop_reports _ sub true em l hr
        by_cases hc : (em && l.isEmpty) = true
        · simp only [hc, if_true, Option.toList, has_file, has_file_node]
          simp only [Bool.and_eq_true] at hc
          rw [hc.1] at hem
          simpa using hem
        · simp only [hc, if_false]
          simpa [has_file, has_file_node] using ih
    · rw [visit_entry_dir_cat path n sub e hcat]
      simp [has_file]
theorem readdir_loop_has_file (path : List Nat) :
    ∀ (entries : List fs_node) (e : Bool),
      has_file (readdir_loop path entries e).2 = has_file entries
  | [], e => by simp [readdir_loop]
  | ent :: rest, e => by
    have ih1 := visit_entry_has_file path ent e
    rcases hv : visit_entry path ent e with ⟨r, l⟩
    rw [hv] at ih1
    cases r with
    | error err =>
      simp only [readdir_loop, hv, has_file_append, has_file]
      rw [ih1]
    | ok e2 =>
      have ih2 := readdir_loop_has_file path rest e2
      simp only [readdir_loop, hv, has_file_append, has_file]
      rw [ih1, ih2]
end

mutual
/-- A second visit of what the first visit left of an entry ends the same way and
leaves the same. -/
theorem visit_entry_again (path : List Nat) :
    ∀ (ent : fs_node),
      (∀ e err l, visit_entry path ent e = (.error err, l) →
        ∃ ent2, l = some ent2 ∧ ∀ e2, visit_entry path ent2 e2 = (.error err, some ent2)) ∧
      (∀ e r ent2, visit_entry path ent e = (.ok r, some ent2) →
        ∀ e2, ∃ r2, visit_entry path ent2 e2 = (.ok r2, some ent2))
  | .file n => by
    refine ⟨fun e err l h => ?_, fun e r ent2 h e2 => ?_⟩
    · simp [visit_entry] at h
    · simp only [visit_entry, Prod.mk.injEq, Option.some.injEq] at h
      rw [← h.2]
      exact ⟨false, rfl⟩
  | .other n => by
    refine ⟨fun e err l h => ?_, fun e r ent2 h e2 => ?_⟩
    · simp [visit_entry] at h
    · simp only [visit_entry, Prod.mk.injEq, Option.some.injEq] at h
      rw [← h.2]
      exact ⟨e2, rfl⟩
  | .dir n sub => by
    have ih := readdir_loop_again (jb_path_cat path n).2 sub
    by_cases hcat : (jb_path_cat path n).1 = 0
    · rcases hr : readdir_loop (jb_path_cat path n).2 sub true with ⟨r, l⟩
      cases r with
      | error err0 =>
        refine ⟨fun e err l2 h => ?_, fun e r ent2 h e2 => ?_⟩
        · rw [visit_entry_dir_error path n sub e hcat hr] at h
          simp only [Prod.mk.injEq, Except.error.injEq] at h
          refine ⟨_, h.2.symm, fun e2 => ?_⟩
          rw [← h.1]
          exact visit_entry_dir_error path n l e2 hcat (ih.1 true err0 l hr true)
        · rw [visit_entry_dir_error path n sub e hcat hr] at h
          simp at h
      | ok em =>
        refine ⟨fun e err l2 h => ?_, fun e r ent2 h e2 => ?_⟩
        · rw [visit_entry_dir_ok path n sub e hcat hr] at h
          simp at h
        · rw [visit_entry_dir_ok path n sub e hcat hr] at h
          by_cases hc : (em && l.isEmpty) = true
          · simp [hc] at h
          · rw [if_neg hc] at h
            simp only [Prod.mk.injEq, Option.some.injEq] at h
            obtain ⟨r2, h2⟩ := ih.2 true em l hr true
            have hem := readdir_loop_reports _ sub true em l hr
            have hr2 := readdir_loop_reports _ l true r2 l h2
            have hf := readdir_loop_has_file (jb_path_cat path n).2 sub true
            rw [hr] at hf
            simp only at hf
            have heq : r2 = em := by rw [hr2, hem, hf]
            rw [heq] at h2
            refine ⟨e2 && em, ?_⟩
            rw [← h.2, visit_entry_dir_ok path n l e2 hcat h2, if_neg hc]
    · refine ⟨fun e err l h => ?_, fun e r ent2 h e2 => ?_⟩
      · rw [visit_entry_dir_cat path n sub e hcat] at h
        simp only [Prod.mk.injEq, Except.error.injEq] at h
        refine ⟨_, h.2.symm, fun e2 => ?_⟩
        rw [← h.1]
        exact visit_entry_dir_cat path n sub e2 hcat
      · rw [visit_entry_dir_cat path n sub e hcat] at h
        simp at h
/-- A second run of the `readdir` loop over what the first run left ends the same way
and leaves the same. -/
theorem readdir_loop_again (path : List Nat) :
    ∀ (entries : List fs_node),
      (∀ e err left, readdir_loop path entries e = (.error err, left) →
        ∀ e2, readdir_loop path left e2 = (.error err, left)) ∧
      (∀ e r left, readdir_loop path entries e = (.ok r, left) →
        ∀ e2, ∃ r2, readdir_loop path left e2 = (.ok r2, left))
  | [] => by
    refine ⟨fun e err left h => ?_, fun e r left h e2 => ?_⟩
    · simp [readdir_loop] at h
    · simp only [readdir_loop, Prod.mk.injEq] at h
      rw [← h.2]
      exact ⟨e2, rfl⟩
  | ent :: rest => by
    have ih1 := visit_entry_again path ent
    have ih2 := readdir_loop_again path rest
    refine ⟨fun e err left h e2 => ?_, fun e r left h e2 => ?_⟩
    · rcases hv : visit_entry path ent e with ⟨rv, l⟩
      cases rv with
      | error err0 =>
        obtain ⟨ent2, hl, hagain⟩ := ih1.1 e err0 l hv
        subst hl
        simp only [readdir_loop, hv, Prod.mk.injEq, Except.error.injEq] at h
        rw [← h.2, ← h.1]
        show readdir_loop path (ent2 :: rest) e2 = (.error err0, ent2 :: rest)
        simp only [readdir_loop, hagain e2]
        rfl
      | ok ev =>
        simp only [readdir_loop, hv, Prod.mk.injEq] at h
        rcases hrest : readdir_loop path rest ev with ⟨rr, lr⟩
        rw [hrest] at h
        simp only at h
        have hrr : rr = .error err := h.1
        subst hrr
        have hlr := ih2.1 ev err lr hrest
        cases l with
        | none =>
          rw [← h.2]
          simpa using hlr e2
        | some ent2 =>
          obtain ⟨r2, h2⟩ := ih1.2 e ev ent2 hv e2
          rw [← h.2]
          show readdir_loop path (ent2 :: lr) e2 = (.error err, ent2 :: lr)
          simp only [readdir_loop, h2, hlr r2]
          rfl
    · rcases hv : visit_entry path ent e with ⟨rv, l⟩
      cases rv with
      | error err0 =>
        simp [readdir_loop, hv] at h
      | ok ev =>
        simp only [readdir_loop, hv, Prod.mk.injEq] at h
        rcases hrest : readdir_loop path rest ev with ⟨rr, lr⟩
        rw [hrest] at h
        simp only at h
        have hrr : rr = .ok r := h.1
        subst hrr
        cases l with
        | none =>
          obtain ⟨r3, h3⟩ := ih2.2 ev r lr hrest e2
          rw [← h.2]
          exact ⟨r3, by simpa using h3⟩
        | some ent2 =>
          obtain ⟨r2, h2⟩ := ih1.2 e ev ent2 hv e2
          obtain ⟨r3, h3⟩ := ih2.2 ev r lr hrest r2
          rw [← h.2]
          refine ⟨r3, ?_⟩
          show readdir_loop path (ent2 :: lr) e2 = (.ok r3, ent2 :: lr)
          simp only [readdir_loop, h2, h3]
          rfl
end

theorem mem_all_notes_tag_note {db : db_t} {path tag : List Nat} {n : note_entry}
    (h : n ∈ all_notes (db_tag_note db path tag)) :
    ∃ m ∈ all_notes db, n.path = m.path ∧ n.addr = m.addr ∧
      (n.tags = m.tags ∨ n.tags = m.tags ++ [(db_def_tag db tag).2]) := by
  cases hn : get_note_entry (db_def_tag db tag).1 path with
  | none =>
    rw [db_tag_note_none hn, all_notes_def_tag] at h
    exact ⟨n, h, rfl, rfl, Or.inl rfl⟩
  | some note_e =>
    rw [db_tag_note_some hn, mem_all_notes_poke_note, all_notes_poke_tag,
      all_notes_def_tag] at h
    obtain ⟨m, hm, rfl⟩ := h
    refine ⟨m, hm, ?_⟩
    by_cases hc : m.addr = note_e.addr
    · simp [hc]
    · simp [hc]

theorem tags_known_add_note {db : db_t} (h : tags_known db) (path : List Nat) (c m : Int) :
    tags_known (db_add_note db path c m) := by
  intro n hn a ha
  rw [mem_all_notes_add_note] at hn
  rcases hn with hn | ⟨_, rfl⟩
  · obtain ⟨nm, u, hu, h1, h2⟩ := h n hn a ha
    exact ⟨nm, u, by rw [all_tags_add_note]; exact hu, h1, h2⟩
  · simp [new_note] at ha

theorem tags_known_def_tag {db : db_t} (h : tags_known db) (tag : List Nat) :
    tags_known (db_def_tag db tag).1 := by
  intro n hn a ha
  rw [all_notes_def_tag] at hn
  obtain ⟨nm, hnm⟩ := h n hn a ha
  exact ⟨nm, names_tag_def_tag tag hnm⟩

theorem tags_known_tag_note {db : db_t} (h : tags_known db) (path tag : List Nat) :
    tags_known (db_tag_note db path tag) := by
  intro n hn a ha
  obtain ⟨m, hm, _, _, ht⟩ := mem_all_notes_tag_note hn
  have hold : ∀ a ∈ m.tags, ∃ nm, names_tag (db_tag_note db path tag) a nm := by
    intro a ha
    obtain ⟨nm, hnm⟩ := h m hm a ha
    exact ⟨nm, names_tag_tag_note path tag hnm⟩
  rcases ht with ht | ht
  · rw [ht] at ha
    exact hold a ha
  · rw [ht, List.mem_append, List.mem_singleton] at ha
    rcases ha with ha | ha
    · exact hold a ha
    · obtain ⟨u, hu, hua⟩ := db_def_tag_ret_mem db tag
      have h1 : names_tag (db_def_tag db tag).1 a u.tag := ⟨u, hu, hua.trans ha.symm, rfl⟩
      cases hn : get_note_entry (db_def_tag db tag).1 path with
      | none => rw [db_tag_note_none hn]; exact ⟨_, h1⟩
      | some note_e =>
        rw [db_tag_note_some hn]
        exact ⟨_, names_tag_poke _ _ _ _ (fun _ => rfl) (fun _ => rfl) h1⟩

theorem run_ops_tags_known (db : db_t) (ops : List db_op) (h : tags_known db) :
    tags_known (run_ops db ops) := by
  induction ops generalizing db with
  | nil => exact h
  | cons op ops ih =>
    cases op with
    | add_note path c m => exact ih _ (tags_known_add_note h path c m)
    | def_tag tag => exact ih _ (tags_known_def_tag h tag)
    | tag_note path tag => exact ih _ (tags_known_tag_note h path tag)

theorem reachable_well_formed (root : List Nat) (ops : List db_op)
    (hb : ∀ op ∈ ops, op.bounded) : well_formed (run_ops (db_empty root) ops) := by
  have hinv := run_ops_inv (db_empty root) ops
    (by intro n hn; simp [all_notes_empty] at hn)
    ⟨by intro n hn; simp [all_notes_empty] at hn, by intro t ht; simp [all_tags_empty] at ht⟩
  have hk := reachable_keyed root ops hb
  exact ⟨hinv.1, hinv.2, reachable_distinct root ops, hk.1, hk.2,
    run_ops_tags_known _ ops (by intro n hn; simp [all_notes_empty] at hn)⟩

theorem well_formed_def_tag {db : db_t} (h : well_formed db) (tag : List Nat)
    (hlen : tag.length < TAG_MAX) : well_formed (db_def_tag db tag).1 := by
  obtain ⟨hs, hb, hd, hk, hu, ht⟩ := h
  exact ⟨symmetric_def_tag hs hb tag, below_brk_def_tag hb tag, distinct_def_tag hd hb tag,
    keyed_def_tag hk tag hlen, unique_def_tag hu hk tag hlen, tags_known_def_tag ht tag⟩

/-- In a well-formed store the pointer `db_def_tag` returns for a name is among a note's
tag pointers exactly when the name is among the names of the note's tags. -/
theorem def_tag_ptr_mem_iff {db : db_t} (h : well_formed db) (nm : List Nat)
    {n : note_entry} (hn : n ∈ all_notes db) :
    (db_def_tag db nm).2 ∈ n.tags ↔ nm ∈ n.tags.map (tag_name db) := by
  obtain ⟨_, hb, hd, hk, hu, ht⟩ := h
  cases hg : db_get_tag db nm with
  | some e =>
    have he := db_get_tag_mem hg
    have hname : e.tag = nm := by
      have := List.find?_some hg
      simp only [Bool.and_eq_true, beq_iff_eq] at this
      exact this.2
    have hp : (db_def_tag db nm).2 = e.addr := by simp [db_def_tag, hg]
    rw [hp]
    constructor
    · intro hm
      exact List.mem_map.2 ⟨e.addr, hm, by rw [tag_name_of_mem hd he, hname]⟩
    · intro hm
      obtain ⟨a, ha, han⟩ := List.mem_map.1 hm
      obtain ⟨_, u, hu1, hu2, _⟩ := ht n hn a ha
      rw [← hu2, tag_name_of_mem hd hu1] at han
      have : u = e := List.inj_on_of_nodup_map hu.2 hu1 he (han.trans hname.symm)
      rw [← this, hu2]
      exact ha
  | none =>
    have hp : (db_def_tag db nm).2 = db.brk := by simp [db_def_tag, hg]
    rw [hp]
    constructor
    · intro hm
      exact absurd ((hb.1 n hn).2 _ hm) (lt_irrefl _)
    · intro hm
      obtain ⟨a, ha, han⟩ := List.mem_map.1 hm
      obtain ⟨_, u, hu1, hu2, _⟩ := ht n hn a ha
      rw [← hu2, tag_name_of_mem hd hu1] at han
      obtain ⟨x, hx⟩ := keyed_tag_found hk hu1
      rw [han, hg] at hx
      cases hx

/-- Defining a tag changes no name of a tag a note holds. -/
theorem tag_names_def_tag {db : db_t} (h : well_formed db) (nm : List Nat)
    (hlen : nm.length < TAG_MAX) {n : note_entry} (hn : n ∈ all_notes db) :
    n.tags.map (tag_name (db_def_tag db nm).1) = n.tags.map (tag_name db) := by
  have h2 := well_formed_def_tag h nm hlen
  apply List.map_congr_left
  intro a ha
  obtain ⟨_, u, hu1, hu2, _⟩ := h.2.2.2.2.2 n hn a ha
  have hu3 : u ∈ all_tags (db_def_tag db nm).1 := (mem_all_tags_def_tag db nm u).2 (Or.inl hu1)
  rw [← hu2, tag_name_of_mem h.2.2.1 hu1, tag_name_of_mem h2.2.2.1 hu3]

theorem take_tag_some (A : List (List Nat)) (ptr : Nat) (db : db_t) (c : Nat) (nm : List Nat)
    (hget : A.get? ptr = some (c :: nm)) (hc : c = 43 ∨ c = 45) :
    take_tag ⟨A, ptr⟩ db =
      some (⟨decide (c = 43), (db_def_tag db nm).2⟩, (db_def_tag db nm).1, ⟨A, ptr + 1⟩) := by
  have hlt : ptr < A.length := by
    by_contra hge
    rw [List.get?_eq_none.2 (Nat.le_of_not_lt hge)] at hget
    cases hget
  have hend : args_end ⟨A, ptr⟩ = false := by
    simp only [args_end, ge_iff_le, decide_eq_false_iff_not, not_le]
    exact hlt
  have hgd : A.getD ptr [] = c :: nm := by
    rw [List.getD_eq_getElem?_getD, ← List.get?_eq_getElem?, hget]
    rfl
  unfold take_tag
  rw [hend]
  simp only [Bool.false_eq_true, if_false, hgd, take, hend]
  rcases hc with h | h
  · subst h
    simp
  · subst h
    simp

theorem take_tag_end (A : List (List Nat)) (ptr : Nat) (db : db_t) (h : A.length ≤ ptr) :
    take_tag ⟨A, ptr⟩ db = none := by
  have hend : args_end ⟨A, ptr⟩ = true := by
    simp only [args_end, ge_iff_le, decide_eq_true_eq]
    exact h
  unfold take_tag
  rw [hend]
  rfl

theorem same_path_same_note {db : db_t} (h : well_formed db) {n m : note_entry}
    (hn : n ∈ all_notes db) (hm : m ∈ all_notes db) (hp : n.path = m.path) : n = m :=
  List.inj_on_of_nodup_map h.2.2.2.2.1.1 hn hm hp

/-- If the second store registers what the first registers and the other way round, a
note of the first that meets the arguments has a partner in the second, under the same
path, that meets them too. -/
theorem covers_transfer {db1 db2 : db_t} (h1 : well_formed db1) (h2 : well_formed db2)
    (c12 : covers (note_view db1) (note_view db2))
    (c21 : covers (note_view db2) (note_view db1)) (args : List (List Nat))
    {n1 : note_entry} (hn1 : n1 ∈ all_notes db1) (hholds : ∀ a ∈ args, arg_holds db1 n1 a) :
    ∃ n2 ∈ all_notes db2, n2.path = n1.path ∧ ∀ a ∈ args, arg_holds db2 n2 a := by
  have hx : (n1.path, n1.tags.map (tag_name db1)) ∈ note_view db1 :=
    List.mem_map.2 ⟨n1, hn1, rfl⟩
  obtain ⟨y, hy, hy1⟩ := (c12 _ hx).1
  obtain ⟨n2, hn2, rfl⟩ := List.mem_map.1 hy
  simp only at hy1
  refine ⟨n2, hn2, hy1, ?_⟩
  have hnames : ∀ t, t ∈ n2.tags.map (tag_name db2) ↔ t ∈ n1.tags.map (tag_name db1) := by
    intro t
    constructor
    · intro ht
      have hx2 : (n2.path, n2.tags.map (tag_name db2)) ∈ note_view db2 :=
        List.mem_map.2 ⟨n2, hn2, rfl⟩
      obtain ⟨z, hz, hz1, hz2⟩ := (c21 _ hx2).2 t ht
      obtain ⟨n3, hn3, rfl⟩ := List.mem_map.1 hz
      simp only at hz1 hz2
      have : n3 = n1 := same_path_same_note h1 hn3 hn1 (hz1.trans hy1)
      rw [← this]
      exact hz2
    · intro ht
      obtain ⟨z, hz, hz1, hz2⟩ := (c12 _ hx).2 t ht
      obtain ⟨n3, hn3, rfl⟩ := List.mem_map.1 hz
      simp only at hz1 hz2
      have : n3 = n2 := same_path_same_note h2 hn3 hn2 (hz1.trans hy1.symm)
      rw [← this]
      exact hz2
  intro a ha
  have := hholds a ha
  cases a with
  | nil => trivial
  | cons c nm =>
    simp only [arg_holds] at this ⊢
    rw [hnames, this]

/-! ## The hash function -/

/-- C38 (jb_fnv1a is FNV-1a) fails: the loop of `jb_fnv1a` multiplies by the prime first
and xors the byte in afterwards, which is the order of FNV-1. On the empty input both
functions give the offset basis; on the one byte `a` the source gives
`0xaf63bd4c8601b7be` and the reference FNV-1a function `0xaf63dc4c8601ec8c`; the two
differ on `adrus` as well. -/
theorem fnv_order_differs :
    jb_fnv1a [] = fnv1a_reference [] ∧
    jb_fnv1a (bytes "a") = 0xaf63bd4c8601b7be ∧
    fnv1a_reference (bytes "a") = 0xaf63dc4c8601ec8c ∧
    jb_fnv1a (bytes "a") ≠ fnv1a_reference (bytes "a") ∧
    jb_fnv1a (bytes "adrus") ≠ fnv1a_reference (bytes "adrus") ∧
    jb_fnv1a_str (bytes "a") ≠ fnv1a_reference (bytes "a") ∧
    (∀ (buf : List Nat) (b : Nat), jb_fnv1a (buf ++ [b]) =
      Nat.xor ((jb_fnv1a buf * FNV_PRIME) % 2 ^ 64) (b % 256)) := by
  refine ⟨by decide, by decide, by decide, by decide, by decide, by decide, ?_⟩
  intro buf b
  simp [jb_fnv1a, List.foldl_append]

/-! ## The path helpers of `jbase` -/

theorem strrchr_none_of_not_mem (l : List Nat) (c : Nat) (h : c ∉ l) : strrchr l c = none := by
  induction l with
  | nil => rfl
  | cons x xs ih =>
    rw [List.mem_cons, not_or] at h
    have hx : ¬ x = c := fun e => h.1 e.symm
    simp [strrchr, ih h.2, hx]

theorem strrchr_append (d name : List Nat) (c : Nat) (h : c ∉ name) :
    strrchr (d ++ c :: name) c = some (c :: name) := by
  induction d with
  | nil => simp [strrchr, strrchr_none_of_not_mem name c h]
  | cons x xs ih => simp [strrchr, ih]

/-- What `jb_basename` leaves in `out` for a path with a `/`: the first `size - len`
bytes of the text after the last `/`, where `len` is the length of that text. -/
theorem jb_basename_slash (d name : List Nat) (size : Nat) (h : 47 ∉ name) :
    jb_basename (d ++ 47 :: name) size =
      if name.length > size then (ENAMETOOLONG, [])
      else (0, name.take (size - name.length)) := by
  simp [jb_basename, strrchr_append d name 47 h]

/-- C34 (jb_basename returns the final component) fails for a path with a `/`: the copy
`strncpy(out, last + 1, size - len)` is cut after `size - len` bytes, so the whole text
after the last `/` arrives only when it is at most half the buffer. For `/abc` and a
buffer of 4 bytes the output is `a`; with `NAME_MAX`, as in `process`, a name of 128
bytes arrives as its first 127 bytes, and a name of 255 bytes as the empty string. The
call returns 0 in each case. A path without `/` is copied whole. -/
theorem basename_truncates :
    jb_basename (bytes "/abc") 4 = (0, bytes "a") ∧
    jb_basename (bytes "/nb" ++ 47 :: List.replicate 128 97) NAME_MAX =
      (0, List.replicate 127 97) ∧
    jb_basename (bytes "/nb" ++ 47 :: List.replicate 255 97) NAME_MAX = (0, []) ∧
    jb_basename (bytes "abc") 4 = (0, bytes "abc") ∧
    (∀ (d name : List Nat) (size : Nat), 47 ∉ name → name.length ≤ size →
      jb_basename (d ++ 47 :: name) size = (0, name.take (size - name.length))) ∧
    (∀ (d name : List Nat) (size : Nat), 47 ∉ name → 2 * name.length ≤ size →
      jb_basename (d ++ 47 :: name) size = (0, name)) ∧
    (∀ (path : List Nat) (size : Nat), 47 ∉ path → path.length ≤ size →
      jb_basename path size = (0, path)) ∧
    (∀ (d name : List Nat) (size : Nat), 47 ∉ name →
      ((jb_basename (d ++ 47 :: name) size).1 = ENAMETOOLONG ↔ name.length > size)) := by
  have hrep : ∀ n : Nat, 47 ∉ List.replicate n 97 := by
    intro n hm
    have := List.eq_of_mem_replicate hm
    omega
  refine ⟨by decide, ?_, ?_, by decide, ?_, ?_, ?_, ?_⟩
  · rw [jb_basename_slash _ _ _ (hrep 128), List.length_replicate, List.take_replicate]
    rfl
  · rw [jb_basename_slash _ _ _ (hrep 255), List.length_replicate, List.take_replicate]
    rfl
  · intro d name size h hle
    rw [jb_basename_slash d name size h, if_neg (by omega)]
  · intro d name size h hle
    rw [jb_basename_slash d name size h, if_neg (by omega), List.take_of_length_le (by omega)]
  · intro path size h hle
    simp [jb_basename, strrchr_none_of_not_mem path 47 h, Nat.not_lt.2 hle]
  · intro d name size h
    rw [jb_basename_slash d name size h]
    by_cases hc : name.length > size
    · simp [hc]
    · simp [hc, ENAMETOOLONG]

theorem over_path_length : over_path.length = 4097 := by
  unfold over_path; exact List.length_replicate _ _

theorem edge_path_length : edge_path.length = 4095 := by
  unfold edge_path; exact List.length_replicate _ _

/-- The error number of `jb_path_cat`: `ENAMETOOLONG` exactly when the capped lengths add
up to more than `PATH_MAX`. -/
theorem jb_path_cat_err (p1 p2 : List Nat) :
    (jb_path_cat p1 p2).1 =
      if min p1.length PATH_MAX + min p2.length PATH_MAX > PATH_MAX then ENAMETOOLONG else 0 := by
  unfold jb_path_cat
  dsimp only
  split <;> rfl

/-- What `jb_path_cat` writes when both strings are within `PATH_MAX` and their lengths
add up to at most `PATH_MAX`. -/
theorem jb_path_cat_fits (p1 p2 : List Nat) (h : p1.length + p2.length ≤ PATH_MAX) :
    jb_path_cat p1 p2 =
      (0, if p1.getLast? = some 47 then p1 ++ p2 else p1 ++ [47] ++ p2) := by
  have h1 : min p1.length PATH_MAX = p1.length := Nat.min_eq_left (by omega)
  have h2 : min p2.length PATH_MAX = p2.length := Nat.min_eq_left (by omega)
  unfold jb_path_cat
  simp only [h1, h2, List.take_length]
  rw [if_neg (by omega)]
  by_cases hc : p1.getLast? = some 47
  · simp [hc]
  · simp [hc]

/-- C35 as stated fails for a first string longer than `PATH_MAX` and an empty second
one: `strnlen` caps the length at `PATH_MAX`, the test `l1 + l2 > PATH_MAX` does not
fire, and the call returns 0 although the lengths add up to `PATH_MAX + 1`. -/
theorem path_cat_joins_counterexample :
    over_path ≠ [] ∧ over_path.length + ([] : List Nat).length > PATH_MAX ∧
    (jb_path_cat over_path []).1 = 0 ∧ (jb_path_cat over_path []).1 ≠ ENAMETOOLONG := by
  have h1 : (jb_path_cat over_path []).1 = 0 := by
    rw [jb_path_cat_err, over_path_length]
    decide
  refine ⟨?_, ?_, h1, ?_⟩
  · intro h
    have := over_path_length
    rw [h] at this
    cases this
  · rw [over_path_length]
    decide
  · rw [h1]
    decide

/-- C35 (amended): for every non-empty `p1` of at most `PATH_MAX` bytes and every `p2`,
`jb_path_cat` fails with `ENAMETOOLONG` exactly when the lengths add up to more than
`PATH_MAX`, and otherwise returns 0 and writes `p1 ++ p2` when `p1` ends in `/`, and
`p1`, a `/` and `p2` when it does not. -/
theorem path_cat_joins (p1 p2 : List Nat) (hne : p1 ≠ []) (hlen : p1.length ≤ PATH_MAX) :
    ((jb_path_cat p1 p2).1 = ENAMETOOLONG ↔ p1.length + p2.length > PATH_MAX) ∧
    (p1.length + p2.length ≤ PATH_MAX →
      jb_path_cat p1 p2 =
        (0, if p1.getLast? = some 47 then p1 ++ p2 else p1 ++ [47] ++ p2)) := by
  refine ⟨?_, jb_path_cat_fits p1 p2⟩
  have hpos : 0 < p1.length := List.length_pos.2 hne
  rw [jb_path_cat_err, Nat.min_eq_left hlen]
  by_cases h2 : p2.length ≤ PATH_MAX
  · rw [Nat.min_eq_left h2]
    by_cases hc : p1.length + p2.length > PATH_MAX
    · simp [hc]
    · simp [hc, ENAMETOOLONG]
  · have h3 : min p2.length PATH_MAX = PATH_MAX := Nat.min_eq_right (by omega)
    rw [h3, if_pos (by omega)]
    simp only [true_iff]
    omega

theorem path_cat_joins_witness :
    bytes "/nb" ≠ [] ∧ (bytes "/nb").length ≤ PATH_MAX ∧
    jb_path_cat (bytes "/nb") (bytes "a") = (0, bytes "/nb/a") ∧
    jb_path_cat (bytes "/nb/") (bytes "a") = (0, bytes "/nb/a") ∧
    (((jb_path_cat (bytes "/nb") (bytes "a")).1 = ENAMETOOLONG ↔
        (bytes "/nb").length + (bytes "a").length > PATH_MAX) ∧
     ((bytes "/nb").length + (bytes "a").length ≤ PATH_MAX →
      jb_path_cat (bytes "/nb") (bytes "a") =
        (0, if (bytes "/nb").getLast? = some 47 then bytes "/nb" ++ bytes "a"
            else bytes "/nb" ++ [47] ++ bytes "a"))) :=
  ⟨by decide, by decide, by decide, by decide,
   path_cat_joins (bytes "/nb") (bytes "a") (by decide) (by decide)⟩

/-- C36 (jb_path_cat respects the path limit) fails: the test `l1 + l2 > PATH_MAX` leaves
out the `/` the function adds. For a first string of `PATH_MAX - 1` bytes that does not
end in `/` and a second of one byte the call returns 0 and writes `PATH_MAX + 1` bytes,
which fill the buffer of `PATH_MAX + 1` bytes and leave no room for the zero byte. In
general a call that returns 0 writes at most `PATH_MAX + 1` bytes, and exactly that many
whenever the capped lengths add up to `PATH_MAX` and `p1` does not end in `/`. -/
theorem path_cat_exceeds_limit :
    edge_path.length = PATH_MAX - 1 ∧
    (jb_path_cat edge_path (bytes "b")).1 = 0 ∧
    (jb_path_cat edge_path (bytes "b")).2 = edge_path ++ bytes "/b" ∧
    (jb_path_cat edge_path (bytes "b")).2.length = PATH_MAX + 1 ∧
    (∀ p1 p2 : List Nat, p1.length + p2.length = PATH_MAX → p1.getLast? ≠ some 47 →
      (jb_path_cat p1 p2).1 = 0 ∧ (jb_path_cat p1 p2).2.length = PATH_MAX + 1) ∧
    (∀ p1 p2 : List Nat, (jb_path_cat p1 p2).1 = 0 →
      (jb_path_cat p1 p2).2.length ≤ PATH_MAX + 1) := by
  have hlast : edge_path.getLast? ≠ some 47 := by
    intro h
    have hm : (47 : Nat) ∈ edge_path := List.mem_of_getLast?_eq_some h
    have := List.eq_of_mem_replicate hm
    omega
  have hgen : ∀ p1 p2 : List Nat, p1.length + p2.length = PATH_MAX → p1.getLast? ≠ some 47 →
      jb_path_cat p1 p2 = (0, p1 ++ [47] ++ p2) := by
    intro p1 p2 hsum hl
    rw [jb_path_cat_fits p1 p2 (by omega), if_neg hl]
  have he := hgen edge_path (bytes "b") (by rw [edge_path_length]; decide) hlast
  refine ⟨by rw [edge_path_length]; decide, by rw [he], ?_, ?_, ?_, ?_⟩
  · rw [he]
    simp only [List.append_assoc, List.singleton_append]
    rfl
  · rw [he]
    simp only [List.length_append, edge_path_length]
    decide
  · intro p1 p2 hsum hl
    rw [hgen p1 p2 hsum hl]
    refine ⟨rfl, ?_⟩
    simp only [List.length_append, List.length_singleton]
    omega
  · intro p1 p2 h0
    unfold jb_path_cat at h0 ⊢
    dsimp only at h0 ⊢
    by_cases hc : min p1.length PATH_MAX + min p2.length PATH_MAX > PATH_MAX
    · rw [if_pos hc] at h0
      simp [ENAMETOOLONG] at h0
    · rw [if_neg hc]
      simp only [List.length_append, List.length_take]
      have : (if ((List.take (min p1.length PATH_MAX) p1).getLast? != some 47) = true
          then [47] else ([] : List Nat)).length ≤ 1 := by
        split <;> simp
      have e1 : min (min p1.length PATH_MAX) p1.length = min p1.length PATH_MAX := by omega
      have e2 : min (min p2.length PATH_MAX) p2.length = min p2.length PATH_MAX := by omega
      omega

/-! ## Making the parent directories -/

/-- One `sscanf` call on white space and a run of letters that ends before `rest`: it
reads the first 31 letters of the run, or the whole run when it is shorter. -/
theorem sscanf_tag_run (ws run rest : List Nat) (hws : ∀ c ∈ ws, isspace c = true)
    (hrun : ∀ c ∈ run, 97 ≤ c ∧ c ≤ 122) (hne : run ≠ [])
    (hrest : ∀ c ∈ rest.head?, ¬ (97 ≤ c ∧ c ≤ 122)) :
    sscanf_tag (ws ++ run ++ rest) = some (run.take 31, ws.length + (run.take 31).length) := by
  have hc : cstr (ws ++ run ++ rest) = ws ++ (run ++ cstr rest) := by
    unfold cstr
    rw [List.append_assoc, List.takeWhile_append_of_pos, List.takeWhile_append_of_pos]
    · intro c hc
      have := hrun c hc
      simp only [bne_iff_ne, ne_eq]
      omega
    · intro c hc
      simpa using isspace_ne_zero (hws c hc)
  have h1 : List.takeWhile isspace (ws ++ (run ++ cstr rest)) = ws := by
    rw [List.takeWhile_append_of_pos hws]
    cases run with
    | nil => exact absurd rfl hne
    | cons c r =>
      have := lower_not_space (hrun c (List.mem_cons_self _ _))
      simp [List.takeWhile_cons, this]
  have h2 : List.takeWhile (fun c => decide (97 ≤ c) && decide (c ≤ 122)) (run ++ cstr rest) =
      run := by
    rw [List.takeWhile_append_of_pos]
    · cases rest with
      | nil => simp [cstr]
      | cons c r =>
        have hnl := hrest c (by simp)
        by_cases hz : c = 0
        · simp [cstr, hz]
        · have hl : (decide (97 ≤ c) && decide (c ≤ 122)) = false := by
            simp only [Bool.and_eq_false_imp, decide_eq_true_eq, decide_eq_false_iff_not]
            intro h1 h2
            exact hnl ⟨h1, h2⟩
          simp [cstr, List.takeWhile_cons, hz, hl]
    · intro c hc
      have := hrun c hc
      simp [this.1, this.2]
  unfold sscanf_tag
  simp only [hc, h1, List.drop_left, h2]
  cases run with
  | nil => exact absurd rfl hne
  | cons c r => simp

theorem link_all_cons (db : db_t) (name t : List Nat) (ts : List (List Nat)) :
    link_all db name (t :: ts) = link_all (db_tag_note db name t) name ts := rfl

/-- The tag loop on a run of letters makes one `db_tag_note` call per piece of the
run, and goes on with what follows the run. -/
theorem tag_loop_run (name rest : List Nat) (fuel : Nat)
    (hrest : ∀ c ∈ rest.head?, ¬ (97 ≤ c ∧ c ≤ 122)) :
    ∀ (k : Nat) (run ws : List Nat) (db : db_t), run.length ≤ k → (run = [] → ws = []) →
      (∀ c ∈ ws, isspace c = true) → (∀ c ∈ run, 97 ≤ c ∧ c ≤ 122) →
      tag_loop (fuel + (chunks31 k run).length) db name (ws ++ run ++ rest) =
        tag_loop fuel (link_all db name (chunks31 k run)) name rest := by
  intro k
  induction k with
  | zero =>
    intro run ws db hk hws _ _
    have hr : run = [] := List.length_eq_zero.1 (Nat.le_zero.1 hk)
    subst hr
    rw [hws rfl]
    rfl
  | succ k ih =>
    intro run ws db hk hwsnil hws hrun
    by_cases hr : run = []
    · subst hr
      rw [hwsnil rfl]
      rfl
    · have hemp : run.isEmpty = false := by
        cases run with
        | nil => exact absurd rfl hr
        | cons c r => rfl
      have hch : chunks31 (k + 1) run = run.take 31 :: chunks31 k (run.drop 31) := by
        simp [chunks31, hemp]
      have hpos : 0 < run.length := List.length_pos.2 hr
      have hdrop : List.drop (ws.length + (run.take 31).length) (ws ++ run ++ rest) =
          [] ++ run.drop 31 ++ rest := by
        rw [List.append_assoc, List.drop_append, List.nil_append,
          List.drop_append_of_le_length (by rw [List.length_take]; exact Nat.min_le_right _ _),
          List.length_take]
        congr 1
        by_cases h31 : 31 ≤ run.length
        · rw [Nat.min_eq_left h31]
        · rw [Nat.min_eq_right (by omega), List.drop_length, List.drop_of_length_le (by omega)]
      rw [hch, List.length_cons, ← Nat.add_assoc, link_all_cons]
      simp only [tag_loop, sscanf_tag_run ws run rest hws hrun hr hrest, hdrop]
      exact ih (run.drop 31) [] _ (by rw [List.length_drop]; omega) (fun _ => rfl)
        (by simp) (fun c hc => hrun c (List.mem_of_mem_drop hc))

/-- The pieces of a run: together they are the run, none is empty or longer than 31,
every piece before the last has 31 letters, and there are `⌈length / 31⌉` of them. -/
theorem chunks31_spec : ∀ (k : Nat) (run : List Nat), run.length ≤ k →
    (chunks31 k run).flatten = run ∧
    (∀ c ∈ chunks31 k run, c ≠ [] ∧ c.length ≤ 31) ∧
    (∀ c ∈ (chunks31 k run).dropLast, c.length = 31) ∧
    (chunks31 k run).length = (run.length + 30) / 31 := by
  intro k
  induction k with
  | zero =>
    intro run hk
    have hr : run = [] := List.length_eq_zero.1 (Nat.le_zero.1 hk)
    subst hr
    simp [chunks31]
  | succ k ih =>
    intro run hk
    by_cases hr : run = []
    · subst hr
      simp [chunks31]
    · have hemp : run.isEmpty = false := by
        cases run with
        | nil => exact absurd rfl hr
        | cons c r => rfl
      have hch : chunks31 (k + 1) run = run.take 31 :: chunks31 k (run.drop 31) := by
        simp [chunks31, hemp]
      have hpos : 0 < run.length := List.length_pos.2 hr
      obtain ⟨i1, i2, i3, i4⟩ := ih (run.drop 31) (by rw [List.length_drop]; omega)
      rw [hch]
      refine ⟨?_, ?_, ?_, ?_⟩
      · rw [List.flatten_cons, i1, List.take_append_drop]
      · intro c hc
        rcases List.mem_cons.1 hc with rfl | hc
        · refine ⟨?_, ?_⟩
          · intro h
            have := congrArg List.length h
            rw [List.length_take] at this
            simp only [List.length_nil] at this
            omega
          · rw [List.length_take]
            exact Nat.min_le_left _ _
        · exact i2 c hc
      · intro c hc
        by_cases hnil : chunks31 k (run.drop 31) = []
        · rw [hnil] at hc
          simp at hc
        · rw [List.dropLast_cons_of_ne_nil hnil] at hc
          rcases List.mem_cons.1 hc with rfl | hc
          · have hlen : (chunks31 k (run.drop 31)).length ≠ 0 := by
              intro h0
              exact hnil (List.length_eq_zero.1 h0)
            rw [i4, List.length_drop] at hlen
            rw [List.length_take]
            omega
          · exact i3 c hc
      · rw [List.length_cons, i4, List.length_drop]
        omega

/-- C31 (over-long tokens are split, and parsing terminates): on every header the tag
loop of `process` ends within the iterations `process` allows it; and a run of lowercase
letters, after any white space and before a byte that is no lowercase letter, is handed
to `db_tag_note` in pieces of 31 letters, the last piece holding the letters that remain
(40 letters give a piece of 31 and one of 9), never as one tag of more than 31 letters. -/
theorem long_tokens_split :
    (∀ (db : db_t) (name hdr : List Nat),
      ∃ db2, tag_loop (hdr.length + 1) db name hdr = some db2) ∧
    (∀ (ws run rest name : List Nat) (fuel : Nat) (db : db_t),
      (∀ c ∈ ws, isspace c = true) → (∀ c ∈ run, 97 ≤ c ∧ c ≤ 122) → run ≠ [] →
      (∀ c ∈ rest.head?, ¬ (97 ≤ c ∧ c ≤ 122)) →
      tag_loop (fuel + (chunks31 run.length run).length) db name (ws ++ run ++ rest) =
        tag_loop fuel (link_all db name (chunks31 run.length run)) name rest) ∧
    (∀ run : List Nat,
      (chunks31 run.length run).flatten = run ∧
      (∀ c ∈ chunks31 run.length run, c ≠ [] ∧ c.length ≤ 31) ∧
      (∀ c ∈ (chunks31 run.length run).dropLast, c.length = 31) ∧
      (chunks31 run.length run).length = (run.length + 30) / 31) ∧
    (∀ (hdr tag_buf : List Nat) (n : Nat), sscanf_tag hdr = some (tag_buf, n) →
      tag_buf.length ≤ 31) ∧
    (chunks31 40 (List.replicate 40 97)).map List.length = [31, 9] ∧
    (chunks31 62 (List.replicate 62 97)).map List.length = [31, 31] ∧
    ((process (fun p => if p = bytes "a"
          then some (bytes "adrus " ++ List.replicate 40 97 ++ bytes " b\nBODY") else none)
        false (db_empty (bytes "/nb")) (bytes "/nb/a") ⟨0, 0⟩).bind
      (fun r => (db_get_note r.1 (bytes "/a")).map
        (fun n => n.tags.map (fun t => (tag_name r.1 t).length)))) = some [31, 9, 1] := by
  refine ⟨fun db name hdr => tag_loop_total _ db name hdr (Nat.lt_succ_self _), ?_,
    fun run => chunks31_spec run.length run (Nat.le_refl _),
    fun hdr tag_buf n h => (sscanf_tag_lower h).2.1, by decide, by decide, by decide⟩
  intro ws run rest name fuel db hws hrun hne hrest
  exact tag_loop_run name rest fuel hrest run.length run ws db (Nat.le_refl _)
    (fun h => absurd h hne) hws hrun

/-! ## The collector leaves the regular files alone -/

theorem file_paths_append (a b : List fs_node) :
    file_paths (a ++ b) = file_paths a ++ file_paths b := by
  induction a with
  | nil => simp [file_paths]
  | cons x xs ih => simp [file_paths, ih]

theorem file_dirs_append (a b : List fs_node) :
    file_dirs (a ++ b) = file_dirs a ++ file_dirs b := by
  induction a with
  | nil => simp [file_dirs]
  | cons x xs ih => simp [file_dirs, ih]

mutual
theorem file_paths_node_nil : ∀ (ent : fs_node), has_file_node ent = false →
    file_paths_node ent = []
  | .file n, h => by simp [has_file_node] at h
  | .other n, _ => rfl
  | .dir n sub, h => by
    simp only [has_file_node] at h
    simp [file_paths_node, file_paths_nil sub h]
theorem file_paths_nil : ∀ (entries : List fs_node), has_file entries = false →
    file_paths entries = []
  | [], _ => rfl
  | ent :: rest, h => by
    simp only [has_file, Bool.or_eq_false_iff] at h
    simp [file_paths, file_paths_node_nil ent h.1, file_paths_nil rest h.2]
end

theorem file_dirs_nil (entries : List fs_node) (h : has_file entries = false) :
    file_dirs entries = [] := by
  induction entries with
  | nil => rfl
  | cons ent rest ih =>
    simp only [has_file, Bool.or_eq_false_iff] at h
    cases ent with
    | file n => simp [has_file_node] at h
    | other n => simp [file_dirs, file_dirs_node, ih h.2]
    | dir n sub =>
      simp only [has_file_node] at h
      simp [file_dirs, file_dirs_node, h.1, ih h.2]

mutual
/-- What a visit leaves of an entry holds the same regular files, and the same
directories with a regular file below them, as the entry. -/
theorem visit_entry_files (path : List Nat) :
    ∀ (ent : fs_node) (e : Bool),
      file_paths (visit_entry path ent e).2.toList = file_paths_node ent ∧
      file_dirs (visit_entry path ent e).2.toList = file_dirs_node ent
  | .file n, e => by simp [visit_entry, file_paths, file_dirs]
  | .other n, e => by simp [visit_entry, file_paths, file_dirs]
  | .dir n sub, e => by
    by_cases hcat : (jb_path_cat path n).1 = 0
    · have ih := readdir_loop_files (jb_path_cat path n).2 sub true
      have hf := readdir_loop_has_file (jb_path_cat path n).2 sub true
      rcases hr : readdir_loop (jb_path_cat path n).2 sub true with ⟨r, l⟩
      rw [hr] at ih hf
      simp only at ih hf
      cases r with
      | error err =>
        rw [visit_entry_dir_error path n sub e hcat hr]
        simp [file_paths, file_dirs, file_paths_node, file_dirs_node, ih.1, ih.2, hf]
      | ok em =>
        rw [visit_entry_dir_ok path n sub e hcat hr]
        have hem := readdir_loop_reports _ sub true em l hr
        by_cases hc : (em && l.isEmpty) = true
        · rw [if_pos hc]
          simp only [Bool.and_eq_true] at hc
          have hno : has_file sub = false := by
            rw [hc.1] at hem
            simpa using hem
          simp [file_paths, file_dirs, file_paths_node, file_dirs_node, hno,
            file_paths_nil sub hno]
        · rw [if_neg hc]
          simp [file_paths, file_dirs, file_paths_node, file_dirs_node, ih.1, ih.2, hf]
    · rw [visit_entry_dir_cat path n sub e hcat]
      simp [file_paths, file_dirs]
theorem readdir_loop_files (path : List Nat) :
    ∀ (entries : List fs_node) (e : Bool),
      file_paths (readdir_loop path entries e).2 = file_paths entries ∧
      file_dirs (readdir_loop path entries e).2 = file_dirs entries
  | [], e => by simp [readdir_loop]
  | ent :: rest, e => by
    have ih1 := visit_entry_files path ent e
    rcases hv : visit_entry path ent e with ⟨r, l⟩
    rw [hv] at ih1
    simp only at ih1
    cases r with
    | error err =>
      simp only [readdir_loop, hv, file_paths_append, file_dirs_append, file_paths, file_dirs]
      rw [ih1.1, ih1.2]
      exact ⟨rfl, rfl⟩
    | ok e2 =>
      have ih2 := readdir_loop_files path rest e2
      simp only [readdir_loop, hv, file_paths_append, file_dirs_append, file_paths, file_dirs]
      rw [ih1.1, ih1.2, ih2.1, ih2.2]
      exact ⟨rfl, rfl⟩
end

/-- C32 (the collector never touches files): for every directory tree, with or without
an error on the way, what a run of `delete_empty` leaves holds the same regular files
under the same paths as before, and the same directories with a regular file in their
subtree; a directory that holds a regular file somewhere below it is itself left in
place. -/
theorem collector_keeps_files (path : List Nat) (entries : List fs_node) :
    file_paths ((delete_empty path entries).2.getD []) = file_paths entries ∧
    file_dirs ((delete_empty path entries).2.getD []) = file_dirs entries ∧
    (has_file entries = true → (delete_empty path entries).2.isSome = true) ∧
    (file_paths [.dir (bytes "e") [], .dir (bytes "d") [.file (bytes "n"),
        .dir (bytes "x") [.dir (bytes "y") []], .dir (bytes "z") [.file (bytes "m")]],
        .file (bytes "r")] =
      [[bytes "d", bytes "n"], [bytes "d", bytes "z", bytes "m"], [bytes "r"]] ∧
     file_paths ((delete_empty (bytes "/nb")
        [.dir (bytes "e") [], .dir (bytes "d") [.file (bytes "n"),
        .dir (bytes "x") [.dir (bytes "y") []], .dir (bytes "z") [.file (bytes "m")]],
        .file (bytes "r")]).2.getD []) =
      [[bytes "d", bytes "n"], [bytes "d", bytes "z", bytes "m"], [bytes "r"]] ∧
     file_dirs ((delete_empty (bytes "/nb")
        [.dir (bytes "e") [], .dir (bytes "d") [.file (bytes "n"),
        .dir (bytes "x") [.dir (bytes "y") []], .dir (bytes "z") [.file (bytes "m")]],
        .file (bytes "r")]).2.getD []) = [[bytes "d"], [bytes "d", bytes "z"]]) := by
  have hf := readdir_loop_files path entries true
  have hh := readdir_loop_has_file path entries true
  refine ⟨?_, ?_, ?_, by decide, by decide, by decide⟩
  all_goals
    unfold delete_empty
    rcases hr : readdir_loop path entries true with ⟨r, l⟩
    rw [hr] at hf hh
    simp only at hf hh
    have hem : ∀ em, r = .ok em → em = !has_file entries := by
      intro em he
      subst he
      simpa using readdir_loop_reports _ entries true em l hr
    cases r with
    | error err => simp [rmdir_step, hf.1, hf.2]
    | ok em =>
      have hem2 := hem em rfl
      by_cases hc : (em && l.isEmpty) = true
      · simp only [Bool.and_eq_true] at hc
        have hno : has_file entries = false := by
          rw [hc.1] at hem2
          simpa using hem2.symm
        simp [rmdir_step, hc.1, hc.2, hno, file_paths_nil entries hno,
          file_dirs_nil entries hno, file_paths, file_dirs]
      · simp only [rmdir_step]
        rw [if_neg hc]
        simp [hf.1, hf.2]

/-! ## Parsing the command line -/

theorem args_at_some {A : List (List Nat)} {ptr : Nat} {a : List Nat}
    (h : A.get? ptr = some a) :
    args_end ⟨A, ptr⟩ = false ∧ A.getD ptr [] = a ∧ ptr < A.length := by
  have hlt : ptr < A.length := by
    by_contra hge
    rw [List.get?_eq_none.2 (Nat.le_of_not_lt hge)] at h
    cases h
  refine ⟨?_, ?_, hlt⟩
  · simp only [args_end, ge_iff_le, decide_eq_false_iff_not, not_le]
    exact hlt
  · rw [List.getD_eq_getElem?_getD, ← List.get?_eq_getElem?, h]
    rfl

theorem args_at_none {A : List (List Nat)} {ptr : Nat} (h : A.get? ptr = none) :
    args_end ⟨A, ptr⟩ = true := by
  simp only [args_end, ge_iff_le, decide_eq_true_eq]
  exact List.get?_eq_none.1 h

theorem head_eq_iff (a : List Nat) (c : Nat) (hc : c ≠ 0) :
    a.headD 0 = c ↔ a.head? = some c := by
  cases a with
  | nil => simp [hc.symm]
  | cons x xs => simp

theorem take_path_some {A : List (List Nat)} {ptr : Nat} {a : List Nat}
    (h : A.get? ptr = some a) (hs : a.head? = some 47) :
    take_path ⟨A, ptr⟩ = some (a.take PATH_MAX, ⟨A, ptr + 1⟩) := by
  obtain ⟨h1, h2, _⟩ := args_at_some h
  have h3 : a.headD 0 = 47 := (head_eq_iff a 47 (by decide)).2 hs
  unfold take_path take
  simp only [h1, Bool.false_eq_true, if_false, h2, h3, ne_eq, not_true_eq_false]

theorem take_path_none {A : List (List Nat)} {ptr : Nat}
    (h : ∀ a, A.get? ptr = some a → a.head? ≠ some 47) : take_path ⟨A, ptr⟩ = none := by
  cases hg : A.get? ptr with
  | none => simp [take_path, args_at_none hg]
  | some a =>
    obtain ⟨h1, h2, _⟩ := args_at_some hg
    have h3 : ¬ a.headD 0 = 47 := fun e => h a hg ((head_eq_iff a 47 (by decide)).1 e)
    unfold take_path
    simp only [h1, Bool.false_eq_true, if_false, h2, h3, ne_eq, not_false_eq_true, if_true]

theorem take_tag_none_of {A : List (List Nat)} {ptr : Nat} (db : db_t)
    (h : (A.drop ptr).takeWhile is_tag_arg = []) : take_tag ⟨A, ptr⟩ db = none := by
  by_cases hlt : ptr < A.length
  · rw [List.drop_eq_getElem_cons hlt] at h
    have hg : A.get? ptr = some A[ptr] := by
      rw [List.get?_eq_getElem?, List.getElem?_eq_getElem hlt]
    obtain ⟨h1, h2, _⟩ := args_at_some hg
    have hnot : is_tag_arg A[ptr] = false := by
      cases hv : is_tag_arg A[ptr] with
      | false => rfl
      | true =>
        rw [List.takeWhile_cons, hv, if_pos rfl] at h
        cases h
    unfold take_tag
    rw [h1, h2]
    cases ha : A[ptr] with
    | nil => rfl
    | cons c nm =>
      rw [ha] at hnot
      simp only [is_tag_arg, List.head?_cons, Bool.or_eq_false_iff, beq_eq_false_iff_ne, ne_eq,
        Option.some.injEq] at hnot
      simp [hnot.1, hnot.2]
  · exact take_tag_end A ptr db (Nat.le_of_not_lt hlt)

theorem resolve_tags_length (run : List (List Nat)) :
    ∀ db, (resolve_tags db run).2.length = run.length ∧
      (resolve_tags db run).2.map db_tag_t.sign = run.map (fun a => a.head? == some 43) := by
  induction run with
  | nil => intro db; exact ⟨rfl, rfl⟩
  | cons a rest ih =>
    intro db
    have := ih (db_def_tag db a.tail).1
    simp [resolve_tags, this.1, this.2]

/-- The filter loop consumes the run of tag arguments at the head of the stream and
builds one entry per argument, in order; it turns `CMD_OPEN` into `CMD_MODIFY` when the
run is not empty. -/
theorem take_tags_resolve (A : List (List Nat)) :
    ∀ (run : List (List Nat)) (ptr : Nat) (db : db_t) (cmd : cmd_t) (buf : List db_tag_t)
      (fuel : Nat), (A.drop ptr).takeWhile is_tag_arg = run → run.length < fuel →
      take_tags fuel ⟨A, ptr⟩ db cmd buf =
        some (⟨A, ptr + run.length⟩, (resolve_tags db run).1,
          (if run = [] then cmd else if cmd = cmd_t.CMD_OPEN then cmd_t.CMD_MODIFY else cmd),
          buf ++ (resolve_tags db run).2) := by
  intro run
  induction run with
  | nil =>
    intro ptr db cmd buf fuel hrun hfuel
    cases fuel with
    | zero => simp at hfuel
    | succ fuel =>
      simp [take_tags, take_tag_none_of db hrun, resolve_tags]
  | cons a run ih =>
    intro ptr db cmd buf fuel hrun hfuel
    cases fuel with
    | zero => simp at hfuel
    | succ fuel =>
      have hlt : ptr < A.length := by
        by_contra hge
        rw [List.drop_eq_nil_iff.2 (Nat.le_of_not_lt hge)] at hrun
        cases hrun
      rw [List.drop_eq_getElem_cons hlt] at hrun
      have htag : is_tag_arg A[ptr] = true := by
        cases hv : is_tag_arg A[ptr] with
        | true => rfl
        | false =>
          rw [List.takeWhile_cons, hv] at hrun
          cases hrun
      rw [List.takeWhile_cons, htag, if_pos rfl] at hrun
      have ha : A[ptr] = a := (List.cons.inj hrun).1
      have hrest : (A.drop (ptr + 1)).takeWhile is_tag_arg = run := (List.cons.inj hrun).2
      rw [ha] at htag
      cases a with
      | nil => simp [is_tag_arg] at htag
      | cons c nm =>
        have hc : c = 43 ∨ c = 45 := by
          simpa [is_tag_arg] using htag
        have hget : A.get? ptr = some (c :: nm) := by
          rw [List.get?_eq_getElem?, List.getElem?_eq_getElem hlt, ha]
        have hstep := ih (ptr + 1) (db_def_tag db nm).1
          (if cmd = cmd_t.CMD_OPEN then cmd_t.CMD_MODIFY else cmd)
          (buf ++ [⟨decide (c = 43), (db_def_tag db nm).2⟩]) fuel hrest (by simpa using hfuel)
        simp only [take_tags, take_tag_some A ptr db c nm hget hc]
        rw [hstep]
        have hcmd : (if run = [] then (if cmd = cmd_t.CMD_OPEN then cmd_t.CMD_MODIFY else cmd)
            else if (if cmd = cmd_t.CMD_OPEN then cmd_t.CMD_MODIFY else cmd) = cmd_t.CMD_OPEN
              then cmd_t.CMD_MODIFY
              else (if cmd = cmd_t.CMD_OPEN then cmd_t.CMD_MODIFY else cmd)) =
            (if cmd = cmd_t.CMD_OPEN then cmd_t.CMD_MODIFY else cmd) := by
          by_cases h1 : run = []
          · rw [if_pos h1]
          · rw [if_neg h1]
            by_cases h2 : cmd = cmd_t.CMD_OPEN
            · simp [h2]
            · simp [h2]
        rw [hcmd]
        have hd : decide (c = 43) = (c == 43) := by
          by_cases h43 : c = 43
          · simp [h43]
          · simp [h43]
        simp [resolve_tags, Nat.add_assoc, Nat.add_comm 1, hd]

theorem parse_tags_eq (A : List (List Nat)) (ptr : Nat) (db : db_t) (cmd : cmd_t)
    (path : List Nat) :
    parse_tags ⟨A, ptr⟩ db cmd path =
      some (JB_OK_VAL,
        { cmd := if (A.drop ptr).takeWhile is_tag_arg = [] then cmd
                 else if cmd = cmd_t.CMD_OPEN then cmd_t.CMD_MODIFY else cmd,
          path := path,
          tags := (resolve_tags db ((A.drop ptr).takeWhile is_tag_arg)).2,
          len := ((A.drop ptr).takeWhile is_tag_arg).length },
        (resolve_tags db ((A.drop ptr).takeWhile is_tag_arg)).1) := by
  have hlen : ((A.drop ptr).takeWhile is_tag_arg).length < A.length + 1 := by
    have h1 := (List.takeWhile_sublist is_tag_arg (l := A.drop ptr)).length_le
    rw [List.length_drop] at h1
    omega
  unfold parse_tags
  rw [take_tags_resolve A _ ptr db cmd [] (A.length + 1) rfl hlen]
  simp [(resolve_tags_length _ db).1]

theorem peek_some {A : List (List Nat)} {ptr : Nat} {a : List Nat}
    (h : A.get? ptr = some a) : peek ⟨A, ptr⟩ = some a := by
  unfold peek
  rw [(args_at_some h).1]
  exact h

theorem take_at_some {A : List (List Nat)} {ptr : Nat} {a : List Nat}
    (h : A.get? ptr = some a) : (take ⟨A, ptr⟩).2 = ⟨A, ptr + 1⟩ := by
  unfold take
  rw [(args_at_some h).1]
  rfl

/-- What `take_one_of` returns in `cmdline_parse`, by the first argument. -/
theorem take_one_of_cases (va : List one_of_t) (argv : List (List Nat)) :
    (argv.get? 1 = none →
      take_one_of ⟨argv, 1⟩
        ([{ str := some (bytes "rm"), val := cmd_t.CMD_RM },
          { str := some (bytes "ls"), val := cmd_t.CMD_LS }] ++ va) =
        some (cmd_t.CMD_QUERY, ⟨argv, 1⟩)) ∧
    (argv.get? 1 = some (bytes "rm") →
      take_one_of ⟨argv, 1⟩
        ([{ str := some (bytes "rm"), val := cmd_t.CMD_RM },
          { str := some (bytes "ls"), val := cmd_t.CMD_LS }] ++ va) =
        some (cmd_t.CMD_RM, ⟨argv, 2⟩)) ∧
    (argv.get? 1 = some (bytes "ls") →
      take_one_of ⟨argv, 1⟩
        ([{ str := some (bytes "rm"), val := cmd_t.CMD_RM },
          { str := some (bytes "ls"), val := cmd_t.CMD_LS }] ++ va) =
        some (cmd_t.CMD_LS, ⟨argv, 2⟩)) ∧
    (∀ a, argv.get? 1 = some a → a ≠ bytes "rm" → a ≠ bytes "ls" →
      take_one_of ⟨argv, 1⟩
        ([{ str := some (bytes "rm"), val := cmd_t.CMD_RM },
          { str := some (bytes "ls"), val := cmd_t.CMD_LS }] ++ va) =
        one_of_loop ⟨argv, 1⟩ a va) := by
  refine ⟨fun h => ?_, fun h => ?_, fun h => ?_, fun a h h1 h2 => ?_⟩
  · unfold take_one_of peek
    rw [args_at_none h]
    rfl
  · unfold take_one_of
    rw [peek_some h]
    simp only [List.cons_append, one_of_loop, if_true, take_at_some h]
  · unfold take_one_of
    rw [peek_some h]
    have hne : ¬ bytes "rm" = bytes "ls" := by decide
    simp only [List.cons_append, one_of_loop, hne, if_false, if_true, take_at_some h]
  · unfold take_one_of
    rw [peek_some h]
    have e1 : ¬ bytes "rm" = a := fun e => h1 e.symm
    have e2 : ¬ bytes "ls" = a := fun e => h2 e.symm
    simp only [List.cons_append, one_of_loop, e1, e2, if_false]
    rfl

/-- C33 (command classification) fails: the call of `take_one_of` in `cmdline_parse` passes
the items for `rm` and `ls` and no `LAST_OF`, so when the first argument is neither, the
loop reads an item that was never passed, and the call has no defined result: so it is
for `adrus /note` and for `adrus +x`; if the item read happens to name the argument, the
command is the one that item carries (here `CMD_LS`, and a usage error follows). What
does not depend on the missing item holds as claimed: without arguments the command is
`CMD_QUERY` with an empty filter; after `rm` or `ls` the command is `CMD_RM` or `CMD_LS`,
with a usage error unless the next argument starts with `/`. If the item read has a
`NULL` string, as `LAST_OF` has, the rest holds as well: `CMD_OPEN` for a first argument
that starts with `/` with no tag argument after it, `CMD_MODIFY` with at least one,
`CMD_QUERY` otherwise; and in every successful case the filter has one entry per tag
argument of the run that follows, in order. -/
theorem cmdline_classification :
    (cmdline_parse [] (db_empty (bytes "/nb")) [bytes "adrus", bytes "/note"]).isNone = true ∧
    (cmdline_parse [] (db_empty (bytes "/nb")) [bytes "adrus", bytes "+x"]).isNone = true ∧
    (cmdline_parse [{ str := some (bytes "/note"), val := cmd_t.CMD_LS }]
        (db_empty (bytes "/nb")) [bytes "adrus", bytes "/note"]).map
        (fun r => (r.1.kind, r.2.1.cmd)) = some (jb_err_t.JB_ERR_USER, cmd_t.CMD_LS) ∧
    (∀ (db : db_t) (argv : List (List Nat)) (a : List Nat), argv.get? 1 = some a →
      a ≠ bytes "rm" → a ≠ bytes "ls" → cmdline_parse [] db argv = none) ∧
    (∀ (va : List one_of_t) (db : db_t) (argv : List (List Nat)), argv.get? 1 = none →
      cmdline_parse va db argv =
        some (JB_OK_VAL, { cmd := cmd_t.CMD_QUERY, path := [], tags := [], len := 0 }, db)) ∧
    (∀ (va : List one_of_t) (db : db_t) (argv : List (List Nat)) (c : cmd_t),
      (argv.get? 1 = some (bytes "rm") ∧ c = cmd_t.CMD_RM) ∨
        (argv.get? 1 = some (bytes "ls") ∧ c = cmd_t.CMD_LS) →
      (∀ p, argv.get? 2 = some p → p.head? = some 47 →
        cmdline_parse va db argv =
          some (JB_OK_VAL,
            { cmd := c, path := p.take PATH_MAX,
              tags := (resolve_tags db ((argv.drop 3).takeWhile is_tag_arg)).2,
              len := ((argv.drop 3).takeWhile is_tag_arg).length },
            (resolve_tags db ((argv.drop 3).takeWhile is_tag_arg)).1)) ∧
      ((∀ p, argv.get? 2 = some p → p.head? ≠ some 47) →
        cmdline_parse va db argv =
          some (JB_ERR .JB_ERR_USER "usage: %s [PATH] +/-[TAG]...",
            { cmd := c, path := [], tags := [], len := 0 }, db))) ∧
    (∀ (rest : List one_of_t) (db : db_t) (argv : List (List Nat)) (a : List Nat),
      argv.get? 1 = some a → a ≠ bytes "rm" → a ≠ bytes "ls" →
      (a.head? = some 47 →
        cmdline_parse (LAST_OF :: rest) db argv =
          some (JB_OK_VAL,
            { cmd := if (argv.drop 2).takeWhile is_tag_arg = [] then cmd_t.CMD_OPEN
                     else cmd_t.CMD_MODIFY,
              path := a.take PATH_MAX,
              tags := (resolve_tags db ((argv.drop 2).takeWhile is_tag_arg)).2,
              len := ((argv.drop 2).takeWhile is_tag_arg).length },
            (resolve_tags db ((argv.drop 2).takeWhile is_tag_arg)).1)) ∧
      (a.head? ≠ some 47 →
        cmdline_parse (LAST_OF :: rest) db argv =
          some (JB_OK_VAL,
            { cmd := cmd_t.CMD_QUERY, path := [],
              tags := (resolve_tags db ((argv.drop 1).takeWhile is_tag_arg)).2,
              len := ((argv.drop 1).takeWhile is_tag_arg).length },
            (resolve_tags db ((argv.drop 1).takeWhile is_tag_arg)).1))) ∧
    (∀ (db : db_t) (run : List (List Nat)),
      (resolve_tags db run).2.length = run.length ∧
      (resolve_tags db run).2.map db_tag_t.sign = run.map (fun a => a.head? == some 43)) := by
  refine ⟨rfl, rfl, by decide, ?_, ?_, ?_, ?_, fun db run => resolve_tags_length run db⟩
  · intro db argv a h h1 h2
    unfold cmdline_parse
    simp only [(take_one_of_cases [] argv).2.2.2 a h h1 h2, one_of_loop]
  · intro va db argv h
    have hp : take_path ⟨argv, 1⟩ = none := take_path_none (fun a ha => by rw [h] at ha; cases ha)
    have hd : List.drop 1 argv = [] := List.drop_eq_nil_iff.2 (List.get?_eq_none.1 h)
    unfold cmdline_parse
    simp only [(take_one_of_cases va argv).1 h, ne_eq, not_true_eq_false, if_false, hp,
      parse_tags_eq, hd, List.takeWhile_nil, if_true, resolve_tags, List.length_nil]
  · intro va db argv c hc
    have hone : take_one_of ⟨argv, 1⟩
        ([{ str := some (bytes "rm"), val := cmd_t.CMD_RM },
          { str := some (bytes "ls"), val := cmd_t.CMD_LS }] ++ va) = some (c, ⟨argv, 2⟩) := by
      rcases hc with ⟨h, rfl⟩ | ⟨h, rfl⟩
      · exact (take_one_of_cases va argv).2.1 h
      · exact (take_one_of_cases va argv).2.2.1 h
    have hcq : c ≠ cmd_t.CMD_QUERY := by
      rcases hc with ⟨_, rfl⟩ | ⟨_, rfl⟩ <;> decide
    have hco : c ≠ cmd_t.CMD_OPEN := by
      rcases hc with ⟨_, rfl⟩ | ⟨_, rfl⟩ <;> decide
    constructor
    · intro p hp hs
      have hlen : ¬ argv.length < 3 := by
        have := (args_at_some hp).2.2
        omega
      unfold cmdline_parse
      simp only [hone, hcq, ne_eq, not_false_eq_true, if_true, take_path_some hp hs, hlen,
        if_false, parse_tags_eq, hco, ite_self]
    · intro hp
      unfold cmdline_parse
      simp only [hone, hcq, ne_eq, not_false_eq_true, if_true, take_path_none hp]
  · intro rest db argv a h h1 h2
    have hone : take_one_of ⟨argv, 1⟩
        ([{ str := some (bytes "rm"), val := cmd_t.CMD_RM },
          { str := some (bytes "ls"), val := cmd_t.CMD_LS }] ++ LAST_OF :: rest) =
        some (cmd_t.CMD_QUERY, ⟨argv, 1⟩) := by
      rw [(take_one_of_cases (LAST_OF :: rest) argv).2.2.2 a h h1 h2]
      rfl
    constructor
    · intro hs
      unfold cmdline_parse
      simp only [hone, ne_eq, not_true_eq_false, if_false, take_path_some h hs, parse_tags_eq,
        if_true]
    · intro hs
      have hp : take_path ⟨argv, 1⟩ = none :=
        take_path_none (fun b hb => by rw [h] at hb; cases hb; exact hs)
      unfold cmdline_parse
      have hq : ¬ cmd_t.CMD_QUERY = cmd_t.CMD_OPEN := by decide
      simp only [hone, ne_eq, not_true_eq_false, if_false, hp, parse_tags_eq, hq, ite_self]

/-! ## Queries by name on stores whose keys fit -/

theorem short_tags_def_tag {db : db_t} (h : ∀ u ∈ all_tags db, u.tag.length < TAG_MAX)
    (tag : List Nat) (hlen : tag.length < TAG_MAX) :
    ∀ u ∈ all_tags (db_def_tag db tag).1, u.tag.length < TAG_MAX := by
  intro u hu
  rw [mem_all_tags_def_tag] at hu
  rcases hu with hu | ⟨_, rfl⟩
  · exact h u hu
  · simp only [new_tag, List.length_take]
    omega

theorem short_tags_tag_note {db : db_t} (h : ∀ u ∈ all_tags db, u.tag.length < TAG_MAX)
    (path tag : List Nat) (hlen : tag.length < TAG_MAX) :
    ∀ u ∈ all_tags (db_tag_note db path tag), u.tag.length < TAG_MAX := by
  have h1 := short_tags_def_tag h tag hlen
  cases hn : get_note_entry (db_def_tag db tag).1 path with
  | none => rw [db_tag_note_none hn]; exact h1
  | some note_e =>
    rw [db_tag_note_some hn]
    intro u hu
    rw [all_tags_poke_note, mem_all_tags_poke_tag] at hu
    obtain ⟨v, hv, rfl⟩ := hu
    by_cases hc : v.addr = (db_def_tag db tag).2
    · simp only [hc, if_true]
      exact h1 v hv
    · simp only [hc, if_false]
      exact h1 v hv

theorem run_ops_short_tags (db : db_t) (ops : List db_op) (hb : ∀ op ∈ ops, op.bounded)
    (h : ∀ u ∈ all_tags db, u.tag.length < TAG_MAX) :
    ∀ u ∈ all_tags (run_ops db ops), u.tag.length < TAG_MAX := by
  induction ops generalizing db with
  | nil => exact h
  | cons op ops ih =>
    have hop := hb op (List.mem_cons_self _ _)
    have hrest : ∀ o ∈ ops, o.bounded := fun o ho => hb o (List.mem_cons_of_mem _ ho)
    cases op with
    | add_note path c m =>
      exact ih _ hrest (by
        show ∀ u ∈ all_tags (db_add_note db path c m), u.tag.length < TAG_MAX
        rw [all_tags_add_note]
        exact h)
    | def_tag tag => exact ih _ hrest (short_tags_def_tag h tag hop)
    | tag_note path tag => exact ih _ hrest (short_tags_tag_note h path tag hop)

theorem names_exact_of_well_formed {db : db_t} (h : well_formed db)
    (hs : ∀ u ∈ all_tags db, u.tag.length < TAG_MAX) : names_exact db := by
  obtain ⟨_, hb, hd, hk, hu, ht⟩ := h
  refine ⟨hb, hd, fun b e he _ => hk.2 b e he, ?_, ?_⟩
  · intro u hu1 v hv1 huv _
    exact List.inj_on_of_nodup_map hu.2 hu1 hv1 huv
  · intro n hn a ha
    obtain ⟨_, u, hu1, hu2, _⟩ := ht n hn a ha
    exact ⟨u, hu1, hu2, hs u hu1⟩

theorem reachable_names_exact (root : List Nat) (ops : List db_op)
    (hb : ∀ op ∈ ops, op.bounded) : names_exact (run_ops (db_empty root) ops) :=
  names_exact_of_well_formed (reachable_well_formed root ops hb)
    (run_ops_short_tags _ ops hb (by intro u hu; simp [all_tags_empty] at hu))

/-- A tag record with a name that fits is found by the lookup of its name. -/
theorem exact_tag_found {db : db_t} (h : names_exact db) {e : tag_entry}
    (he : e ∈ all_tags db) (hlen : e.tag.length < TAG_MAX) :
    ∃ x, db_get_tag db e.tag = some x := by
  obtain ⟨b, hb⟩ := (mem_all_tags db e).1 he
  obtain ⟨h1, h2⟩ := h.2.2.1 b e hb hlen
  have : ((db.btags (bucket_of (jb_fnv1a_str e.tag))).find?
      (fun cur => cur.hash == jb_fnv1a_str e.tag && cur.tag == e.tag)).isSome = true := by
    rw [List.find?_isSome]
    refine ⟨e, ?_, by simp [h1]⟩
    rw [← h1, h2]
    exact hb
  exact Option.isSome_iff_exists.1 this

/-- Defining a tag, under any name, keeps lookups by fitting names exact. -/
theorem names_exact_def_tag {db : db_t} (h : names_exact db) (nm : List Nat) :
    names_exact (db_def_tag db nm).1 := by
  obtain ⟨hb, hd, hk, hu, ht⟩ := h
  refine ⟨below_brk_def_tag hb nm, distinct_def_tag hd hb nm, ?_, ?_, ?_⟩
  · unfold db_def_tag
    cases hn : db_get_tag db nm with
    | some e => exact hk
    | none =>
      intro b e he hlen
      by_cases hbk : b = bucket_of (jb_fnv1a_str nm)
      · simp only [hbk, if_true, List.mem_cons] at he
        rcases he with rfl | he
        · simp only [List.length_take] at hlen
          have ht2 : List.take TAG_MAX nm = nm := List.take_of_length_le (by omega)
          simp [ht2, hbk]
        · exact hbk ▸ hk _ e he hlen
      · simp only [hbk, if_false] at he
        exact hk b e he hlen
  · intro u hu1 v hv1 huv hlen
    rw [mem_all_tags_def_tag] at hu1 hv1
    have hnew : ∀ w ∈ all_tags db, db_get_tag db nm = none →
        w.tag = (new_tag db nm).tag → w.tag.length < TAG_MAX → False := by
      intro w hw hnone hwt hwl
      obtain ⟨x, hx⟩ := exact_tag_found ⟨hb, hd, hk, hu, ht⟩ hw hwl
      have hshort : nm.length < TAG_MAX := by
        rw [hwt] at hwl
        simp only [new_tag, List.length_take] at hwl
        omega
      have ht2 : (new_tag db nm).tag = nm := by
        simp only [new_tag]
        exact List.take_of_length_le (Nat.le_of_lt hshort)
      rw [hwt, ht2, hnone] at hx
      cases hx
    rcases hu1 with hu1 | ⟨hnone, rfl⟩
    · rcases hv1 with hv1 | ⟨hnone, rfl⟩
      · exact hu u hu1 v hv1 huv hlen
      · exact absurd (hnew u hu1 hnone huv hlen) id
    · rcases hv1 with hv1 | ⟨_, rfl⟩
      · exact absurd (hnew v hv1 hnone huv.symm (huv ▸ hlen)) id
      · rfl
  · intro n hn a ha
    rw [all_notes_def_tag] at hn
    obtain ⟨u, hu1, hu2, hu3⟩ := ht n hn a ha
    exact ⟨u, (mem_all_tags_def_tag db nm u).2 (Or.inl hu1), hu2, hu3⟩

/-- When lookups by fitting names are exact, the pointer `db_def_tag` returns for a name,
of any length, is among a note's tag pointers exactly when the name is among the names of
the note's tags. -/
theorem def_tag_ptr_mem_iff_exact {db : db_t} (h : names_exact db) (nm : List Nat)
    {n : note_entry} (hn : n ∈ all_notes db) :
    (db_def_tag db nm).2 ∈ n.tags ↔ nm ∈ n.tags.map (tag_name db) := by
  obtain ⟨hb, hd, hk, hu, ht⟩ := h
  cases hg : db_get_tag db nm with
  | some e =>
    have he := db_get_tag_mem hg
    have hname : e.tag = nm := by
      have := List.find?_some hg
      simp only [Bool.and_eq_true, beq_iff_eq] at this
      exact this.2
    have hp : (db_def_tag db nm).2 = e.addr := by simp [db_def_tag, hg]
    rw [hp]
    constructor
    · intro hm
      exact List.mem_map.2 ⟨e.addr, hm, by rw [tag_name_of_mem hd he, hname]⟩
    · intro hm
      obtain ⟨a, ha, han⟩ := List.mem_map.1 hm
      obtain ⟨u, hu1, hu2, hu3⟩ := ht n hn a ha
      rw [← hu2, tag_name_of_mem hd hu1] at han
      have : u = e := hu u hu1 e he (han.trans hname.symm) hu3
      rw [← this, hu2]
      exact ha
  | none =>
    have hp : (db_def_tag db nm).2 = db.brk := by simp [db_def_tag, hg]
    rw [hp]
    constructor
    · intro hm
      exact absurd ((hb.1 n hn).2 _ hm) (lt_irrefl _)
    · intro hm
      obtain ⟨a, ha, han⟩ := List.mem_map.1 hm
      obtain ⟨u, hu1, hu2, hu3⟩ := ht n hn a ha
      rw [← hu2, tag_name_of_mem hd hu1] at han
      obtain ⟨x, hx⟩ := exact_tag_found ⟨hb, hd, hk, hu, ht⟩ hu1 hu3
      rw [han, hg] at hx
      cases hx

theorem tag_names_def_tag_exact {db : db_t} (h : names_exact db) (nm : List Nat)
    {n : note_entry} (hn : n ∈ all_notes db) :
    n.tags.map (tag_name (db_def_tag db nm).1) = n.tags.map (tag_name db) := by
  have h2 := names_exact_def_tag h nm
  apply List.map_congr_left
  intro a ha
  obtain ⟨u, hu1, hu2, _⟩ := h.2.2.2.2 n hn a ha
  have hu3 : u ∈ all_tags (db_def_tag db nm).1 := (mem_all_tags_def_tag db nm u).2 (Or.inl hu1)
  rw [← hu2, tag_name_of_mem h.2.1 hu1, tag_name_of_mem h2.2.1 hu3]

/-- The filter built for a run of tag arguments, of any length: the note records stay as
they are, and a note passes the filter exactly when it meets every argument. -/
theorem resolve_tags_filter :
    ∀ (run : List (List Nat)) (db : db_t), names_exact db →
      (∀ a ∈ run, is_tag_arg a = true) →
      all_notes (resolve_tags db run).1 = all_notes db ∧
      ∀ n ∈ all_notes db, note_matches n (resolve_tags db run).2 ↔
        ∀ a ∈ run, arg_holds db n a := by
  intro run
  induction run with
  | nil =>
    intro db _ _
    refine ⟨rfl, fun n _ => ?_⟩
    simp [resolve_tags, note_matches]
  | cons a run ih =>
    intro db hex hrun
    have ha := hrun a (List.mem_cons_self _ _)
    cases a with
    | nil => simp [is_tag_arg] at ha
    | cons c nm =>
      have hex1 := names_exact_def_tag hex nm
      obtain ⟨i1, i2⟩ := ih (db_def_tag db nm).1 hex1
        (fun x hx => hrun x (List.mem_cons_of_mem _ hx))
      refine ⟨?_, fun n hn => ?_⟩
      · simp only [resolve_tags, List.tail_cons]
        rw [i1, all_notes_def_tag]
      · have hn1 : n ∈ all_notes (db_def_tag db nm).1 := by
          rw [all_notes_def_tag]
          exact hn
        have hrestiff := i2 n hn1
        have hnames := tag_names_def_tag_exact hex nm hn
        have hhead := def_tag_ptr_mem_iff_exact hex nm hn
        simp only [resolve_tags, List.tail_cons, List.head?_cons, note_matches, List.mem_cons,
          forall_eq_or_imp] at hrestiff ⊢
        rw [hrestiff]
        have e1 : (decide ((db_def_tag db nm).2 ∈ n.tags) = (some c == some 43)) ↔
            arg_holds db n (c :: nm) := by
          have hd : (some c == some 43) = decide (c = 43) := by
            by_cases h43 : c = 43 <;> simp [h43]
          rw [hd]
          simp only [arg_holds, decide_eq_decide, hhead]
        have e2 : ∀ x, arg_holds (db_def_tag db nm).1 n x ↔ arg_holds db n x := by
          intro x
          cases x with
          | nil => rfl
          | cons c2 nm2 => simp only [arg_holds, hnames]
        simp only [e1, e2]

/-- A query from the command line on a store where lookups by fitting names are exact:
it ends, and visits the paths of the notes that meet every tag argument of the run at
the head of the arguments. -/
theorem query_paths_run {db : db_t} (h : names_exact db) (args : List (List Nat)) :
    ∃ v, query_paths db args = some v ∧
      ∀ p, p ∈ v ↔ ∃ n ∈ all_notes db, n.path = p ∧
        ∀ a ∈ args.takeWhile is_tag_arg, arg_holds db n a := by
  have hlen : (args.takeWhile is_tag_arg).length < args.length + 1 := by
    have := (List.takeWhile_sublist is_tag_arg (l := args)).length_le
    omega
  have htk := take_tags_resolve args (args.takeWhile is_tag_arg) 0 db cmd_t.CMD_QUERY []
    (args.length + 1) (by rw [List.drop_zero]) hlen
  obtain ⟨h2, h4⟩ := resolve_tags_filter (args.takeWhile is_tag_arg) db h
    (fun a ha => List.mem_takeWhile_imp ha)
  refine ⟨(db_query (resolve_tags db (args.takeWhile is_tag_arg)).1 []
      (resolve_tags db (args.takeWhile is_tag_arg)).2 visit_log).map note_entry.path,
    by rw [query_paths, htk]; rfl, ?_⟩
  intro p
  rw [db_query_log, h2, List.mem_map]
  constructor
  · rintro ⟨n, hn, rfl⟩
    rw [List.mem_filter, decide_eq_true_iff] at hn
    exact ⟨n, hn.1, rfl, (h4 n hn.1).1 hn.2⟩
  · rintro ⟨n, hn, rfl, hh⟩
    exact ⟨n, by rw [List.mem_filter, decide_eq_true_iff]; exact ⟨hn, (h4 n hn).2 hh⟩, rfl⟩

/-- C22 as stated fails for tag names that do not fit the record. Two sequences register
the note a with one tag each: the first under a name of 34 bytes, the second under the
first 32 bytes of that name. Both records hold the same 32 bytes, `TAG_MAX`, without a
terminator; the byte that follows the field `tag` in `struct tag_entry` is the low byte
of the hash, zero for both names, so both records read as the same string and the two
stores register the same note with the same tag name. Queried with `+` and that name of
32 bytes, the first store visits nothing (the record is kept under the hash of the 34
bytes and the lookup misses it) and the second visits a. -/
theorem query_order_independent_counterexample :
    edge_tag.length = TAG_MAX ∧ edge_tag_long.length = TAG_MAX + 2 ∧
    jb_fnv1a_str edge_tag % 256 = 0 ∧ jb_fnv1a_str edge_tag_long % 256 = 0 ∧
    note_view (run_ops (db_empty (bytes "/nb"))
      [.add_note (bytes "a") 0 0, .tag_note (bytes "a") edge_tag_long]) =
        [(bytes "a", [edge_tag])] ∧
    note_view (run_ops (db_empty (bytes "/nb"))
      [.add_note (bytes "a") 0 0, .tag_note (bytes "a") edge_tag]) =
        [(bytes "a", [edge_tag])] ∧
    same_notes
      (run_ops (db_empty (bytes "/nb"))
        [.add_note (bytes "a") 0 0, .tag_note (bytes "a") edge_tag_long])
      (run_ops (db_empty (bytes "/nb"))
        [.add_note (bytes "a") 0 0, .tag_note (bytes "a") edge_tag]) ∧
    query_paths
      (run_ops (db_empty (bytes "/nb"))
        [.add_note (bytes "a") 0 0, .tag_note (bytes "a") edge_tag_long])
      [43 :: edge_tag] = some [] ∧
    query_paths
      (run_ops (db_empty (bytes "/nb"))
        [.add_note (bytes "a") 0 0, .tag_note (bytes "a") edge_tag])
      [43 :: edge_tag] = some [bytes "a"] := by
  refine ⟨by decide, by decide, by decide, by decide, by decide, by decide, by decide,
    by decide, by decide⟩

/-- C22 (amended; query results do not depend on insertion order): for any two sequences
of `db_add_note`, `db_def_tag` and `db_tag_note` calls whose paths are shorter than
`PATH_MAX - 1` and whose tag names are shorter than `TAG_MAX`, whose stores register the
same set of note paths with the same set of tag names per note, and for every list of
command line arguments, the filter loop ends on both stores and `db_query`, run with the
filter the loop builds from the tag arguments `+name` and `-name` at the head of the
list, names of any length, visits the same set of note paths in both stores: the paths
of the notes that meet every one of these arguments. -/
theorem query_order_independent (root1 root2 : List Nat) (ops1 ops2 : List db_op)
    (args : List (List Nat))
    (hb1 : ∀ op ∈ ops1, op.bounded) (hb2 : ∀ op ∈ ops2, op.bounded)
    (hsame : same_notes (run_ops (db_empty root1) ops1) (run_ops (db_empty root2) ops2)) :
    ∃ v1 v2, query_paths (run_ops (db_empty root1) ops1) args = some v1 ∧
      query_paths (run_ops (db_empty root2) ops2) args = some v2 ∧
      (∀ p, p ∈ v1 ↔ p ∈ v2) ∧
      ∀ p, p ∈ v1 ↔ ∃ n ∈ all_notes (run_ops (db_empty root1) ops1), n.path = p ∧
        ∀ a ∈ args.takeWhile is_tag_arg, arg_holds (run_ops (db_empty root1) ops1) n a := by
  have w1 := reachable_well_formed root1 ops1 hb1
  have w2 := reachable_well_formed root2 ops2 hb2
  obtain ⟨v1, hv1, hm1⟩ := query_paths_run (reachable_names_exact root1 ops1 hb1) args
  obtain ⟨v2, hv2, hm2⟩ := query_paths_run (reachable_names_exact root2 ops2 hb2) args
  refine ⟨v1, v2, hv1, hv2, fun p => ?_, hm1⟩
  rw [hm1, hm2]
  constructor
  · rintro ⟨n, hn, rfl, hh⟩
    obtain ⟨n2, hn2, hp, hh2⟩ := covers_transfer w1 w2 hsame.1 hsame.2 _ hn hh
    exact ⟨n2, hn2, hp, hh2⟩
  · rintro ⟨n, hn, rfl, hh⟩
    obtain ⟨n2, hn2, hp, hh2⟩ := covers_transfer w2 w1 hsame.2 hsame.1 _ hn hh
    exact ⟨n2, hn2, hp, hh2⟩

/-- Witness for C22: the notes a: x and b: x, y registered and tagged in two different
orders, queried with `+x -y` and a third argument `-` with the name of 34 bytes; both
queries visit the path of a alone. -/
theorem query_order_independent_witness :
    same_notes
      (run_ops (db_empty (bytes "/nb"))
        [.add_note (bytes "a") 0 0, .add_note (bytes "b") 0 0, .tag_note (bytes "a") (bytes "x"),
         .tag_note (bytes "b") (bytes "x"), .tag_note (bytes "b") (bytes "y")])
      (run_ops (db_empty (bytes "/nb"))
        [.def_tag (bytes "y"), .add_note (bytes "b") 1 1, .tag_note (bytes "b") (bytes "y"),
         .add_note (bytes "a") 1 1, .tag_note (bytes "b") (bytes "x"),
         .tag_note (bytes "a") (bytes "x")]) ∧
    query_paths
      (run_ops (db_empty (bytes "/nb"))
        [.add_note (bytes "a") 0 0, .add_note (bytes "b") 0 0, .tag_note (bytes "a") (bytes "x"),
         .tag_note (bytes "b") (bytes "x"), .tag_note (bytes "b") (bytes "y")])
      [bytes "+x", bytes "-y", 45 :: edge_tag_long] = some [bytes "a"] ∧
    query_paths
      (run_ops (db_empty (bytes "/nb"))
        [.def_tag (bytes "y"), .add_note (bytes "b") 1 1, .tag_note (bytes "b") (bytes "y"),
         .add_note (bytes "a") 1 1, .tag_note (bytes "b") (bytes "x"),
         .tag_note (bytes "a") (bytes "x")])
      [bytes "+x", bytes "-y", 45 :: edge_tag_long] = some [bytes "a"] ∧
    ∃ v1 v2,
      query_paths
        (run_ops (db_empty (bytes "/nb"))
          [.add_note (bytes "a") 0 0, .add_note (bytes "b") 0 0,
           .tag_note (bytes "a") (bytes "x"), .tag_note (bytes "b") (bytes "x"),
           .tag_note (bytes "b") (bytes "y")])
        [bytes "+x", bytes "-y", 45 :: edge_tag_long] = some v1 ∧
      query_paths
        (run_ops (db_empty (bytes "/nb"))
          [.def_tag (bytes "y"), .add_note (bytes "b") 1 1, .tag_note (bytes "b") (bytes "y"),
           .add_note (bytes "a") 1 1, .tag_note (bytes "b") (bytes "x"),
           .tag_note (bytes "a") (bytes "x")])
        [bytes "+x", bytes "-y", 45 :: edge_tag_long] = some v2 ∧
      (∀ p, p ∈ v1 ↔ p ∈ v2) ∧
      ∀ p, p ∈ v1 ↔ ∃ n ∈ all_notes (run_ops (db_empty (bytes "/nb"))
          [.add_note (bytes "a") 0 0, .add_note (bytes "b") 0 0,
           .tag_note (bytes "a") (bytes "x"), .tag_note (bytes "b") (bytes "x"),
           .tag_note (bytes "b") (bytes "y")]), n.path = p ∧
        ∀ a ∈ [bytes "+x", bytes "-y", 45 :: edge_tag_long].takeWhile is_tag_arg,
          arg_holds (run_ops (db_empty (bytes "/nb"))
            [.add_note (bytes "a") 0 0, .add_note (bytes "b") 0 0,
             .tag_note (bytes "a") (bytes "x"), .tag_note (bytes "b") (bytes "x"),
             .tag_note (bytes "b") (bytes "y")]) n a :=
  ⟨by decide, by decide, by decide,
   query_order_independent (bytes "/nb") (bytes "/nb") _ _
     [bytes "+x", bytes "-y", 45 :: edge_tag_long] (by decide) (by decide) (by decide)⟩

/-! ## Trees whose paths fit the buffer of `delete_empty` -/

/-- On a tree that `fits`, the path joined for a subdirectory comes without error and is
shorter than `PATH_MAX`. -/
theorem fits_joined_short (path n : List Nat) (sub rest : List fs_node)
    (h : fits path (fs_node.dir n sub :: rest) = true) :
    (jb_path_cat path n).1 = 0 ∧ (jb_path_cat path n).2.length < PATH_MAX := by
  simp only [fits, fits_node, Bool.and_eq_true, beq_iff_eq, decide_eq_true_eq] at h
  exact h.1.1

/-- A subdirectory whose joined path has `PATH_MAX` bytes or more is outside `fits`, also
where `jb_path_cat` returns 0: a path and a name whose lengths add up to `PATH_MAX - 1`
or `PATH_MAX`, joined with a `/`. -/
theorem fits_excludes_overrun (path n : List Nat) (sub rest : List fs_node)
    (hlast : path.getLast? ≠ some 47)
    (hlen : path.length + n.length = PATH_MAX - 1 ∨ path.length + n.length = PATH_MAX) :
    (jb_path_cat path n).1 = 0 ∧ PATH_MAX ≤ (jb_path_cat path n).2.length ∧
    fits path (fs_node.dir n sub :: rest) = false := by
  have hP : PATH_MAX = 4096 := rfl
  have hcat := jb_path_cat_fits path n (by omega)
  rw [if_neg hlast] at hcat
  have hl : PATH_MAX ≤ (jb_path_cat path n).2.length := by
    rw [hcat]
    simp only [List.length_append, List.length_singleton]
    omega
  refine ⟨by rw [hcat], hl, ?_⟩
  cases hf : fits path (fs_node.dir n sub :: rest) with
  | false => rfl
  | true =>
    have := (fits_joined_short path n sub rest hf).2
    omega

end Adrus
